import Mathlib

/-
  Verification of the read-side lookup core of Icegrams (src/icegrams/trie.cpp).

  The C++ functions are shallowly embedded over a byte-buffer model:
  a buffer is a `List Nat` of bytes, reads beyond the end yield 0,
  machine-word arithmetic is `Nat` with explicit reduction modulo 2^32
  (`UINT`) and 2^64 (`UINT64`).  C loops that can diverge on malformed
  buffers are given explicit fuel and return `Option`; `none` models
  divergence.  The shift expressions `1 << nLb` and `1 << n` of the source
  are embedded with wrap-around (mod 2^32) semantics.

  The writer that produces the binary artifact is not part of trie.cpp;
  where a claim needs it (the monotonic-list encoder, the partitioned
  encoder, the trie node layout), it is modelled from the specification,
  and those definitions carry a `Modelled from the spec` note.
-/

/-- The sentinel 0xFFFFFFFF returned by the C code for "not found". -/
def NOT_FOUND : Nat := 4294967295

/-- Reduction of a value to the 32-bit unsigned range (C `UINT`). -/
def u32 (x : Nat) : Nat := x % 4294967296

/-- Reduction of a value to the 64-bit unsigned range (C `UINT64`). -/
def u64 (x : Nat) : Nat := x % 18446744073709551616

/-- 32-bit unsigned subtraction with wrap-around (C `UINT` subtraction). -/
def sub32 (a b : Nat) : Nat := (a % 4294967296 + (4294967296 - b % 4294967296)) % 4294967296

/-- 64-bit unsigned subtraction with wrap-around (C `UINT64` subtraction);
used to state the difference `x - v` of claim C7 over `u64` values. -/
def sub64 (a b : Nat) : Nat :=
  (a % 18446744073709551616 + (18446744073709551616 - b % 18446744073709551616)) %
    18446744073709551616

/-- The memory-mapped buffer: a list of bytes. -/
abbrev Buf := List Nat

/-- The byte at offset `i` of the buffer (0 beyond the end; values forced below 256). -/
def byteAt (m : Buf) (i : Nat) : Nat := m.getD i 0 % 256

/-- Little-endian 16-bit read (`Trie::uint16At`, `*(UINT16*)p`). -/
def readU16 (m : Buf) (i : Nat) : Nat := byteAt m i + 256 * byteAt m (i + 1)

/-- Little-endian 32-bit read (`Trie::uintAt`, `*(UINT32*)p`). -/
def readU32 (m : Buf) (i : Nat) : Nat :=
  byteAt m i + 256 * byteAt m (i + 1) + 65536 * byteAt m (i + 2) + 16777216 * byteAt m (i + 3)

/-- Bit `i` of the buffer, LSB-first within each byte. -/
def bufBit (m : Buf) (i : Nat) : Nat := (byteAt m (i / 8) >>> (i % 8)) % 2

/-- Population count of a byte value: the semantics of the `_BIT_COUNT[256]`
lookup table of the source, which tabulates the number of 1-bits of each
byte value `0..255`. -/
def bitCount8 (v : Nat) : Nat :=
  v % 2 + (v >>> 1) % 2 + (v >>> 2) % 2 + (v >>> 3) % 2 +
  (v >>> 4) % 2 + (v >>> 5) % 2 + (v >>> 6) % 2 + (v >>> 7) % 2

/-- The loop of `retrieve`: `while (nBits < n) { nBuf |= *++pb << nBits; nBits += 8; }`.
`p` is the byte offset last read. The fuel is always sufficient (see
`retrieveLoop_fuel`); the 0-fuel base case is unreachable. -/
def retrieveLoop (m : Buf) (n : Nat) : Nat → Nat → Nat → Nat → Nat
  | 0, _, buf, _ => buf
  | fuel + 1, p, buf, bits =>
    if bits < n then
      retrieveLoop m n fuel (p + 1) (u32 (buf ||| u32 (byteAt m (p + 1) <<< bits))) (bits + 8)
    else buf

/-- `retrieve(pb, nStart, n)`: read `n` bits starting at bit `start` after byte
offset `base` (the `pb` argument of the C function). -/
def retrieve (m : Buf) (base start n : Nat) : Nat :=
  if n = 0 then 0
  else
    let p := base + (start >>> 3)
    let buf := byteAt m p >>> (start &&& 7)
    let bits := 8 - (start &&& 7)
    retrieveLoop m n n p buf bits &&& sub32 (u32 (1 <<< n)) 1

/-- The bit scan of `bitselect`: `p` is the current byte offset, `k` the bit
index of the current mask (`bMask = 1 << k`), `ix` the running bit index and
`n` the number of 1-bits still to find.  Fuel exhaustion (`none`) models the
divergence of the C loop when the buffer holds too few 1-bits. -/
def bitselectAux (m : Buf) : Nat → Nat → Nat → Nat → Nat → Option Nat
  | 0, _, _, _, _ => none
  | fuel + 1, p, k, ix, n =>
    if (byteAt m p >>> k) % 2 = 1 then
      if n = 1 then some ix
      else if k = 7 then bitselectAux m fuel (p + 1) 0 (ix + 1) (n - 1)
      else bitselectAux m fuel p (k + 1) (ix + 1) (n - 1)
    else if k = 7 then bitselectAux m fuel (p + 1) 0 (ix + 1) n
    else bitselectAux m fuel p (k + 1) (ix + 1) n

/-- `bitselect(pb, n)`: bit index of the `n`-th (1-based) set bit at or after
byte offset `base`.  With `n = 0` the outer `while (n)` loop of the source
never runs and `nIx = 0` is returned. -/
def bitselect (m : Buf) (base n : Nat) : Option Nat :=
  if n = 0 then some 0
  else bitselectAux m (8 * m.length + 8) base 0 0 n

/-- The start-bit byte scan of `lookupFrequency`:
`while (1) { nBcnt = _BIT_COUNT[*p]; if (nBcnt >= nSkip) break; p++; nSkip -= nBcnt; }`. -/
def freqScanLoop (m : Buf) : Nat → Nat → Nat → Option (Nat × Nat)
  | 0, _, _ => none
  | fuel + 1, p, skip =>
    let bcnt := bitCount8 (byteAt m p)
    if skip ≤ bcnt then some (p, skip)
    else freqScanLoop m fuel (p + 1) (skip - bcnt)

/-- Body of `lookupFrequency` from the point where `p` has been stepped past
the rank table (`p0` is that byte offset).  Shared by the embedding of the
source and by the layout variants used to settle claim C3. -/
def freqCore (m : Buf) (base p0 Q i : Nat) : Option Nat :=
  let mval := readU32 m p0
  let pIdx := p0 + 4
  let p1 := p0 + (1 + mval) * 4
  let cwBytes := readU32 m p1
  let p2 := p1 + 4 + cwBytes
  let st :=
    if i / Q ≠ 0 then
      let q := i / Q
      let bcnt := readU32 m (pIdx + 4 * (q - 1))
      let p3 := p2 + (bcnt >>> 3)
      let mask := sub32 (u32 (1 <<< (bcnt &&& 7))) 1
      (p3, sub32 i (sub32 (u32 (q * Q)) (bitCount8 (byteAt m p3 &&& mask))))
    else (p2, i)
  match freqScanLoop m (m.length + 2) st.1 st.2 with
  | none => none
  | some (p, skip) =>
    match bitselect m p (skip + 1), bitselect m p (skip + 2) with
    | some ns, some ne =>
      let lg := ne - ns
      let cw := retrieve m (p - cwBytes) ns lg
      let idx := sub32 (u32 (cw + u32 (1 <<< lg))) 2
      some (readU16 m (base + 2 + 2 * idx))
    | _, _ => none

/-- `lookupFrequency(pb, nQuantumSize, nIndex)`: the source computes
`p = pb + sizeof(UINT16) * (nNumRanks + 1)` before reading the quantum count. -/
def lookupFrequency (m : Buf) (base Q i : Nat) : Option Nat :=
  freqCore m base (base + 2 * (readU16 m base + 1)) Q i

/-- Exit state of the high-bits scans of `lookupMonotonic` /
`lookupPairMonotonic`: byte offset, current mask, remaining 1-bits, high part. -/
structure HScan where
  p : Nat
  mask : Nat
  hpos : Nat
  high : Nat

/-- The high-bits byte scan of `lookupMonotonic`. -/
def highScanLoop (m : Buf) : Nat → Nat → Nat → Nat → Nat → Option HScan
  | 0, _, _, _, _ => none
  | fuel + 1, p, mask, hpos, high =>
    let bcnt := bitCount8 (byteAt m p &&& mask)
    if hpos < bcnt then some ⟨p, mask, hpos, high⟩
    else highScanLoop m fuel (p + 1) 255 (hpos - bcnt) (u64 (high + (8 - bcnt)))

/-- The final bit walk of the high pass: `nBy` has been replaced by the masked
byte value `v`; each 0-bit increments the high part, the `hpos`-th remaining
1-bit ends the walk. -/
def bitWalkLoop : Nat → Nat → Nat → Nat → Option Nat
  | 0, _, _, _ => none
  | fuel + 1, v, hpos, high =>
    if v % 2 = 1 then
      if hpos = 0 then some high
      else bitWalkLoop fuel (v >>> 1) (hpos - 1) high
    else bitWalkLoop fuel (v >>> 1) hpos (u64 (high + 1))

/-- The low-bits accumulation loop shared by `lookupMonotonic` and
`lookupPairMonotonic`; returns the bit accumulator, the offset of the last
byte read and the bit count. -/
def lowAccumLoop (m : Buf) : Nat → Nat → Nat → Nat → Nat → Nat × Nat × Nat
  | 0, p, _, bits, cnt => (bits, p, cnt)
  | fuel + 1, p, nEnd, bits, cnt =>
    let bits2 := u64 (bits ||| u64 (byteAt m p <<< cnt))
    if cnt + 8 ≥ nEnd then (bits2, p, cnt + 8)
    else lowAccumLoop m fuel (p + 1) nEnd bits2 (cnt + 8)

/-- Initial state of the high pass (the `if (nIndex >= nQuantumSize)` block):
start byte offset, mask, remaining 1-bits and initial high part. -/
def highInit (m : Buf) (base pb Q i n lb : Nat) : HScan :=
  let hby0 := u32 (n * lb + 7) >>> 3
  if Q ≤ i then
    let q := i / Q
    let hbit := readU32 m (base + 8 + 4 * (q - 1))
    ⟨pb + hby0 + (hbit >>> 3),
     255 ^^^ sub32 (u32 (1 <<< (hbit &&& 7))) 1,
     sub32 i (u32 (q * Q)),
     u64 (sub32 (hbit &&& 4294967288) (u32 (q * Q)))⟩
  else ⟨pb + hby0, 255, i, 0⟩

/-- `lookupMonotonic(pb, nQuantumSize, nIndex)` at byte offset `base`. -/
def lookupMonotonic (m : Buf) (base Q i : Nat) : Option Nat :=
  let n := readU32 m base
  let lb := readU16 m (base + 4)
  let hb := readU16 m (base + 6)
  let hbufSize := if hb ≠ 0 then u32 (sub32 n 1 / Q * 4) else 0
  let pb := base + 8 + hbufSize
  let lowMask := sub32 (u32 (1 <<< lb)) 1
  let lowBitIndex := u32 (i * lb)
  let nBy := lowBitIndex >>> 3
  let s := lowBitIndex &&& 7
  let nEnd := lb + s
  let acc := lowAccumLoop m (nEnd + 8) (pb + nBy) nEnd 0 0
  let lowPart := (acc.1 >>> s) &&& lowMask
  if hb = 0 then some lowPart
  else
    let st := highInit m base pb Q i n lb
    match highScanLoop m (m.length + 2) st.p st.mask st.hpos st.high with
    | none => none
    | some ex =>
      match bitWalkLoop 8 (byteAt m ex.p &&& ex.mask) ex.hpos ex.high with
      | none => none
      | some high => some (u64 (high <<< lb) ||| lowPart)

/-- The high-bits byte scan of `lookupPairMonotonic`, which computes the
popcount of the next byte at the end of each iteration and carries it. -/
def highScanLoopP (m : Buf) : Nat → Nat → Nat → Nat → Nat → Nat → Option (HScan × Nat)
  | 0, _, _, _, _, _ => none
  | fuel + 1, p, mask, hpos, high, bcnt =>
    if hpos < bcnt then some (⟨p, mask, hpos, high⟩, bcnt)
    else
      highScanLoopP m fuel (p + 1) 255 (hpos - bcnt) (u64 (high + (8 - bcnt)))
        (bitCount8 (byteAt m (p + 1)))

/-- The second low-bits accumulation of `lookupPairMonotonic`:
`while (nBitCount < nLb) { nBits |= pb[++nBy] << nBitCount; nBitCount += 8; }`. -/
def lowAccum2Loop (m : Buf) (lb : Nat) : Nat → Nat → Nat → Nat → Nat
  | 0, _, bits, _ => bits
  | fuel + 1, p, bits, cnt =>
    if cnt < lb then
      lowAccum2Loop m lb fuel (p + 1) (u64 (bits ||| u64 (byteAt m (p + 1) <<< cnt))) (cnt + 8)
    else bits

/-- `lookupPairMonotonic(pb, nQuantumSize, nIndex, pn1, pn2)`: returns the two
values that the source writes through the out-pointers (the null-pointer check
of the source has no counterpart in the embedding). -/
def lookupPairMonotonic (m : Buf) (base Q i : Nat) : Option (Nat × Nat) :=
  let n := readU32 m base
  let lb := readU16 m (base + 4)
  let hb := readU16 m (base + 6)
  let hbufSize := if hb ≠ 0 then u32 (sub32 n 1 / Q * 4) else 0
  let pb := base + 8 + hbufSize
  let lowMask := sub32 (u32 (1 <<< lb)) 1
  let lowBitIndex := u32 (i * lb)
  let nBy := lowBitIndex >>> 3
  let s := lowBitIndex &&& 7
  let nEnd := lb + s
  let acc := lowAccumLoop m (nEnd + 8) (pb + nBy) nEnd 0 0
  let bitsA := acc.1 >>> s
  let lowPart1 := bitsA &&& lowMask
  let bitsB := bitsA >>> lb
  let cntB := acc.2.2 - (s + lb)
  let lowPart2 := lowAccum2Loop m lb (lb + 8) acc.2.1 bitsB cntB &&& lowMask
  if hb = 0 then some (lowPart1, lowPart2)
  else
    let st := highInit m base pb Q i n lb
    match highScanLoopP m (m.length + 2) st.p st.mask st.hpos st.high
        (bitCount8 (byteAt m st.p &&& st.mask)) with
    | none => none
    | some (ex1, bcnt1) =>
      match highScanLoopP m (m.length + 2) ex1.p ex1.mask (ex1.hpos + 1) ex1.high bcnt1 with
      | none => none
      | some (ex2, _) =>
        match bitWalkLoop 8 (byteAt m ex1.p &&& ex1.mask) ex1.hpos ex1.high,
              bitWalkLoop 8 (byteAt m ex2.p &&& ex2.mask) ex2.hpos ex2.high with
        | some h1, some h2 =>
          some (u64 (h1 <<< lb) ||| lowPart1, u64 (h2 <<< lb) ||| lowPart2)
        | _, _ => none

/-- The binary-search loop of `searchMonotonic`. -/
def searchMonoAux (m : Buf) (base Q : Nat) : Nat → Nat → Nat → Nat → Option Nat
  | 0, _, _, _ => none
  | fuel + 1, p1, p2, x =>
    if p1 ≥ p2 then some NOT_FOUND
    else
      let mid := u32 (p1 + p2) / 2
      match lookupMonotonic m base Q mid with
      | none => none
      | some t =>
        if t = x then some mid
        else if x < t then searchMonoAux m base Q fuel p1 mid x
        else searchMonoAux m base Q fuel (mid + 1) p2 x

/-- `searchMonotonic(pb, nQuantumSize, nP1, nP2, n)`. -/
def searchMonotonic (m : Buf) (base Q p1 p2 x : Nat) : Option Nat :=
  searchMonoAux m base Q (p2 - p1 + 1) p1 p2 (u64 x)

/-- `searchMonotonicPrefix(pb, nQuantumSize, nP1, nP2, n)`. -/
def searchMonotonicPrefix (m : Buf) (base Q p1 p2 x : Nat) : Option Nat :=
  if p1 ≥ p2 then some NOT_FOUND
  else if p1 ≠ 0 then
    match lookupMonotonic m base Q (p1 - 1) with
    | none => none
    | some w => searchMonotonic m base Q p1 p2 (u64 (x + w))
  else searchMonotonic m base Q p1 p2 x

/-- `lookupPartition(pb, nOuterQuantum, nInnerQuantum, nIndex)`. -/
def lookupPartition (m : Buf) (base Qo Qi i : Nat) : Option Nat :=
  let q := i / Qo
  let r := i % Qo
  let chunks := readU32 m base
  let outerOff := base + 4 * (1 + chunks)
  let innerOff := base + readU32 m (base + 4 + 4 * q)
  match (if q ≠ 0 then lookupMonotonic m outerOff Qi (q - 1) else some 0) with
  | none => none
  | some pre =>
    match lookupMonotonic m innerOff Qi r with
    | none => none
    | some v => some (u64 (pre + v))

/-- `lookupPairPartition(pb, nOuterQuantum, nInnerQuantum, nIndex, pn1, pn2)`. -/
def lookupPairPartition (m : Buf) (base Qo Qi i : Nat) : Option (Nat × Nat) :=
  let r := i % Qo
  if r = Qo - 1 then
    match lookupPartition m base Qo Qi i, lookupPartition m base Qo Qi (i + 1) with
    | some a, some b => some (a, b)
    | _, _ => none
  else
    let q := i / Qo
    let chunks := readU32 m base
    let outerOff := base + 4 * (1 + chunks)
    let innerOff := base + readU32 m (base + 4 + 4 * q)
    match (if q ≠ 0 then lookupMonotonic m outerOff Qi (q - 1) else some 0) with
    | none => none
    | some pre =>
      match lookupPairMonotonic m innerOff Qi r with
      | none => none
      | some (a, b) => some (u64 (a + pre), u64 (b + pre))

/-- The binary-search loop of `searchPartition`. -/
def searchPartAux (m : Buf) (base Qo Qi : Nat) : Nat → Nat → Nat → Nat → Option Nat
  | 0, _, _, _ => none
  | fuel + 1, p1, p2, x =>
    if p1 ≥ p2 then some NOT_FOUND
    else
      let mid := u32 (p1 + p2) / 2
      match lookupPartition m base Qo Qi mid with
      | none => none
      | some t =>
        if t = x then some mid
        else if x < t then searchPartAux m base Qo Qi fuel p1 mid x
        else searchPartAux m base Qo Qi fuel (mid + 1) p2 x

/-- `searchPartition(pb, nOuterQuantum, nInnerQuantum, nP1, nP2, n)`. -/
def searchPartition (m : Buf) (base Qo Qi p1 p2 x : Nat) : Option Nat :=
  searchPartAux m base Qo Qi (p2 - p1 + 1) p1 p2 (u64 x)

/-- `searchPartitionPrefix(pb, nOuterQuantum, nInnerQuantum, nP1, nP2, n)`. -/
def searchPartitionPrefix (m : Buf) (base Qo Qi p1 p2 x : Nat) : Option Nat :=
  if p1 ≥ p2 then some NOT_FOUND
  else if p1 ≠ 0 then
    match lookupPartition m base Qo Qi (p1 - 1) with
    | none => none
    | some w => searchPartition m base Qo Qi p1 p2 (u64 (x + w))
  else searchPartition m base Qo Qi p1 p2 x

/-- `strlen` over the buffer starting at offset `p` (bytes beyond the end of
the buffer read as 0, so the fuel `m.length + 1` used below always suffices). -/
def strlenAux (m : Buf) : Nat → Nat → Nat
  | 0, _ => 0
  | fuel + 1, p => if byteAt m p = 0 then 0 else 1 + strlenAux m fuel (p + 1)

/-- Length of the NUL-terminated byte string at offset `p`. -/
def strlen (m : Buf) (p : Nat) : Nat := strlenAux m (m.length + 1) p

/-- `Trie::childSize(nNodeOffset)`. -/
def childSize (m : Buf) (off : Nat) : Nat :=
  let hdr := readU32 m off
  let childrenSize := if hdr &&& 1073741824 ≠ 0 then 0 else 5
  let strLen := if hdr &&& 2147483648 ≠ 0 then 0 else strlen m (off + 4 + childrenSize) + 1
  4 + childrenSize + strLen

/-- The fragment-comparison loop of `Trie::matches` for a multi-character
node: `fp` is the offset of the next fragment byte, `fi` the index into the
word where matching started, `matched` the number of bytes matched so far. -/
def fragCmpLoop (m : Buf) (w : List Nat) : Nat → Nat → Nat → Nat → Int
  | 0, _, _, matched => Int.ofNat matched
  | fuel + 1, fp, fi, matched =>
    if byteAt m fp ≠ 0 ∧ fi + matched < w.length ∧ byteAt m fp = w.getD (fi + matched) 0 then
      fragCmpLoop m w fuel (fp + 1) fi (matched + 1)
    else if byteAt m fp = 0 then Int.ofNat matched
    else if w.length ≤ fi + matched then 0
    else if w.getD (fi + matched) 0 < byteAt m fp then 0
    else -1

/-- `Trie::matches(nNodeOffset, nFragmentIndex)` for the word `w`. -/
def trieMatches (m : Buf) (w : List Nat) (off fi : Nat) : Int :=
  let hdr := readU32 m off
  if hdr &&& 2147483648 ≠ 0 then
    let ch := (hdr >>> 23) &&& 127
    let cw := w.getD fi 0
    if ch = cw then 1 else if cw < ch then 0 else -1
  else
    let fragOff := if hdr &&& 1073741824 ≠ 0 then off + 4 else off + 9
    fragCmpLoop m w (w.length + 2) fragOff fi 0

/-- The local array `nOffsets` of `Trie::lookup`: offset of child `j`, from
the offset of child 0 plus the sizes of the preceding children. -/
def childOffsetAt (m : Buf) (first : Nat) : Nat → Nat
  | 0 => first
  | j + 1 =>
    let prev := childOffsetAt m first j
    u32 (prev + childSize m prev)

/-- The inner binary-search loop of `Trie::lookup`.  `some (off, len)` is a
positive match of `len` bytes at child offset `off`; `none` corresponds to the
`nLo >= nHi` exit (the fuel `hi - lo + 1` always suffices, because the range
shrinks on every iteration). -/
def trieBinSearch (m : Buf) (w : List Nat) (offs : Nat → Nat) (fi : Nat) :
    Nat → Nat → Nat → Option (Nat × Int)
  | 0, _, _ => none
  | fuel + 1, lo, hi =>
    if lo ≥ hi then none
    else
      let mid := (lo + hi) / 2
      let moff := offs mid
      let ml := trieMatches m w moff fi
      if 0 < ml then some (moff, ml)
      else if ml < 0 then trieBinSearch m w offs fi fuel (mid + 1) hi
      else trieBinSearch m w offs fi fuel lo mid

/-- The outer loop of `Trie::lookup(nNodeOffset, nHdr, nFragmentIndex)`.
Each descent advances `fi` by at least one byte, so fuel `w.length + 1`
always suffices. -/
def trieLookupAux (m : Buf) (w : List Nat) : Nat → Nat → Nat → Nat → Option Nat
  | 0, _, _, _ => none
  | fuel + 1, off, hdr, fi =>
    if w.length ≤ fi then
      let v := hdr &&& 8388607
      some (if v = 8388607 then NOT_FOUND else v)
    else if hdr &&& 1073741824 ≠ 0 then some NOT_FOUND
    else
      let numCh := byteAt m (off + 4)
      let offs := childOffsetAt m (readU32 m (off + 5))
      match trieBinSearch m w offs fi (numCh + 1) 0 numCh with
      | none => some NOT_FOUND
      | some (coff, ml) => trieLookupAux m w fuel coff (readU32 m coff) (fi + ml.toNat)

/-- `mapping(pbMap, pbWord)`: the C word argument is a possibly-null pointer
to a NUL-terminated byte string; it is modelled as `Option (List Nat)` where
the list holds the bytes before the terminating NUL.  The `Trie` constructor
reads the root offset from the 16-byte header and the root header word; the
null check of `Trie::mapping` then returns the sentinel. -/
def mapping (m : Buf) (word : Option (List Nat)) : Option Nat :=
  let trieRoot := readU32 m 16
  let rootHdr := readU32 m trieRoot
  match word with
  | none => some NOT_FOUND
  | some w => trieLookupAux m w (w.length + 1) trieRoot rootHdr 0

/-- Sum `f 0 + f 1 + ... + f (k-1)`. -/
def sumRange (f : Nat → Nat) : Nat → Nat
  | 0 => 0
  | k + 1 => sumRange f k + f k

/-- Value of the `len` bits of the stream `f` starting at position `p`,
LSB-first. -/
def bitsVal (f : Nat → Nat) : Nat → Nat → Nat
  | _, 0 => 0
  | p, len + 1 => f p + 2 * bitsVal f (p + 1) len

/-- The byte of a bit stream `f` whose first bit sits at position `p`. -/
def byteFromBits (f : Nat → Nat) (p : Nat) : Nat := bitsVal f p 8

/-- High part of element `i`: the element shifted right by the low-bit count.
Modelled from the spec: "each element is `(high << lb) | low`". -/
def hiPart (vs : List Nat) (lb i : Nat) : Nat := vs.getD i 0 >>> lb

/-- Bit `j` of the packed low-bits stream.
Modelled from the spec: the low-bits stream stores the `lb` low bits of each
element consecutively, LSB-first. -/
def lowBitF (vs : List Nat) (lb j : Nat) : Nat := (vs.getD (j / lb) 0 >>> (j % lb)) % 2

/-- Position of the `i`-th 1-bit of the high-bits stream: element `i`
contributes `hi_i - hi_(i-1)` 0-bits followed by a single 1-bit, so the
`i`-th 1-bit sits at absolute position `hi_i + i`. -/
def onePos (vs : List Nat) (lb i : Nat) : Nat := hiPart vs lb i + i

/-- Bit `j` of the unary high-bits stream (1 exactly at the positions
`onePos vs lb i` for `i < n`).  Modelled from the spec: "the difference
between successive high parts as that many 0 bits followed by a single 1 bit". -/
def highBitF (vs : List Nat) (lb n j : Nat) : Nat :=
  if (List.range n).any (fun i => j = onePos vs lb i) then 1 else 0

/-- Bit length of a value, by structural recursion on a step budget (64 steps
cover every u64 value, the element type of the spec). -/
def bitLenAux : Nat → Nat → Nat
  | 0, _ => 0
  | fuel + 1, n => if n = 0 then 0 else bitLenAux fuel (n / 2) + 1

/-- Number of high bits chosen by the writer: bit length of the largest high
part (0 when every high part is 0, in which case the spec stores no high
stream and no index).  Modelled from the spec. -/
def hbOf (vs : List Nat) (lb : Nat) : Nat :=
  if hiPart vs lb (vs.length - 1) = 0 then 0 else bitLenAux 64 (hiPart vs lb (vs.length - 1))

/-- Number of entries of the high-bits index array: `(n-1)/Q`, none when `hb = 0`. -/
def numIdxOf (vs : List Nat) (lb Q : Nat) : Nat :=
  if hbOf vs lb ≠ 0 then (vs.length - 1) / Q else 0

/-- Byte count of the packed low-bits stream. -/
def lowBytesOf (vs : List Nat) (lb : Nat) : Nat := (vs.length * lb + 7) / 8

/-- Bit count of the unary high-bits stream. -/
def highLenOf (vs : List Nat) (lb : Nat) : Nat :=
  if hbOf vs lb ≠ 0 then hiPart vs lb (vs.length - 1) + vs.length else 0

/-- Byte count of the packed high-bits stream. -/
def highBytesOf (vs : List Nat) (lb : Nat) : Nat := (highLenOf vs lb + 7) / 8

/-- Little-endian bytes of a 32-bit value. -/
def u32Bytes (x : Nat) : List Nat :=
  [x % 256, x / 256 % 256, x / 65536 % 256, x / 16777216 % 256]

/-- Little-endian bytes of a 16-bit value. -/
def u16Bytes (x : Nat) : List Nat := [x % 256, x / 256 % 256]

/-- Modelled from the spec: the canonical monotonic-list (Elias-Fano) encoding
of section 3 — `[u32 n][u16 lb][u16 hb][u32 hbufIdx[(n-1)/Q]]`, then the packed
low-bits stream (`ceil(n*lb/8)` bytes), then the unary high-bits stream.
`hbufIdx[q-1]` holds the absolute bit offset of the high-bits stream at the
`q*Q`-th element boundary, i.e. just after the `q*Q`-th 1-bit.  The writer
itself is not part of trie.cpp. -/
def encodeMono (vs : List Nat) (lb Q : Nat) : Buf :=
  let n := vs.length
  let idxBytes := (List.range (numIdxOf vs lb Q)).map
    (fun q => u32Bytes (onePos vs lb ((q + 1) * Q - 1) + 1))
  let lowBytes := (List.range (lowBytesOf vs lb)).map
    (fun t => byteFromBits (lowBitF vs lb) (8 * t))
  let highBytes := (List.range (highBytesOf vs lb)).map
    (fun t => byteFromBits (highBitF vs lb n) (8 * t))
  u32Bytes n ++ u16Bytes lb ++ u16Bytes (hbOf vs lb) ++ idxBytes.flatten ++ lowBytes ++ highBytes

/-- The prefix value of chunk `q` of a partitioned list: the last element of
the preceding chunk (`outer[-1] = 0`).  Modelled from the spec. -/
def chunkBase (vs : List Nat) (Qo q : Nat) : Nat :=
  if q = 0 then 0 else vs.getD (q * Qo - 1) 0

/-- The residuals stored in chunk `q`.  Modelled from the spec: element `i`
of the list is `outer[q-1] + inner_q[i mod Qo]`. -/
def chunkVals (vs : List Nat) (Qo q : Nat) : List Nat :=
  (List.range (min Qo (vs.length - q * Qo))).map
    (fun r => vs.getD (q * Qo + r) 0 - chunkBase vs Qo q)

/-- The per-chunk prefix sums held by the outer list: the last element of each
chunk.  Modelled from the spec. -/
def outerVals (vs : List Nat) (Qo : Nat) : List Nat :=
  (List.range ((vs.length + Qo - 1) / Qo)).map
    (fun q => vs.getD (min ((q + 1) * Qo - 1) (vs.length - 1)) 0)

/-- Modelled from the spec: the partitioned-list encoding of section 3 —
`[u32 chunks][u32 chunkIndex[chunks]]`, then the outer monotonic list of
per-chunk prefix sums, then the chunks in order; `chunkIndex[q]` is the byte
offset of chunk `q` from the header start.  `lbo` and `lb` are the
writer-chosen low-bit widths of the outer list and of the chunks.  The writer
itself is not part of trie.cpp. -/
def encodePart (vs : List Nat) (lbo lb Qo Qi : Nat) : Buf :=
  let chunks := (vs.length + Qo - 1) / Qo
  let outerBuf := encodeMono (outerVals vs Qo) lbo Qi
  let chunkBufs := (List.range chunks).map (fun q => encodeMono (chunkVals vs Qo q) lb Qi)
  let hdrSize := 4 * (1 + chunks)
  let idx := (List.range chunks).map
    (fun q => u32Bytes (hdrSize + outerBuf.length + sumRange (fun p => (chunkBufs.getD p []).length) q))
  u32Bytes chunks ++ idx.flatten ++ outerBuf ++ chunkBufs.flatten

/-- The parse that claim C3 describes: identical to `lookupFrequency` except
that the quantum-count word is read at byte offset `2*(numRanks+2)` from the
section start, i.e. past a rank table of `numRanks+1` 16-bit entries that
follows the `numRanks` field.  Named after the claim; used to settle C3. -/
def lookupFrequencyClaimC3 (m : Buf) (base Q i : Nat) : Option Nat :=
  freqCore m base (base + 2 * (readU16 m base + 2)) Q i

/-- The parse of the source with its offset arithmetic spelled structurally:
the `numRanks` field occupies 2 bytes and the rank table `2*numRanks` bytes,
after which the quantum-count word follows. -/
def lookupFrequencyShifted (m : Buf) (base Q i : Nat) : Option Nat :=
  freqCore m base (base + 2 + 2 * readU16 m base) Q i

/-- Number of 1-bits of `v` strictly below bit position `j`. -/
def onesBelow (v j : Nat) : Nat := sumRange (fun t => (v >>> t) % 2) j

/-- An abstract trie node: a 23-bit value field (the sentinel `0x7FFFFF`
marks an interim node) and a list of children, each carried by an edge label.
Modelled from the spec (section 3, trie node entity). -/
inductive TNode : Type where
  | node (val : Nat) (children : List (List Nat × TNode))

/-- The value field of an abstract node. -/
def TNode.valOf : TNode → Nat
  | TNode.node v _ => v

/-- The children of an abstract node. -/
def TNode.childrenOf : TNode → List (List Nat × TNode)
  | TNode.node _ cs => cs

/-- Lookup in the abstract trie: follow the unique child whose label is a
prefix of the remaining word; the fuel only needs to exceed the word length
because every edge label is non-empty. -/
def findT : Nat → TNode → List Nat → Option Nat
  | _, TNode.node v _, [] => some v
  | 0, _, _ => none
  | fuel + 1, TNode.node _ cs, w =>
    match cs.find? (fun c => c.1.isPrefixOf w) with
    | none => none
    | some c => findT fuel c.2 (w.drop c.1.length)

/-- The result `mapping` must produce for a given abstract lookup outcome:
the value unless the node is absent or interim. -/
def valueToResult : Option Nat → Nat
  | some v => if v = 8388607 then NOT_FOUND else v
  | none => NOT_FOUND

/-- First byte of a child's edge label (the sort key of the sibling order). -/
def keyOf (c : List Nat × TNode) : Nat := c.1.headD 0

/-- Sibling children are sorted strictly ascending by their first label byte.
Modelled from the spec (section 3 invariants). -/
def SortedKeys (cs : List (List Nat × TNode)) : Prop :=
  cs.Pairwise (fun a b => keyOf a < keyOf b)

/-- The NUL-terminated fragment `label` is stored at byte offset `p`. -/
def fragStored (m : Buf) (p : Nat) (label : List Nat) : Prop :=
  (∀ j, j < label.length → byteAt m (p + j) = label.getD j 0) ∧
  byteAt m (p + label.length) = 0

/-- A word passed to `mapping`: a NUL-terminated byte string holds no 0 byte. -/
def WordOK (w : List Nat) : Prop := ∀ b, b ∈ w → 1 ≤ b ∧ b ≤ 255

mutual

/-- `NodeAt m off label t sz`: the buffer stores, at offset `off`, a trie node
of the section-3 layout representing the abstract node `t` whose incoming edge
label is `label`; `sz` is the serialized size of the node record itself
(header, optional child fields and fragment — not the subtree).
Modelled from the spec (section 3, trie node entity): the four constructors
are the four `SINGLE`/`CHILDLESS` layout combinations. -/
inductive NodeAt (m : Buf) : Nat → List Nat → TNode → Nat → Prop where
  | singleLeaf (off c val : Nat) :
      val < 8388608 → 1 ≤ c → c ≤ 127 →
      readU32 m off = 3221225472 + 8388608 * c + val →
      NodeAt m off [c] (TNode.node val []) 4
  | singleBranch (off c val first : Nat) (cs : List (List Nat × TNode)) :
      val < 8388608 → 1 ≤ c → c ≤ 127 → cs ≠ [] →
      readU32 m off = 2147483648 + 8388608 * c + val →
      byteAt m (off + 4) = cs.length → cs.length ≤ 127 →
      readU32 m (off + 5) = first →
      ChildrenAt m first cs → SortedKeys cs →
      NodeAt m off [c] (TNode.node val cs) 9
  | multiLeaf (off val : Nat) (label : List Nat) :
      val < 8388608 → label ≠ [] → (∀ b, b ∈ label → 1 ≤ b ∧ b ≤ 255) →
      readU32 m off = 1073741824 + val →
      fragStored m (off + 4) label →
      NodeAt m off label (TNode.node val []) (4 + (label.length + 1))
  | multiBranch (off val first : Nat) (label : List Nat) (cs : List (List Nat × TNode)) :
      val < 8388608 → label ≠ [] → (∀ b, b ∈ label → 1 ≤ b ∧ b ≤ 255) → cs ≠ [] →
      readU32 m off = val →
      byteAt m (off + 4) = cs.length → cs.length ≤ 127 →
      readU32 m (off + 5) = first →
      fragStored m (off + 9) label →
      ChildrenAt m first cs → SortedKeys cs →
      NodeAt m off label (TNode.node val cs) (9 + (label.length + 1))

/-- `ChildrenAt m off cs`: the children `cs` are serialized consecutively in
the buffer starting at offset `off`, each followed immediately by the next. -/
inductive ChildrenAt (m : Buf) : Nat → List (List Nat × TNode) → Prop where
  | nil (off : Nat) : ChildrenAt m off []
  | cons (off sz : Nat) (label : List Nat) (t : TNode) (rest : List (List Nat × TNode)) :
      NodeAt m off label t sz → ChildrenAt m (off + sz) rest →
      ChildrenAt m off ((label, t) :: rest)

end

/-- `RootAt m off t`: the buffer stores the trie root (whose fragment is never
examined by the walk) at offset `off`.  The root uses the `SINGLE=0` layout
with an empty fragment.  Modelled from the spec. -/
inductive RootAt (m : Buf) : Nat → TNode → Prop where
  | leaf (off val : Nat) :
      val < 8388608 →
      readU32 m off = 1073741824 + val →
      RootAt m off (TNode.node val [])
  | branch (off val first : Nat) (cs : List (List Nat × TNode)) :
      val < 8388608 → cs ≠ [] →
      readU32 m off = val →
      byteAt m (off + 4) = cs.length → cs.length ≤ 127 →
      readU32 m (off + 5) = first →
      ChildrenAt m first cs → SortedKeys cs →
      RootAt m off (TNode.node val cs)

/-- The facts about a node that the body of `Trie::lookup` consumes: its
header decodes to `val` and the childless flag, and (when there are children)
its child-count byte, first-child offset, serialized children and their order.
Both `NodeAt` (any layout) and `RootAt` entail it. -/
structure BodyAt (m : Buf) (off val : Nat) (cs : List (List Nat × TNode)) : Prop where
  val_lt : val < 8388608
  hdr_val : readU32 m off &&& 8388607 = val
  hdr_leaf : (readU32 m off &&& 1073741824 ≠ 0) ↔ cs = []
  count : cs ≠ [] → byteAt m (off + 4) = cs.length
  count_le : cs.length ≤ 127
  children : cs ≠ [] → ChildrenAt m (readU32 m (off + 5)) cs
  sorted : SortedKeys cs

/-- The validity facts about a monotonic Elias-Fano buffer relating the bytes
at `base` to the encoded sequence `vs` (see `encodeMono`): header fields,
index entries and the two packed bit streams, together with the size bounds
under which the 32-bit offset arithmetic of the decoder cannot wrap.
An `encodeMono` image satisfies it (`encodeMono_monoEnc`); an inner chunk of
a partitioned buffer satisfies it at its chunk offset. -/
structure MonoEnc (m : Buf) (base : Nat) (vs : List Nat) (lb Q : Nat) : Prop where
  npos : 0 < vs.length
  qpos : 0 < Q
  lb_lt : lb < 32
  mono : ∀ i j, i ≤ j → j < vs.length → vs.getD i 0 ≤ vs.getD j 0
  vlt : ∀ i, i < vs.length → vs.getD i 0 < 18446744073709551616
  n_lt : vs.length < 4294967296
  bits_lt : vs.length * lb + 7 < 4294967296
  high_lt : highLenOf vs lb < 4294967296
  len_lt : m.length < 4294967296
  n_def : readU32 m base = vs.length
  lb_def : readU16 m (base + 4) = lb
  hb_def : readU16 m (base + 6) = hbOf vs lb
  idx_def : ∀ q, q < numIdxOf vs lb Q →
    readU32 m (base + 8 + 4 * q) = onePos vs lb ((q + 1) * Q - 1) + 1
  low_def : ∀ k, k < lowBytesOf vs lb →
    byteAt m (base + 8 + 4 * numIdxOf vs lb Q + k) = byteFromBits (lowBitF vs lb) (8 * k)
  high_def : ∀ k, k < highBytesOf vs lb →
    byteAt m (base + 8 + 4 * numIdxOf vs lb Q + lowBytesOf vs lb + k) =
      byteFromBits (highBitF vs lb vs.length) (8 * k)
  len_ok : base + 8 + 4 * numIdxOf vs lb Q + lowBytesOf vs lb + highBytesOf vs lb ≤ m.length

theorem u32_id {x : Nat} (h : x < 4294967296) : u32 x = x := Nat.mod_eq_of_lt h

theorem u64_id {x : Nat} (h : x < 18446744073709551616) : u64 x = x := Nat.mod_eq_of_lt h

theorem u64_lt (x : Nat) : u64 x < 18446744073709551616 := Nat.mod_lt _ (by norm_num)

theorem u64_add_left (a b : Nat) : u64 (u64 a + b) = u64 (a + b) := Nat.mod_add_mod a _ b

theorem sub32_sub {a b : Nat} (hb : b ≤ a) (ha : a < 4294967296) : sub32 a b = a - b := by
  unfold sub32
  omega

theorem sub32_lt (a b : Nat) : sub32 a b < 4294967296 := Nat.mod_lt _ (by norm_num)

theorem and_mask (x c k : Nat) (h : c + 1 = 2 ^ k) : x &&& c = x % 2 ^ k := by
  have hc : c = 2 ^ k - 1 := by omega
  subst hc
  apply Nat.eq_of_testBit_eq
  intro i
  simp [Nat.testBit_mod_two_pow, Bool.and_comm]

theorem shl_lor_add {a b k : Nat} (h : b < 2 ^ k) : a <<< k ||| b = a * 2 ^ k + b := by
  rw [Nat.shiftLeft_eq, Nat.mul_comm, ← Nat.mul_add_lt_is_or h]

theorem sumRange_le (f : Nat → Nat) {a b : Nat} (h : a ≤ b) : sumRange f a ≤ sumRange f b := by
  induction b with
  | zero => simp_all [sumRange]
  | succ b ih =>
    rcases Nat.lt_or_ge a (b + 1) with h2 | h2
    · exact le_trans (ih (by omega)) (Nat.le_add_right _ _)
    · have : a = b + 1 := by omega
      subst this
      exact le_refl _

theorem sumRange_add (f : Nat → Nat) (a b : Nat) :
    sumRange f (a + b) = sumRange f a + sumRange (fun j => f (a + j)) b := by
  induction b with
  | zero => simp [sumRange]
  | succ b ih =>
    show sumRange f (a + b) + f (a + b) = _
    rw [ih]
    simp [sumRange]
    ring

theorem sumRange_congr {f g : Nat → Nat} {k : Nat} (h : ∀ j, j < k → f j = g j) :
    sumRange f k = sumRange g k := by
  induction k with
  | zero => rfl
  | succ k ih =>
    show sumRange f k + f k = sumRange g k + g k
    rw [ih (fun j hj => h j (by omega)), h k (by omega)]

theorem sumRange_zero_of (f : Nat → Nat) (k : Nat) (h : ∀ j, j < k → f j = 0) :
    sumRange f k = 0 := by
  induction k with
  | zero => rfl
  | succ k ih =>
    show sumRange f k + f k = 0
    rw [ih (fun j hj => h j (by omega)), h k (by omega)]

theorem sumRange_bound {f : Nat → Nat} (hf : ∀ j, f j ≤ 1) (k : Nat) : sumRange f k ≤ k := by
  induction k with
  | zero => exact le_refl _
  | succ k ih =>
    show sumRange f k + f k ≤ k + 1
    have := hf k
    omega

theorem bitsVal_succ (f : Nat → Nat) (p len : Nat) :
    bitsVal f p (len + 1) = f p + 2 * bitsVal f (p + 1) len := rfl

theorem bitsVal_lt {f : Nat → Nat} (hf : ∀ j, f j ≤ 1) (p len : Nat) :
    bitsVal f p len < 2 ^ len := by
  induction len generalizing p with
  | zero => simp [bitsVal]
  | succ len ih =>
    rw [bitsVal_succ]
    have h1 := ih (p + 1)
    have h2 := hf p
    have : 2 ^ (len + 1) = 2 * 2 ^ len := by ring
    omega

theorem bitsVal_congr {f g : Nat → Nat} {p q : Nat} (len : Nat)
    (h : ∀ j, j < len → f (p + j) = g (q + j)) : bitsVal f p len = bitsVal g q len := by
  induction len generalizing p q with
  | zero => rfl
  | succ len ih =>
    rw [bitsVal_succ, bitsVal_succ]
    have h0 : f p = g q := by simpa using h 0 (by omega)
    have hrec : bitsVal f (p + 1) len = bitsVal g (q + 1) len := by
      apply ih
      intro j hj
      have hj2 := h (j + 1) (by omega)
      have e1 : p + (j + 1) = p + 1 + j := by omega
      have e2 : q + (j + 1) = q + 1 + j := by omega
      rw [e1, e2] at hj2
      exact hj2
    rw [h0, hrec]

theorem bitsVal_split (f : Nat → Nat) (p a len : Nat) (h : a ≤ len) :
    bitsVal f p len = bitsVal f p a + 2 ^ a * bitsVal f (p + a) (len - a) := by
  induction a generalizing p len with
  | zero => simp [bitsVal]
  | succ a ih =>
    cases len with
    | zero => omega
    | succ len =>
      rw [bitsVal_succ, bitsVal_succ, ih (p + 1) len (by omega)]
      have e1 : p + 1 + a = p + (a + 1) := by omega
      have e2 : len + 1 - (a + 1) = len - a := by omega
      rw [e1, e2]
      ring

theorem bitsVal_shiftRight {f : Nat → Nat} (hf : ∀ j, f j ≤ 1) (p s len : Nat) (h : s ≤ len) :
    bitsVal f p len >>> s = bitsVal f (p + s) (len - s) := by
  rw [bitsVal_split f p s len h, Nat.shiftRight_eq_div_pow]
  rw [Nat.add_mul_div_left _ _ (Nat.two_pow_pos s)]
  rw [Nat.div_eq_of_lt (bitsVal_lt hf p s)]
  omega

theorem bitsVal_mod {f : Nat → Nat} (hf : ∀ j, f j ≤ 1) (p c len : Nat) (h : c ≤ len) :
    bitsVal f p len % 2 ^ c = bitsVal f p c := by
  rw [bitsVal_split f p c len h, Nat.add_mul_mod_self_left]
  exact Nat.mod_eq_of_lt (bitsVal_lt hf p c)

theorem bitsVal_mod_of_le {f : Nat → Nat} (hf : ∀ j, f j ≤ 1) (p c len : Nat) (h : len ≤ c) :
    bitsVal f p len % 2 ^ c = bitsVal f p len :=
  Nat.mod_eq_of_lt (lt_of_lt_of_le (bitsVal_lt hf p len) (Nat.pow_le_pow_right (by omega) h))

theorem val_bits (v p len : Nat) :
    bitsVal (fun j => (v >>> j) % 2) p len = (v >>> p) % 2 ^ len := by
  induction len generalizing p with
  | zero => simp [bitsVal, Nat.mod_one]
  | succ len ih =>
    rw [bitsVal_succ, ih (p + 1)]
    have h1 : v >>> (p + 1) = (v >>> p) / 2 := Nat.shiftRight_succ v p
    have h2 : (2 : Nat) ^ (len + 1) = 2 * 2 ^ len := by ring
    rw [h1, h2, Nat.mod_mul]

theorem byteFromBits_lt {f : Nat → Nat} (hf : ∀ j, f j ≤ 1) (p : Nat) :
    byteFromBits f p < 256 := bitsVal_lt hf p 8

theorem byteFromBits_bit {f : Nat → Nat} (hf : ∀ j, f j ≤ 1) (p j : Nat) (hj : j < 8) :
    (byteFromBits f p >>> j) % 2 = f (p + j) := by
  unfold byteFromBits
  rw [bitsVal_shiftRight hf p j 8 (by omega)]
  have h1 : (1 : Nat) ≤ 8 - j := by omega
  calc bitsVal f (p + j) (8 - j) % 2
      = bitsVal f (p + j) (8 - j) % 2 ^ 1 := by norm_num
    _ = bitsVal f (p + j) 1 := bitsVal_mod hf (p + j) 1 (8 - j) h1
    _ = f (p + j) := by simp [bitsVal]

theorem bitCount8_eq_onesBelow (v : Nat) : bitCount8 v = onesBelow v 8 := by
  simp [bitCount8, onesBelow, sumRange]

theorem bitCount8_le (v : Nat) : bitCount8 v ≤ 8 := by
  unfold bitCount8
  omega

theorem onesBelow_byteFromBits {f : Nat → Nat} (hf : ∀ j, f j ≤ 1) (p j : Nat) (hj : j ≤ 8) :
    onesBelow (byteFromBits f p) j = sumRange (fun t => f (p + t)) j := by
  unfold onesBelow
  exact sumRange_congr (fun t ht => byteFromBits_bit hf p t (by omega))

theorem bufBit_le (m : Buf) (j : Nat) : bufBit m j ≤ 1 := by
  unfold bufBit
  omega

theorem byteAt_lt (m : Buf) (i : Nat) : byteAt m i < 256 := Nat.mod_lt _ (by norm_num)

theorem byteAt_decomp (m : Buf) (x : Nat) : byteAt m x = byteFromBits (bufBit m) (8 * x) := by
  unfold byteFromBits
  have h1 : bitsVal (bufBit m) (8 * x) 8 =
      bitsVal (fun j => (byteAt m x >>> j) % 2) 0 8 := by
    apply bitsVal_congr
    intro j hj
    unfold bufBit
    have e1 : (8 * x + j) / 8 = x := by omega
    have e2 : (8 * x + j) % 8 = j := by omega
    rw [e1, e2]
    simp
  rw [h1, val_bits]
  simp [Nat.mod_eq_of_lt (byteAt_lt m x)]

theorem sr_mod_two_eq (x j : Nat) : (x >>> j) % 2 = if x.testBit j then 1 else 0 := by
  rw [Nat.testBit_to_div_mod, Nat.shiftRight_eq_div_pow]
  rcases Nat.mod_two_eq_zero_or_one (x / 2 ^ j) with h | h <;> simp [h]

theorem testBit_mask256 (t j : Nat) (ht : t < 8) (hj : j < 8) :
    (256 - 2 ^ t : Nat).testBit j = decide (t ≤ j) := by
  interval_cases t <;> interval_cases j <;> decide

theorem masked_bit {f : Nat → Nat} (hf : ∀ j, f j ≤ 1) (p t j : Nat) (ht : t < 8) (hj : j < 8) :
    ((byteFromBits f p &&& (256 - 2 ^ t)) >>> j) % 2 = if t ≤ j then f (p + j) else 0 := by
  rw [sr_mod_two_eq, Nat.testBit_and, testBit_mask256 t j ht hj]
  rcases Nat.lt_or_ge j t with h | h
  · simp [Nat.not_le.mpr h]
  · rw [decide_eq_true h, Bool.and_true, ← sr_mod_two_eq, if_pos h]
    exact byteFromBits_bit hf p j hj

theorem onesBelow_masked {f : Nat → Nat} (hf : ∀ j, f j ≤ 1) (p t j : Nat)
    (ht : t < 8) (hj : j ≤ 8) (htj : t ≤ j) :
    onesBelow (byteFromBits f p &&& (256 - 2 ^ t)) j =
      sumRange (fun s => f (p + s)) j - sumRange (fun s => f (p + s)) t := by
  unfold onesBelow
  have h1 : sumRange (fun s => ((byteFromBits f p &&& (256 - 2 ^ t)) >>> s) % 2) j =
      sumRange (fun s => if t ≤ s then f (p + s) else 0) j :=
    sumRange_congr (fun s hs => masked_bit hf p t s ht (by omega))
  rw [h1]
  have h2 : j = t + (j - t) := by omega
  rw [h2, sumRange_add, sumRange_add]
  have h3 : sumRange (fun s => if t ≤ s then f (p + s) else 0) t = 0 :=
    sumRange_zero_of _ t (fun s hs => by simp [Nat.not_le.mpr hs])
  have h4 : sumRange (fun s => if t ≤ t + s then f (p + (t + s)) else 0) (j - t) =
      sumRange (fun s => f (p + (t + s))) (j - t) :=
    sumRange_congr (fun s hs => by simp)
  rw [h3, h4]
  omega

theorem bitCount8_masked {f : Nat → Nat} (hf : ∀ j, f j ≤ 1) (p t : Nat) (ht : t < 8) :
    bitCount8 (byteFromBits f p &&& (256 - 2 ^ t)) =
      sumRange (fun s => f (p + s)) 8 - sumRange (fun s => f (p + s)) t := by
  rw [bitCount8_eq_onesBelow]
  exact onesBelow_masked hf p t 8 ht (by omega) (by omega)

theorem and_255_eq (v : Nat) (hv : v < 256) : v &&& 255 = v := by
  rw [and_mask v 255 8 (by norm_num)]
  exact Nat.mod_eq_of_lt hv

theorem onesBelow_succ_shift (v j : Nat) : onesBelow v (j + 1) = v % 2 + onesBelow (v >>> 1) j := by
  unfold onesBelow
  rw [show j + 1 = 1 + j by omega, sumRange_add]
  congr 1
  · simp [sumRange]
  · apply sumRange_congr
    intro s hs
    rw [show 1 + s = 1 + s from rfl, Nat.shiftRight_add]

theorem onesBelow_le (v j : Nat) : onesBelow v j ≤ j :=
  sumRange_bound (fun t => by omega) j

theorem bitWalk_ok : ∀ (fuel v hpos high j : Nat), j < fuel →
    (v >>> j) % 2 = 1 → onesBelow v j = hpos → high < 18446744073709551616 →
    bitWalkLoop fuel v hpos high = some (u64 (high + (j - hpos))) := by
  intro fuel
  induction fuel with
  | zero => intro v hpos high j hj; omega
  | succ fuel ih =>
    intro v hpos high j hj hbit hones hhigh
    have hple := onesBelow_le v j
    unfold bitWalkLoop
    rcases Nat.eq_zero_or_pos j with hj0 | hjpos
    · subst hj0
      have hv : v % 2 = 1 := by simpa using hbit
      have h0 : hpos = 0 := by simp [onesBelow, sumRange] at hones; omega
      subst h0
      rw [if_pos hv, if_pos rfl]
      simp [u64_id hhigh]
    · have hsplit : onesBelow v j = v % 2 + onesBelow (v >>> 1) (j - 1) := by
        have := onesBelow_succ_shift v (j - 1)
        rwa [show j - 1 + 1 = j by omega] at this
      have hbit2 : ((v >>> 1) >>> (j - 1)) % 2 = 1 := by
        rw [← Nat.shiftRight_add, show 1 + (j - 1) = j by omega]
        exact hbit
      rcases Nat.mod_two_eq_zero_or_one v with hv | hv
      · rw [if_neg (by omega)]
        have hle2 := onesBelow_le (v >>> 1) (j - 1)
        have himp : onesBelow (v >>> 1) (j - 1) = hpos := by omega
        have hres := ih (v >>> 1) hpos (u64 (high + 1)) (j - 1) (by omega) hbit2 himp (u64_lt _)
        rw [hres, u64_add_left]
        have e : high + 1 + (j - 1 - hpos) = high + (j - hpos) := by omega
        rw [e]
      · rw [if_pos hv]
        have hpos_pos : 0 < hpos := by omega
        rw [if_neg (by omega)]
        have hle2 := onesBelow_le (v >>> 1) (j - 1)
        have himp : onesBelow (v >>> 1) (j - 1) = hpos - 1 := by omega
        have hres := ih (v >>> 1) (hpos - 1) high (j - 1) (by omega) hbit2 himp hhigh
        rw [hres]
        have e : high + (j - 1 - (hpos - 1)) = high + (j - hpos) := by omega
        rw [e]

theorem u32_lor_step {X B bits : Nat} (hX : X < 2 ^ bits) (hB : B < 256) :
    u32 (u32 X ||| u32 (B <<< bits)) = u32 (X + B <<< bits) := by
  rw [Nat.shiftLeft_eq]
  rcases Nat.lt_or_ge bits 32 with h | h
  · have hX32 : X < 4294967296 := by
      have h2 : (2:Nat) ^ bits ≤ 2 ^ 32 := Nat.pow_le_pow_right (by omega) (by omega)
      have h3 : (2:Nat) ^ 32 = 4294967296 := by norm_num
      omega
    have e32 : (4294967296 : Nat) = 2 ^ (32 - bits) * 2 ^ bits := by
      rw [← pow_add, show 32 - bits + bits = 32 by omega]
      norm_num
    have hmm : u32 (B * 2 ^ bits) = B % 2 ^ (32 - bits) * 2 ^ bits := by
      unfold u32
      rw [e32, Nat.mul_mod_mul_right]
    rw [u32_id hX32, hmm]
    have hlor : X ||| B % 2 ^ (32 - bits) * 2 ^ bits = B % 2 ^ (32 - bits) * 2 ^ bits + X := by
      rw [Nat.lor_comm]
      have hsl := shl_lor_add (a := B % 2 ^ (32 - bits)) (k := bits) hX
      rw [Nat.shiftLeft_eq] at hsl
      exact hsl
    rw [hlor]
    unfold u32 at hmm ⊢
    calc (B % 2 ^ (32 - bits) * 2 ^ bits + X) % 4294967296
        = (B * 2 ^ bits % 4294967296 + X) % 4294967296 := by rw [hmm]
      _ = (B * 2 ^ bits + X) % 4294967296 := Nat.mod_add_mod _ _ _
      _ = (X + B * 2 ^ bits) % 4294967296 := by rw [Nat.add_comm]
  · have hz : u32 (B * 2 ^ bits) = 0 := by
      unfold u32
      have e1 : B * 2 ^ bits = B * 2 ^ (bits - 32) * 4294967296 := by
        rw [Nat.mul_assoc]
        congr 1
        rw [show (4294967296:Nat) = 2 ^ 32 by norm_num, ← pow_add]
        congr 1
        omega
      rw [e1]
      exact Nat.mul_mod_left _ _
    rw [hz, Nat.or_zero]
    unfold u32
    rw [Nat.mod_mod_of_dvd X (dvd_refl 4294967296)]
    have e1 : X + B * 2 ^ bits = X + B * 2 ^ (bits - 32) * 4294967296 := by
      congr 1
      rw [Nat.mul_assoc]
      congr 1
      rw [show (4294967296:Nat) = 2 ^ 32 by norm_num, ← pow_add]
      congr 1
      omega
    rw [e1, Nat.add_mul_mod_self_right]

theorem retrieveLoop_ok {G : Nat → Nat} (hG : ∀ j, G j ≤ 1) (m : Buf) (n s p0 : Nat)
    (hbyte : ∀ k, byteAt m (p0 + k) = byteFromBits G (8 * k)) (hs : s ≤ 7) :
    ∀ fuel c buf bits, bits = 8 * (c + 1) - s →
    buf = bitsVal G s bits % 4294967296 →
    n ≤ bits + 8 * fuel →
    ∃ big, n ≤ big ∧ retrieveLoop m n fuel (p0 + c) buf bits = bitsVal G s big % 4294967296 := by
  intro fuel
  induction fuel with
  | zero =>
    intro c buf bits hbits hbuf hn
    exact ⟨bits, by omega, hbuf ▸ rfl⟩
  | succ fuel ih =>
    intro c buf bits hbits hbuf hn
    unfold retrieveLoop
    rcases Nat.lt_or_ge bits n with hlt | hge
    · rw [if_pos hlt]
      have hsb : s + bits = 8 * (c + 1) := by omega
      have hX : bitsVal G s bits < 2 ^ bits := bitsVal_lt hG s bits
      have hstep : u32 (buf ||| u32 (byteAt m (p0 + c + 1) <<< bits)) =
          bitsVal G s (bits + 8) % 4294967296 := by
        have hb2 : byteAt m (p0 + (c + 1)) = byteFromBits G (8 * (c + 1)) := hbyte (c + 1)
        have e1 : p0 + c + 1 = p0 + (c + 1) := by omega
        rw [e1, hb2]
        have hbfl : byteFromBits G (8 * (c + 1)) < 256 := byteFromBits_lt hG _
        have := @u32_lor_step (bitsVal G s bits) (byteFromBits G (8 * (c + 1))) bits
          hX hbfl
        rw [hbuf]
        show u32 (u32 (bitsVal G s bits) ||| u32 (byteFromBits G (8 * (c + 1)) <<< bits)) = _
        rw [this]
        congr 1
        rw [Nat.shiftLeft_eq]
        have hsplit := bitsVal_split G s bits (bits + 8) (by omega)
        rw [hsplit]
        have e2 : bits + 8 - bits = 8 := by omega
        rw [e2]
        have e3 : s + bits = 8 * (c + 1) := hsb
        rw [e3]
        show bitsVal G s bits + byteFromBits G (8 * (c + 1)) * 2 ^ bits =
          bitsVal G s bits + 2 ^ bits * bitsVal G (8 * (c + 1)) 8
        unfold byteFromBits
        ring
      rw [hstep] at *
      have := ih (c + 1) (bitsVal G s (bits + 8) % 4294967296) (bits + 8)
        (by omega) rfl (by omega)
      rw [show p0 + c + 1 = p0 + (c + 1) by omega]
      exact this
    · rw [if_neg (by omega)]
      exact ⟨bits, hge, hbuf ▸ rfl⟩

theorem retrieve_mask (n : Nat) (hn : n ≤ 32) : sub32 (u32 (1 <<< n)) 1 = 2 ^ n - 1 := by
  rcases Nat.lt_or_ge n 32 with h | h
  · rw [Nat.shiftLeft_eq, Nat.one_mul]
    have h2 : (2:Nat) ^ n < 4294967296 := by
      have h3 : (2:Nat) ^ n < 2 ^ 32 := Nat.pow_lt_pow_right (by omega) h
      have h4 : (2:Nat) ^ 32 = 4294967296 := by norm_num
      omega
    rw [u32_id h2]
    exact sub32_sub (Nat.one_le_two_pow) h2
  · have hn32 : n = 32 := by omega
    subst hn32
    rfl

/-- C8: `retrieve(buf, start, n)` returns the `n` consecutive bits beginning
at absolute bit index `start`, taken LSB-first within each byte,
right-justified and masked to the low `n` bits: it equals `bitsVal` of the
buffer bit stream at position `8*base + start` over `n` bits.  In particular
`retrieve(buf, start, 0) = 0`, and reads crossing byte boundaries (including
`n = 32` with `start` not byte-aligned) yield the correct value. -/
theorem retrieve_correct (m : Buf) (base start n : Nat) (hn : n ≤ 32) :
    retrieve m base start n = bitsVal (bufBit m) (8 * base + start) n := by
  unfold retrieve
  rcases Nat.eq_zero_or_pos n with h0 | hpos
  · subst h0
    simp [bitsVal]
  · rw [if_neg (by omega)]
    have hsr : start >>> 3 = start / 8 := by
      rw [Nat.shiftRight_eq_div_pow]
    have hand : start &&& 7 = start % 8 := by
      rw [and_mask start 7 3 (by norm_num)]
      norm_num
    rw [hsr, hand]
    have hs7 : start % 8 ≤ 7 := by omega
    have hbyte : ∀ k, byteAt m (base + start / 8 + k) =
        byteFromBits (fun j => bufBit m (8 * (base + start / 8) + j)) (8 * k) := by
      intro k
      rw [byteAt_decomp]
      apply bitsVal_congr
      intro j hj
      congr 1
      omega
    have hG : ∀ j, (fun j => bufBit m (8 * (base + start / 8) + j)) j ≤ 1 :=
      fun j => bufBit_le m _
    have hinit : byteAt m (base + start / 8) >>> (start % 8) =
        bitsVal (fun j => bufBit m (8 * (base + start / 8) + j)) (start % 8) (8 - start % 8) := by
      have hb0 := hbyte 0
      rw [Nat.add_zero] at hb0
      rw [hb0]
      unfold byteFromBits
      rw [show (8 : Nat) * 0 = 0 by omega]
      have hsrr := bitsVal_shiftRight hG 0 (start % 8) 8 (by omega)
      rw [Nat.zero_add] at hsrr
      exact hsrr
    have hltv : bitsVal (fun j => bufBit m (8 * (base + start / 8) + j))
        (start % 8) (8 - start % 8) < 4294967296 := by
      have hlt := bitsVal_lt hG (start % 8) (8 - start % 8)
      have h5 : (2:Nat) ^ (8 - start % 8) ≤ 256 := by
        calc (2:Nat) ^ (8 - start % 8) ≤ 2 ^ 8 := Nat.pow_le_pow_right (by omega) (by omega)
          _ = 256 := by norm_num
      omega
    have hinitmod : byteAt m (base + start / 8) >>> (start % 8) =
        bitsVal (fun j => bufBit m (8 * (base + start / 8) + j)) (start % 8) (8 - start % 8)
          % 4294967296 := by
      rw [hinit]
      exact (Nat.mod_eq_of_lt hltv).symm
    obtain ⟨big, hbig, hres⟩ := retrieveLoop_ok hG m n (start % 8) (base + start / 8) hbyte hs7
      n 0 (byteAt m (base + start / 8) >>> (start % 8)) (8 - start % 8)
      (by omega) hinitmod (by omega)
    rw [Nat.add_zero] at hres
    show retrieveLoop m n n (base + start / 8) (byteAt m (base + start / 8) >>> (start % 8))
        (8 - start % 8) &&& sub32 (u32 (1 <<< n)) 1 = bitsVal (bufBit m) (8 * base + start) n
    rw [hres, retrieve_mask n hn]
    rw [and_mask _ _ n (by have h7 : (1:Nat) ≤ 2 ^ n := Nat.one_le_two_pow; omega)]
    rw [Nat.mod_mod_of_dvd _ (by
      have h6 : (4294967296:Nat) = 2 ^ 32 := by norm_num
      rw [h6]
      exact pow_dvd_pow 2 hn)]
    rw [bitsVal_mod hG (start % 8) n big hbig]
    apply bitsVal_congr
    intro j hj
    congr 1
    omega

/-- Witness for C8 at a concrete unaligned 32-bit read crossing byte
boundaries. -/
theorem retrieve_correct_witness :
    (32 : Nat) ≤ 32 ∧
    retrieve [181, 243, 99, 7, 250] 0 5 32 =
      bitsVal (bufBit [181, 243, 99, 7, 250]) (8 * 0 + 5) 32 :=
  ⟨by decide, retrieve_correct [181, 243, 99, 7, 250] 0 5 32 (by decide)⟩

/-- C9: `mapping(map, word)` called with a null word pointer returns
`0xFFFFFFFF` for every buffer: the result does not depend on the buffer
contents (the `Trie` constructor's header reads do not affect it). -/
theorem mapping_null_not_found (m : Buf) : mapping m none = some NOT_FOUND := rfl

/-- C10: `bitselect(buf, 0)` returns 0 for every buffer and start offset:
the `k >= 1` precondition is not enforced and the `k = 0` case is total and
buffer-independent. -/
theorem bitselect_zero (m : Buf) (base : Nat) : bitselect m base 0 = some 0 := rfl

theorem u64_u64 (z : Nat) : u64 (u64 z) = u64 z :=
  Nat.mod_mod_of_dvd z (dvd_refl 18446744073709551616)

theorem lor_lt_64 {a b : Nat} (ha : a < 18446744073709551616) (hb : b < 18446744073709551616) :
    (a ||| b) < 18446744073709551616 := by
  have h64 : (18446744073709551616:Nat) = 2 ^ 64 := by norm_num
  rw [h64] at ha hb ⊢
  exact Nat.or_lt_two_pow ha hb

theorem lookupMonotonic_lt {m : Buf} {base Q i w : Nat}
    (h : lookupMonotonic m base Q i = some w) : w < 18446744073709551616 := by
  have h3 : ∀ X : Nat, X &&& sub32 (u32 (1 <<< readU16 m (base + 4))) 1 < 4294967296 := by
    intro X
    have h5 := Nat.and_le_right (n := X) (m := sub32 (u32 (1 <<< readU16 m (base + 4))) 1)
    have h4 := sub32_lt (u32 (1 <<< readU16 m (base + 4))) 1
    omega
  unfold lookupMonotonic at h
  dsimp only at h
  split at h
  · injection h with h2
    subst h2
    exact lt_trans (h3 _) (by norm_num)
  · split at h
    · exact absurd h (by simp)
    · split at h
      · exact absurd h (by simp)
      · injection h with h2
        subst h2
        exact lor_lt_64 (u64_lt _) (lt_trans (h3 _) (by norm_num))

/-- C7: for `lo > 0`, searching for the difference-encoded target
`x - v_(lo-1)` (64-bit wrap-around subtraction) through
`searchMonotonicPrefix` returns the same result as searching for `x`
through `searchMonotonic`, where `v_(lo-1)` is the value that
`lookupMonotonic` decodes at `lo - 1`. -/
theorem searchMonotonicPrefix_eq (m : Buf) (base Q lo hi x w : Nat)
    (hlo : 0 < lo) (hw : lookupMonotonic m base Q (lo - 1) = some w) :
    searchMonotonicPrefix m base Q lo hi (sub64 x w) = searchMonotonic m base Q lo hi x := by
  unfold searchMonotonicPrefix
  rcases Nat.lt_or_ge lo hi with h | h
  · rw [if_neg (by omega), if_pos (by omega), hw]
    have hwlt := lookupMonotonic_lt hw
    have e : u64 (sub64 x w + w) = u64 x := by
      unfold sub64 u64 at *
      omega
    unfold searchMonotonic
    dsimp only
    rw [u64_u64, e]
  · rw [if_pos h]
    unfold searchMonotonic searchMonoAux
    rw [if_pos h]

theorem searchMonoAux_ok (m : Buf) (base Q : Nat) (v : Nat → Nat) (x : Nat) :
    ∀ fuel lo hi, hi - lo < fuel → hi ≤ 2147483648 →
    (∀ j, lo ≤ j → j < hi → lookupMonotonic m base Q j = some (v j)) →
    (∀ j k, lo ≤ j → j ≤ k → k < hi → v j ≤ v k) →
    ((∃ j, lo ≤ j ∧ j < hi ∧ v j = x) →
      ∃ j, lo ≤ j ∧ j < hi ∧ v j = x ∧ searchMonoAux m base Q fuel lo hi x = some j) ∧
    ((∀ j, lo ≤ j → j < hi → v j ≠ x) → searchMonoAux m base Q fuel lo hi x = some NOT_FOUND) := by
  intro fuel
  induction fuel with
  | zero =>
    intro lo hi hfuel
    exact absurd hfuel (by omega)
  | succ fuel ih =>
    intro lo hi hfuel hhi hlook hmono
    rcases Nat.lt_or_ge lo hi with hlt | hge
    · have hmid32 : u32 (lo + hi) = lo + hi := u32_id (by omega)
      unfold searchMonoAux
      rw [if_neg (by omega), hmid32]
      dsimp only
      set mid := (lo + hi) / 2 with hmid
      have hmlo : lo ≤ mid := by omega
      have hmhi : mid < hi := by omega
      rw [hlook mid hmlo hmhi]
      dsimp only
      rcases Nat.lt_trichotomy (v mid) x with hvm | hvm | hvm
      · -- v mid < x : go right
        rw [if_neg (by omega), if_neg (by omega)]
        have ihr := ih (mid + 1) hi (by omega) hhi
          (fun j h1 h2 => hlook j (by omega) h2)
          (fun j k h1 h2 h3 => hmono j k (by omega) h2 h3)
        constructor
        · intro ⟨j, hj1, hj2, hj3⟩
          have hjgt : mid + 1 ≤ j := by
            by_contra hc
            have : v j ≤ v mid := hmono j mid hj1 (by omega) hmhi
            omega
          obtain ⟨j2, h1, h2, h3, h4⟩ := ihr.1 ⟨j, hjgt, hj2, hj3⟩
          exact ⟨j2, by omega, h2, h3, h4⟩
        · intro hnone
          exact ihr.2 (fun j h1 h2 => hnone j (by omega) h2)
      · rw [if_pos hvm]
        constructor
        · intro _
          exact ⟨mid, hmlo, hmhi, hvm, rfl⟩
        · intro hnone
          exact absurd hvm (hnone mid hmlo hmhi)
      · -- x < v mid : go left
        rw [if_neg (by omega), if_pos hvm]
        have ihl := ih lo mid (by omega) (by omega)
          (fun j h1 h2 => hlook j h1 (by omega))
          (fun j k h1 h2 h3 => hmono j k h1 h2 (by omega))
        constructor
        · intro ⟨j, hj1, hj2, hj3⟩
          have hjlt : j < mid := by
            by_contra hc
            have : v mid ≤ v j := hmono mid j hmlo (by omega) hj2
            omega
          obtain ⟨j2, h1, h2, h3, h4⟩ := ihl.1 ⟨j, hj1, hjlt, hj3⟩
          exact ⟨j2, h1, by omega, h3, h4⟩
        · intro hnone
          exact ihl.2 (fun j h1 h2 => hnone j h1 (by omega))
    · constructor
      · intro ⟨j, hj1, hj2, _⟩
        omega
      · intro _
        unfold searchMonoAux
        rw [if_pos hge]

/-- C6: binary search on a monotonic Elias-Fano buffer whose decoded values
on `[lo, hi)` are `v j` (non-decreasing): if some index in `[lo, hi)` decodes
to `x` then `searchMonotonic` returns such an index, otherwise it returns the
sentinel `0xFFFFFFFF`. -/
theorem searchMonotonic_correct (m : Buf) (base Q lo hi x : Nat) (v : Nat → Nat)
    (hx : x < 18446744073709551616) (hhi : hi ≤ 2147483648)
    (hlook : ∀ j, lo ≤ j → j < hi → lookupMonotonic m base Q j = some (v j))
    (hmono : ∀ j k, lo ≤ j → j ≤ k → k < hi → v j ≤ v k) :
    ((∃ j, lo ≤ j ∧ j < hi ∧ v j = x) →
      ∃ j, lo ≤ j ∧ j < hi ∧ v j = x ∧ searchMonotonic m base Q lo hi x = some j) ∧
    ((∀ j, lo ≤ j → j < hi → v j ≠ x) → searchMonotonic m base Q lo hi x = some NOT_FOUND) := by
  unfold searchMonotonic
  rw [u64_id hx]
  exact searchMonoAux_ok m base Q v x (hi - lo + 1) lo hi (by omega) hhi hlook hmono

/-- Witness for C7 on a concrete encoded list (`lo = 3`, target `11`,
prefix value `v_2 = 2`). -/
theorem searchMonotonicPrefix_eq_witness :
    0 < 3 ∧
    lookupMonotonic (encodeMono [0, 1, 2, 10, 11, 12, 100, 1000] 10 4) 0 4 (3 - 1) = some 2 ∧
    searchMonotonicPrefix (encodeMono [0, 1, 2, 10, 11, 12, 100, 1000] 10 4) 0 4 3 8 (sub64 11 2) =
      searchMonotonic (encodeMono [0, 1, 2, 10, 11, 12, 100, 1000] 10 4) 0 4 3 8 11 :=
  ⟨by decide, by decide,
    searchMonotonicPrefix_eq (encodeMono [0, 1, 2, 10, 11, 12, 100, 1000] 10 4) 0 4 3 8 11 2
      (by decide) (by decide)⟩

/-- Witness for C6 on a concrete encoded list: no index decodes to 5, so the
search returns the sentinel. -/
theorem searchMonotonic_correct_witness :
    searchMonotonic (encodeMono [0, 1, 2, 10, 11, 12, 100, 1000] 10 4) 0 4 0 8 5 =
      some NOT_FOUND :=
  (searchMonotonic_correct (encodeMono [0, 1, 2, 10, 11, 12, 100, 1000] 10 4) 0 4 0 8 5
    (fun j => [0, 1, 2, 10, 11, 12, 100, 1000].getD j 0) (by decide) (by decide)
    (by intro j h1 h2; interval_cases j <;> decide)
    (by intro j k h1 h2 h3; interval_cases k <;> interval_cases j <;> decide)).2
    (by intro j h1 h2; interval_cases j <;> decide)

/-- Counterexample to C3 as stated: on this frequency section with
`numRanks = 0`, the source reads the quantum count `m` at byte offset
`2*(numRanks+1) = 2` (yielding `m = 0` and a successful decode), while a
parse that reads `m` at the claimed offset `2*(numRanks+2) = 4`
(`lookupFrequencyClaimC3`, identical otherwise) reads `m = 65536` and
diverges scanning for start bits that do not exist. -/
theorem lookupFrequency_offset_cex :
    lookupFrequency [0, 0, 0, 0, 0, 0, 1, 0, 0, 0, 1, 3] 0 4 0 = some 0 ∧
    lookupFrequencyClaimC3 [0, 0, 0, 0, 0, 0, 1, 0, 0, 0, 1, 3] 0 4 0 = none := by
  constructor <;> decide

/-- C3 (amended): `lookupFrequency` parses the frequency section by reading
the `u16 numRanks` field and stepping past a rank table of `numRanks` u16
entries, so the u32 read as the quantum count `m` sits at byte offset
`2*(numRanks+1) = 2 + 2*numRanks` from the section start. -/
theorem lookupFrequency_offset (m : Buf) (base Q i : Nat) :
    lookupFrequency m base Q i = lookupFrequencyShifted m base Q i := by
  unfold lookupFrequency lookupFrequencyShifted
  rw [show base + 2 * (readU16 m base + 1) = base + 2 + 2 * readU16 m base from by ring]

theorem highBitF_le (vs : List Nat) (lb n j : Nat) : highBitF vs lb n j ≤ 1 := by
  unfold highBitF
  split <;> omega

theorem hiPart_mono (vs : List Nat) (lb : Nat)
    (hm : ∀ i j, i ≤ j → j < vs.length → vs.getD i 0 ≤ vs.getD j 0)
    {i j : Nat} (hij : i ≤ j) (hj : j < vs.length) : hiPart vs lb i ≤ hiPart vs lb j := by
  unfold hiPart
  rw [Nat.shiftRight_eq_div_pow, Nat.shiftRight_eq_div_pow]
  exact Nat.div_le_div_right (hm i j hij hj)

theorem onePos_mono (vs : List Nat) (lb : Nat)
    (hm : ∀ i j, i ≤ j → j < vs.length → vs.getD i 0 ≤ vs.getD j 0)
    {i j : Nat} (hij : i ≤ j) (hj : j < vs.length) : onePos vs lb i ≤ onePos vs lb j := by
  unfold onePos
  have := hiPart_mono vs lb hm hij hj
  omega

theorem onePos_strict (vs : List Nat) (lb : Nat)
    (hm : ∀ i j, i ≤ j → j < vs.length → vs.getD i 0 ≤ vs.getD j 0)
    {i j : Nat} (hij : i < j) (hj : j < vs.length) : onePos vs lb i < onePos vs lb j := by
  have h1 := hiPart_mono vs lb hm (le_of_lt hij) hj
  unfold onePos
  omega

theorem highBitF_eq_one_iff (vs : List Nat) (lb n j : Nat) :
    highBitF vs lb n j = 1 ↔ ∃ i, i < n ∧ j = onePos vs lb i := by
  unfold highBitF
  constructor
  · intro h1
    split at h1
    · next hany =>
      rw [List.any_eq_true] at hany
      obtain ⟨i, hmem, hi⟩ := hany
      rw [List.mem_range] at hmem
      exact ⟨i, hmem, by simpa using hi⟩
    · omega
  · intro ⟨i, hi, hj⟩
    rw [if_pos]
    rw [List.any_eq_true]
    exact ⟨i, List.mem_range.mpr hi, by simpa using hj⟩

theorem highBitF_onePos (vs : List Nat) (lb : Nat) {n I : Nat} (hI : I < n) :
    highBitF vs lb n (onePos vs lb I) = 1 :=
  (highBitF_eq_one_iff vs lb n _).mpr ⟨I, hI, rfl⟩

theorem sumRange_shift_sub {g : Nat → Nat} (a b : Nat) :
    sumRange (fun j => g (a + j)) b = sumRange g (a + b) - sumRange g a := by
  rw [sumRange_add]
  omega

theorem ones_upto_onePos (vs : List Nat) (lb : Nat)
    (hm : ∀ i j, i ≤ j → j < vs.length → vs.getD i 0 ≤ vs.getD j 0) :
    ∀ I, I < vs.length → sumRange (highBitF vs lb vs.length) (onePos vs lb I) = I := by
  intro I
  induction I with
  | zero =>
    intro h0
    apply sumRange_zero_of
    intro x hx
    by_contra hc
    have hone : highBitF vs lb vs.length x = 1 := by
      have := highBitF_le vs lb vs.length x
      omega
    obtain ⟨i, hi, hxi⟩ := (highBitF_eq_one_iff vs lb vs.length x).mp hone
    have := onePos_mono vs lb hm (Nat.zero_le i) hi
    omega
  | succ I ih =>
    intro hI
    have hIlt : I < vs.length := by omega
    have hstrict := onePos_strict vs lb hm (show I < I + 1 by omega) hI
    have hsplit : onePos vs lb (I + 1) =
        (onePos vs lb I + 1) + (onePos vs lb (I + 1) - (onePos vs lb I + 1)) := by omega
    rw [hsplit, sumRange_add, sumRange_add]
    have h1 : sumRange (highBitF vs lb vs.length) (onePos vs lb I) = I := ih hIlt
    have h2 : sumRange (fun j => highBitF vs lb vs.length (onePos vs lb I + j)) 1 = 1 := by
      simp [sumRange]
      exact highBitF_onePos vs lb hIlt
    have h3 : sumRange
        (fun j => highBitF vs lb vs.length (onePos vs lb I + 1 + j))
        (onePos vs lb (I + 1) - (onePos vs lb I + 1)) = 0 := by
      apply sumRange_zero_of
      intro x hx
      by_contra hc
      have hone : highBitF vs lb vs.length (onePos vs lb I + 1 + x) = 1 := by
        have := highBitF_le vs lb vs.length (onePos vs lb I + 1 + x)
        omega
      obtain ⟨i, hi, hxi⟩ := (highBitF_eq_one_iff vs lb vs.length _).mp hone
      rcases Nat.lt_or_ge i (I + 1) with hile | hige
      · have := onePos_mono vs lb hm (show i ≤ I by omega) hIlt
        omega
      · have := onePos_mono vs lb hm hige hi
        omega
    omega

theorem ones_upto_onePos_succ (vs : List Nat) (lb : Nat)
    (hm : ∀ i j, i ≤ j → j < vs.length → vs.getD i 0 ≤ vs.getD j 0)
    {I : Nat} (hI : I < vs.length) :
    sumRange (highBitF vs lb vs.length) (onePos vs lb I + 1) = I + 1 := by
  have h1 := ones_upto_onePos vs lb hm I hI
  have h2 : sumRange (highBitF vs lb vs.length) (onePos vs lb I + 1) =
      sumRange (highBitF vs lb vs.length) (onePos vs lb I) +
        highBitF vs lb vs.length (onePos vs lb I) := rfl
  rw [h2, h1, highBitF_onePos vs lb hI]

theorem lowBitF_le (vs : List Nat) (lb j : Nat) : lowBitF vs lb j ≤ 1 := by
  unfold lowBitF
  omega

theorem lowbits_val (vs : List Nat) (lb i : Nat) (hlb : 1 ≤ lb) :
    bitsVal (lowBitF vs lb) (i * lb) lb = vs.getD i 0 % 2 ^ lb := by
  have h1 : bitsVal (lowBitF vs lb) (i * lb) lb =
      bitsVal (fun j => (vs.getD i 0 >>> j) % 2) 0 lb := by
    apply bitsVal_congr
    intro j hj
    unfold lowBitF
    have e1 : (i * lb + j) / lb = i := by
      rw [Nat.add_comm, Nat.add_mul_div_right _ _ (by omega : 0 < lb)]
      rw [Nat.div_eq_of_lt hj]
      omega
    have e2 : (i * lb + j) % lb = j := by
      rw [Nat.add_comm, Nat.add_mul_mod_self_right]
      exact Nat.mod_eq_of_lt hj
    rw [e1, e2]
    simp
  rw [h1, val_bits]
  simp

theorem lowAccumLoop_ok {m : Buf} {G : Nat → Nat} (hG : ∀ j, G j ≤ 1) (P0 nEnd : Nat)
    (hEnd1 : 1 ≤ nEnd) (hEnd2 : nEnd ≤ 56)
    (hbyte : ∀ k, 8 * k < nEnd → byteAt m (P0 + k) = byteFromBits G (8 * k)) :
    ∀ fuel s, 8 * s < nEnd → nEnd ≤ 8 * s + fuel →
    lowAccumLoop m fuel (P0 + s) nEnd (bitsVal G 0 (8 * s)) (8 * s) =
      (bitsVal G 0 (8 * ((nEnd + 7) / 8)), P0 + ((nEnd + 7) / 8 - 1), 8 * ((nEnd + 7) / 8)) := by
  intro fuel
  induction fuel with
  | zero =>
    intro s h1 h2
    omega
  | succ fuel ih =>
    intro s h1 h2
    unfold lowAccumLoop
    have hb := hbyte s h1
    have hstep : u64 (bitsVal G 0 (8 * s) ||| u64 (byteAt m (P0 + s) <<< (8 * s))) =
        bitsVal G 0 (8 * (s + 1)) := by
      rw [hb]
      have hbl := byteFromBits_lt hG (8 * s)
      have hsh : byteFromBits G (8 * s) <<< (8 * s) < 18446744073709551616 := by
        rw [Nat.shiftLeft_eq]
        calc byteFromBits G (8 * s) * 2 ^ (8 * s) < 256 * 2 ^ (8 * s) := by
              exact (Nat.mul_lt_mul_right (Nat.two_pow_pos _)).mpr hbl
          _ = 2 ^ (8 * s + 8) := by rw [pow_add]; ring
          _ ≤ 2 ^ 56 := Nat.pow_le_pow_right (by omega) (by omega)
          _ < 18446744073709551616 := by norm_num
      rw [u64_id hsh]
      have hlor : bitsVal G 0 (8 * s) ||| byteFromBits G (8 * s) <<< (8 * s) =
          byteFromBits G (8 * s) * 2 ^ (8 * s) + bitsVal G 0 (8 * s) := by
        rw [Nat.lor_comm]
        have := shl_lor_add (a := byteFromBits G (8 * s)) (k := 8 * s)
          (bitsVal_lt hG 0 (8 * s))
        exact this
      rw [hlor]
      have hsum : byteFromBits G (8 * s) * 2 ^ (8 * s) + bitsVal G 0 (8 * s) =
          bitsVal G 0 (8 * (s + 1)) := by
        have hsplit := bitsVal_split G 0 (8 * s) (8 * (s + 1)) (by omega)
        rw [hsplit]
        have e1 : 8 * (s + 1) - 8 * s = 8 := by omega
        have e2 : 0 + 8 * s = 8 * s := by omega
        rw [e1, e2]
        unfold byteFromBits
        ring
      rw [hsum]
      apply u64_id
      calc bitsVal G 0 (8 * (s + 1)) < 2 ^ (8 * (s + 1)) := bitsVal_lt hG 0 _
        _ ≤ 2 ^ 64 := Nat.pow_le_pow_right (by omega) (by omega)
        _ = 18446744073709551616 := by norm_num
    rw [hstep]
    rcases Nat.lt_or_ge (8 * s + 8) nEnd with hlt | hge
    · rw [if_neg (by omega)]
      have e4 : P0 + s + 1 = P0 + (s + 1) := by ring
      have e5 : 8 * s + 8 = 8 * (s + 1) := by ring
      rw [e4, e5]
      exact ih (s + 1) (by omega) (by omega)
    · rw [if_pos (by omega)]
      have e1 : (nEnd + 7) / 8 = s + 1 := by omega
      rw [e1]
      have e2 : 8 * (s + 1) = 8 * s + 8 := by ring
      rw [e2]
      have e3 : P0 + (s + 1 - 1) = P0 + s := by omega
      rw [e3]

theorem highScanLoop_eq_P (m : Buf) :
    ∀ fuel p mask hpos high,
    highScanLoop m fuel p mask hpos high =
      (highScanLoopP m fuel p mask hpos high (bitCount8 (byteAt m p &&& mask))).map Prod.fst := by
  intro fuel
  induction fuel with
  | zero => intros; rfl
  | succ fuel ih =>
    intro p mask hpos high
    unfold highScanLoop highScanLoopP
    dsimp only
    split
    · rfl
    · rw [ih]
      rw [and_255_eq _ (byteAt_lt m (p + 1))]

theorem bcnt_masked_eq {m : Buf} {g : Nat → Nat} {A HB : Nat}
    (hg : ∀ j, g j ≤ 1)
    (hbytes : ∀ k, k < HB → byteAt m (A + k) = byteFromBits g (8 * k))
    {k t : Nat} (hk : k < HB) (ht : t ≤ 7) :
    bitCount8 (byteAt m (A + k) &&& (256 - 2 ^ t)) =
      sumRange g (8 * k + 8) - sumRange g (8 * k + t) := by
  rw [hbytes k hk]
  rw [bitCount8_masked hg (8 * k) t (by omega)]
  rw [sumRange_shift_sub (g := g) (8 * k) 8, sumRange_shift_sub (g := g) (8 * k) t]
  have h1 := sumRange_le g (show 8 * k ≤ 8 * k + t by omega)
  have h2 := sumRange_le g (show 8 * k + t ≤ 8 * k + 8 by omega)
  omega

theorem bcnt_window_le {g : Nat → Nat} (hg : ∀ j, g j ≤ 1) (a δ : Nat) :
    sumRange g (a + δ) - sumRange g a ≤ δ := by
  have h1 := sumRange_shift_sub (g := g) a δ
  have h2 := sumRange_bound (f := fun j => g (a + j)) (fun j => hg (a + j)) δ
  omega

theorem highScanP_ok {m : Buf} {g : Nat → Nat} {A HB : Nat}
    (hg : ∀ j, g j ≤ 1)
    (hbytes : ∀ k, k < HB → byteAt m (A + k) = byteFromBits g (8 * k))
    (hHB64 : 8 * HB < 18446744073709551616)
    {pos : Nat} (hposlt : pos < 8 * HB) (hbit : g pos = 1) :
    ∀ fuel k t, t ≤ 7 → 8 * k + t ≤ pos →
    sumRange g (8 * k + t) ≤ 8 * k →
    HB - k < fuel →
    ∃ k2 t2,
      highScanLoopP m fuel (A + k) (256 - 2 ^ t)
          (sumRange g pos - sumRange g (8 * k + t))
          (8 * k - sumRange g (8 * k + t))
          (bitCount8 (byteAt m (A + k) &&& (256 - 2 ^ t))) =
        some (⟨A + k2, 256 - 2 ^ t2, sumRange g pos - sumRange g (8 * k2 + t2),
               8 * k2 - sumRange g (8 * k2 + t2)⟩,
              bitCount8 (byteAt m (A + k2) &&& (256 - 2 ^ t2))) ∧
      t2 ≤ 7 ∧ 8 * k2 + t2 ≤ pos ∧ pos < 8 * (k2 + 1) ∧
      sumRange g (8 * k2 + t2) ≤ 8 * k2 ∧
      sumRange g pos - sumRange g (8 * k2 + t2) <
        bitCount8 (byteAt m (A + k2) &&& (256 - 2 ^ t2)) := by
  intro fuel
  induction fuel with
  | zero =>
    intro k t h1 h2 h3 h4
    omega
  | succ fuel ih =>
    intro k t ht hkt hinv hfuel
    have hkHB : k < HB := by omega
    have hbcnt := bcnt_masked_eq hg hbytes hkHB ht
    have hS1 := sumRange_le g (show 8 * k + t ≤ 8 * k + 8 by omega)
    have hS2 := sumRange_le g (show 8 * k + t ≤ pos by omega)
    rcases Nat.lt_or_ge (sumRange g pos - sumRange g (8 * k + t))
        (bitCount8 (byteAt m (A + k) &&& (256 - 2 ^ t))) with hbrk | hskip
    · refine ⟨k, t, ?_, ht, hkt, ?_, hinv, hbrk⟩
      · unfold highScanLoopP
        rw [if_pos hbrk]
      · by_contra hc
        have hge : 8 * (k + 1) ≤ pos := by omega
        have hS3 := sumRange_le g (show 8 * k + 8 ≤ pos by omega)
        omega
    · have hge : 8 * (k + 1) ≤ pos := by
        by_contra hc
        have hple : pos + 1 ≤ 8 * k + 8 := by omega
        have hS4 := sumRange_le g hple
        have hS5 : sumRange g (pos + 1) = sumRange g pos + 1 := by
          have : sumRange g (pos + 1) = sumRange g pos + g pos := rfl
          omega
        omega
      have hwin := bcnt_window_le hg (8 * k + t) (8 - t)
      rw [show 8 * k + t + (8 - t) = 8 * k + 8 by omega] at hwin
      have hnext : ∃ k2 t2,
          highScanLoopP m fuel (A + (k + 1)) (256 - 2 ^ 0)
              (sumRange g pos - sumRange g (8 * (k + 1) + 0))
              (8 * (k + 1) - sumRange g (8 * (k + 1) + 0))
              (bitCount8 (byteAt m (A + (k + 1)) &&& (256 - 2 ^ 0))) =
            some (⟨A + k2, 256 - 2 ^ t2, sumRange g pos - sumRange g (8 * k2 + t2),
                   8 * k2 - sumRange g (8 * k2 + t2)⟩,
                  bitCount8 (byteAt m (A + k2) &&& (256 - 2 ^ t2))) ∧
          t2 ≤ 7 ∧ 8 * k2 + t2 ≤ pos ∧ pos < 8 * (k2 + 1) ∧
          sumRange g (8 * k2 + t2) ≤ 8 * k2 ∧
          sumRange g pos - sumRange g (8 * k2 + t2) <
            bitCount8 (byteAt m (A + k2) &&& (256 - 2 ^ t2)) := by
        apply ih (k + 1) 0 (by omega) (by omega)
        · rw [show 8 * (k + 1) + 0 = 8 * k + 8 from by ring]
          omega
        · omega
      obtain ⟨k2, t2, hrun, ha, hb2, hc2, hd2, he2⟩ := hnext
      rw [show 8 * (k + 1) + 0 = 8 * k + 8 from by ring] at hrun
      rw [show (256 - 2 ^ 0 : Nat) = 255 from by norm_num] at hrun
      rw [and_255_eq (byteAt m (A + (k + 1))) (byteAt_lt m (A + (k + 1)))] at hrun
      refine ⟨k2, t2, ?_, ha, hb2, hc2, hd2, he2⟩
      unfold highScanLoopP
      rw [if_neg (by omega)]
      have e1 : A + k + 1 = A + (k + 1) := by ring
      have e2 : sumRange g pos - sumRange g (8 * k + t) -
          bitCount8 (byteAt m (A + k) &&& (256 - 2 ^ t)) =
          sumRange g pos - sumRange g (8 * k + 8) := by
        have hS3 := sumRange_le g (show 8 * k + 8 ≤ pos by omega)
        rw [hbcnt]
        omega
      have e3 : u64 (8 * k - sumRange g (8 * k + t) +
          (8 - bitCount8 (byteAt m (A + k) &&& (256 - 2 ^ t)))) =
          8 * (k + 1) - sumRange g (8 * k + 8) := by
        rw [hbcnt]
        have hval : 8 * k - sumRange g (8 * k + t) +
            (8 - (sumRange g (8 * k + 8) - sumRange g (8 * k + t))) =
            8 * (k + 1) - sumRange g (8 * k + 8) := by
          omega
        rw [hval]
        apply u64_id
        omega
      rw [e1, e2, e3]
      exact hrun

theorem xor_mask8 (t : Nat) (ht : t < 8) : 255 ^^^ (2 ^ t - 1) = 256 - 2 ^ t := by
  interval_cases t <;> decide

theorem and_complement8 {x : Nat} (hx : x < 4294967296) : x &&& 4294967288 = 8 * (x / 8) := by
  have hx32 : x < 2 ^ 32 := by
    have h : (2:Nat) ^ 32 = 4294967296 := by norm_num
    omega
  have hform : 8 * (x / 8) = (x >>> 3) <<< 3 := by
    rw [Nat.shiftLeft_eq, Nat.shiftRight_eq_div_pow]
    norm_num
    ring
  rw [hform]
  apply Nat.eq_of_testBit_eq
  intro i
  rw [Nat.testBit_and, Nat.testBit_shiftLeft]
  rcases Nat.lt_or_ge i 3 with h3 | h3
  · have hmb : (4294967288 : Nat).testBit i = false := by interval_cases i <;> decide
    simp [hmb, Nat.not_le.mpr h3]
  · rcases Nat.lt_or_ge i 32 with h32 | h32
    · have hmb : (4294967288 : Nat).testBit i = true := by interval_cases i <;> decide
      rw [hmb, Nat.testBit_shiftRight]
      rw [show 3 + (i - 3) = i from by omega]
      simp [decide_eq_true h3]
    · have hmb : (4294967288 : Nat).testBit i = false :=
        Nat.testBit_lt_two_pow (by
          calc (4294967288:Nat) < 2 ^ 32 := by norm_num
            _ ≤ 2 ^ i := Nat.pow_le_pow_right (by omega) h32)
      have hxb : x.testBit i = false :=
        Nat.testBit_lt_two_pow (lt_of_lt_of_le hx32 (Nat.pow_le_pow_right (by omega) h32))
      rw [hmb, hxb, Nat.testBit_shiftRight]
      rw [show 3 + (i - 3) = i from by omega]
      simp [hxb]

theorem highLen_pos_form (vs : List Nat) (lb : Nat) (hhb : hbOf vs lb ≠ 0)
    (hn : 0 < vs.length) :
    highLenOf vs lb = onePos vs lb (vs.length - 1) + 1 := by
  unfold highLenOf onePos
  rw [if_pos hhb]
  omega

theorem highInit_ok {m : Buf} {vs : List Nat} {base lb Q i : Nat}
    (henc : MonoEnc m base vs lb Q) (hcond : 8 ∣ Q ∨ vs.length ≤ Q)
    (hi : i < vs.length) (hhb : hbOf vs lb ≠ 0) :
    ∃ k0 t0,
      highInit m base (base + 8 + 4 * numIdxOf vs lb Q) Q i vs.length lb =
        ⟨base + 8 + 4 * numIdxOf vs lb Q + lowBytesOf vs lb + k0, 256 - 2 ^ t0,
         sumRange (highBitF vs lb vs.length) (onePos vs lb i) -
           sumRange (highBitF vs lb vs.length) (8 * k0 + t0),
         8 * k0 - sumRange (highBitF vs lb vs.length) (8 * k0 + t0)⟩ ∧
      t0 ≤ 7 ∧ 8 * k0 + t0 ≤ onePos vs lb i ∧
      sumRange (highBitF vs lb vs.length) (8 * k0 + t0) ≤ 8 * k0 := by
  have hby0 : u32 (vs.length * lb + 7) >>> 3 = lowBytesOf vs lb := by
    rw [u32_id (by have := henc.bits_lt; omega), Nat.shiftRight_eq_div_pow]
    unfold lowBytesOf
    norm_num
  unfold highInit
  rw [hby0]
  rcases Nat.lt_or_ge i Q with hiQ | hiQ
  · rw [if_neg (by omega)]
    refine ⟨0, 0, ?_, by omega, by omega, by simp [sumRange]⟩
    dsimp only
    have hS0 : sumRange (highBitF vs lb vs.length) (8 * 0 + 0) = 0 := rfl
    have hSpos : sumRange (highBitF vs lb vs.length) (onePos vs lb i) = i :=
      ones_upto_onePos vs lb henc.mono i hi
    rw [hS0, hSpos]
    norm_num [HScan.mk.injEq]
  · rw [if_pos hiQ]
    have hQ8 : 8 ∣ Q := by
      rcases hcond with h | h
      · exact h
      · omega
    have hq1 : 1 ≤ i / Q := (Nat.one_le_div_iff henc.qpos).mpr hiQ
    have hqQn : i / Q * Q - 1 < vs.length := by
      have := Nat.div_mul_le_self i Q
      omega
    have hqidx : i / Q - 1 < numIdxOf vs lb Q := by
      unfold numIdxOf
      rw [if_pos hhb]
      have h2 : i / Q ≤ (vs.length - 1) / Q :=
        Nat.div_le_div_right (by omega)
      omega
    have hidx := henc.idx_def (i / Q - 1) hqidx
    rw [show i / Q - 1 + 1 = i / Q from by omega] at hidx
    dsimp only
    rw [hidx]
    set q := i / Q with hq
    have hqQle : q * Q ≤ i := by rw [hq]; exact Nat.div_mul_le_self i Q
    set beta := onePos vs lb (q * Q - 1) + 1 with hbeta
    clear_value q beta
    have hqQpos : 0 < q * Q := Nat.mul_pos (by omega) henc.qpos
    have hbetalt : beta < 4294967296 := by
      have h1 : onePos vs lb (q * Q - 1) ≤ onePos vs lb (vs.length - 1) :=
        onePos_mono vs lb henc.mono (by omega) (by omega)
      have h2 := henc.high_lt
      rw [highLen_pos_form vs lb hhb henc.npos] at h2
      omega
    have ht0 : beta &&& 7 = beta % 8 := by
      rw [and_mask beta 7 3 (by norm_num)]
      norm_num
    have hk0 : beta >>> 3 = beta / 8 := by
      rw [Nat.shiftRight_eq_div_pow]
    refine ⟨beta / 8, beta % 8, ?_, by omega, ?_, ?_⟩
    · -- the structure equality
      have hmask : 255 ^^^ sub32 (u32 (1 <<< (beta &&& 7))) 1 = 256 - 2 ^ (beta % 8) := by
        rw [ht0]
        have hsmall : (1 : Nat) <<< (beta % 8) < 4294967296 := by
          rw [Nat.shiftLeft_eq, Nat.one_mul]
          calc (2:Nat) ^ (beta % 8) ≤ 2 ^ 7 := Nat.pow_le_pow_right (by omega) (by omega)
            _ < 4294967296 := by norm_num
        rw [u32_id hsmall, Nat.shiftLeft_eq, Nat.one_mul]
        rw [sub32_sub Nat.one_le_two_pow (by
          calc (2:Nat) ^ (beta % 8) ≤ 2 ^ 7 := Nat.pow_le_pow_right (by omega) (by omega)
            _ < 4294967296 := by norm_num)]
        exact xor_mask8 (beta % 8) (by omega)
      have hqQ : q * Q ≤ i := hqQle
      have hSbeta : sumRange (highBitF vs lb vs.length) beta = q * Q := by
        rw [hbeta]
        have := ones_upto_onePos_succ vs lb henc.mono (I := q * Q - 1) (by omega)
        rw [this]
        have hqQpos : 0 < q * Q := Nat.mul_pos (by omega) henc.qpos
        omega
      have hSpos : sumRange (highBitF vs lb vs.length) (onePos vs lb i) = i :=
        ones_upto_onePos vs lb henc.mono i hi
      have hqQ8 : q * Q % 8 = 0 := by
        obtain ⟨c, hc⟩ := hQ8
        subst hc
        rw [show q * (8 * c) = 8 * (q * c) from by ring]
        omega
      have hbmod : beta % 8 = hiPart vs lb (q * Q - 1) % 8 := by
        rw [hbeta]
        unfold onePos
        omega
      have h8k0 : q * Q ≤ 8 * (beta / 8) := by
        have h1 : 8 * (beta / 8) = beta - beta % 8 := by omega
        rw [h1, hbmod, hbeta]
        unfold onePos
        have h2 : hiPart vs lb (q * Q - 1) % 8 ≤ hiPart vs lb (q * Q - 1) :=
          Nat.mod_le _ _
        omega
      have hhpos : sub32 i (u32 (q * Q)) =
          sumRange (highBitF vs lb vs.length) (onePos vs lb i) -
            sumRange (highBitF vs lb vs.length) (8 * (beta / 8) + beta % 8) := by
        rw [show 8 * (beta / 8) + beta % 8 = beta from by omega]
        rw [hSbeta, hSpos]
        rw [u32_id (by have := henc.n_lt; omega)]
        rw [sub32_sub hqQ (by have := henc.n_lt; omega)]
      have hhigh : u64 (sub32 (beta &&& 4294967288) (u32 (q * Q))) =
          8 * (beta / 8) -
            sumRange (highBitF vs lb vs.length) (8 * (beta / 8) + beta % 8) := by
        rw [show 8 * (beta / 8) + beta % 8 = beta from by omega]
        rw [hSbeta]
        rw [and_complement8 hbetalt]
        rw [u32_id (by have := henc.n_lt; omega)]
        rw [sub32_sub h8k0 (by omega)]
        apply u64_id
        omega
      rw [hmask, hhpos, hhigh, hk0]
    · -- 8 * (beta/8) + beta % 8 ≤ onePos i
      have h1 : onePos vs lb (q * Q - 1) < onePos vs lb i := by
        apply onePos_strict vs lb henc.mono _ hi
        omega
      omega
    · -- invariant sum ≤ 8 k0
      have hqQ : q * Q ≤ i := hqQle
      have hSbeta : sumRange (highBitF vs lb vs.length) beta = q * Q := by
        rw [hbeta]
        have := ones_upto_onePos_succ vs lb henc.mono (I := q * Q - 1) (by omega)
        rw [this]
        have hqQpos : 0 < q * Q := Nat.mul_pos (by omega) henc.qpos
        omega
      have hqQ8 : q * Q % 8 = 0 := by
        obtain ⟨c, hc⟩ := hQ8
        subst hc
        rw [show q * (8 * c) = 8 * (q * c) from by ring]
        omega
      have hbmod : beta % 8 = hiPart vs lb (q * Q - 1) % 8 := by
        rw [hbeta]
        unfold onePos
        omega
      have h8k0 : q * Q ≤ 8 * (beta / 8) := by
        have h1 : 8 * (beta / 8) = beta - beta % 8 := by omega
        rw [h1, hbmod, hbeta]
        unfold onePos
        have h2 : hiPart vs lb (q * Q - 1) % 8 ≤ hiPart vs lb (q * Q - 1) :=
          Nat.mod_le _ _
        omega
      rw [show 8 * (beta / 8) + beta % 8 = beta from by omega]
      rw [hSbeta]
      exact h8k0

theorem bitLenAux_ne (fuel n : Nat) (hn : n ≠ 0) : bitLenAux (fuel + 1) n ≠ 0 := by
  unfold bitLenAux
  rw [if_neg hn]
  omega

theorem lowPart_ok {m : Buf} {vs : List Nat} {base lb Q i : Nat}
    (henc : MonoEnc m base vs lb Q) (hi : i < vs.length) :
    (lowAccumLoop m (lb + (u32 (i * lb) &&& 7) + 8)
        (base + 8 + 4 * numIdxOf vs lb Q + (u32 (i * lb) >>> 3))
        (lb + (u32 (i * lb) &&& 7)) 0 0).1 >>> (u32 (i * lb) &&& 7) &&&
      sub32 (u32 (1 <<< lb)) 1 = vs.getD i 0 % 2 ^ lb := by
  rcases Nat.eq_zero_or_pos lb with hlb0 | hlb
  · subst hlb0
    have hm0 : sub32 (u32 (1 <<< 0)) 1 = 0 := by decide
    rw [hm0, Nat.and_zero, pow_zero, Nat.mod_one]
  · have hbits := henc.bits_lt
    have hilb : i * lb < vs.length * lb := (Nat.mul_lt_mul_right hlb).mpr hi
    have hu : u32 (i * lb) = i * lb := u32_id (by omega)
    rw [hu]
    have hs7 : i * lb &&& 7 = i * lb % 8 := by
      rw [and_mask (i * lb) 7 3 (by norm_num)]
      norm_num
    have hsh : (i * lb) >>> 3 = i * lb / 8 := by
      rw [Nat.shiftRight_eq_div_pow]
    rw [hs7, hsh]
    have hlb32 := henc.lb_lt
    have hnEnd1 : 1 ≤ lb + i * lb % 8 := by omega
    have hnEnd2 : lb + i * lb % 8 ≤ 56 := by omega
    have hlow8 : vs.length * lb ≤ 8 * lowBytesOf vs lb := by
      unfold lowBytesOf
      omega
    have hi1 : (i + 1) * lb ≤ vs.length * lb := Nat.mul_le_mul_right lb (by omega)
    have hG : ∀ j, (fun j => lowBitF vs lb (8 * (i * lb / 8) + j)) j ≤ 1 :=
      fun j => lowBitF_le vs lb _
    have hbyte : ∀ k, 8 * k < lb + i * lb % 8 →
        byteAt m (base + 8 + 4 * numIdxOf vs lb Q + i * lb / 8 + k) =
          byteFromBits (fun j => lowBitF vs lb (8 * (i * lb / 8) + j)) (8 * k) := by
      intro k hk
      have hkB : i * lb / 8 + k < lowBytesOf vs lb := by
        have h1 : (i + 1) * lb = i * lb + lb := by ring
        omega
      have h2 := henc.low_def (i * lb / 8 + k) hkB
      rw [show base + 8 + 4 * numIdxOf vs lb Q + i * lb / 8 + k =
          base + 8 + 4 * numIdxOf vs lb Q + (i * lb / 8 + k) from by omega]
      rw [h2]
      unfold byteFromBits
      apply bitsVal_congr
      intro j hj
      dsimp only
      rw [show 8 * (i * lb / 8 + k) + j = 8 * (i * lb / 8) + (8 * k + j) from by ring]
    have hacc := lowAccumLoop_ok hG (base + 8 + 4 * numIdxOf vs lb Q + i * lb / 8)
      (lb + i * lb % 8) hnEnd1 hnEnd2 hbyte (lb + i * lb % 8 + 8) 0 (by omega) (by omega)
    simp only [Nat.add_zero, Nat.mul_zero, bitsVal] at hacc
    rw [hacc]
    dsimp only
    rw [bitsVal_shiftRight hG 0 (i * lb % 8) _ (by omega)]
    rw [Nat.zero_add]
    have hp32 : (2:Nat) ^ lb < 4294967296 := by
      calc (2:Nat) ^ lb < 2 ^ 32 := Nat.pow_lt_pow_right (by omega) hlb32
        _ = 4294967296 := by norm_num
    have hone : (1:Nat) ≤ 2 ^ lb := Nat.one_le_two_pow
    have hmask : sub32 (u32 (1 <<< lb)) 1 = 2 ^ lb - 1 := by
      rw [Nat.shiftLeft_eq, Nat.one_mul, u32_id hp32, sub32_sub hone hp32]
    rw [hmask, and_mask _ (2 ^ lb - 1) lb (by omega)]
    rw [bitsVal_mod hG _ lb _ (by omega)]
    have hfin : bitsVal (fun j => lowBitF vs lb (8 * (i * lb / 8) + j)) (i * lb % 8) lb =
        bitsVal (lowBitF vs lb) (i * lb) lb := by
      apply bitsVal_congr
      intro j hj
      dsimp only
      rw [show 8 * (i * lb / 8) + (i * lb % 8 + j) = i * lb + j from by omega]
    rw [hfin, lowbits_val vs lb i hlb]

theorem lookupMonotonic_ok {m : Buf} {vs : List Nat} {base lb Q i : Nat}
    (henc : MonoEnc m base vs lb Q) (hcond : 8 ∣ Q ∨ vs.length ≤ Q)
    (hi : i < vs.length) :
    lookupMonotonic m base Q i = some (vs.getD i 0) := by
  have hlow := lowPart_ok henc hi
  unfold lookupMonotonic
  dsimp only
  rw [henc.n_def, henc.lb_def, henc.hb_def]
  by_cases hhb : hbOf vs lb = 0
  · rw [if_neg (show ¬ hbOf vs lb ≠ 0 from by omega), if_pos hhb]
    have hidx0 : numIdxOf vs lb Q = 0 := by
      unfold numIdxOf
      rw [if_neg (by omega)]
    rw [hidx0] at hlow
    simp only [Nat.mul_zero, Nat.add_zero] at hlow ⊢
    rw [hlow]
    have hv0 : hiPart vs lb (vs.length - 1) = 0 := by
      unfold hbOf at hhb
      split at hhb
      · assumption
      · next hne => exact absurd hhb (bitLenAux_ne 63 _ hne)
    have hnpos := henc.npos
    have hvi : hiPart vs lb i = 0 := by
      have h1 := hiPart_mono vs lb henc.mono (show i ≤ vs.length - 1 by omega) (by omega)
      omega
    have hvlt : vs.getD i 0 < 2 ^ lb := by
      have h2 : vs.getD i 0 / 2 ^ lb = 0 := by
        unfold hiPart at hvi
        rwa [Nat.shiftRight_eq_div_pow] at hvi
      have h3 := Nat.div_add_mod (vs.getD i 0) (2 ^ lb)
      rw [h2, Nat.mul_zero, Nat.zero_add] at h3
      have h4 := Nat.mod_lt (vs.getD i 0) (Nat.two_pow_pos lb)
      omega
    rw [Nat.mod_eq_of_lt hvlt]
  · rw [if_pos hhb, if_neg hhb]
    have hidxv : numIdxOf vs lb Q = (vs.length - 1) / Q := by
      unfold numIdxOf
      rw [if_pos hhb]
    have hlenok := henc.len_ok
    have hml := henc.len_lt
    have hnpos := henc.npos
    have hpb : u32 (sub32 vs.length 1 / Q * 4) = 4 * numIdxOf vs lb Q := by
      rw [sub32_sub hnpos henc.n_lt]
      rw [hidxv] at hlenok ⊢
      rw [show (vs.length - 1) / Q * 4 = 4 * ((vs.length - 1) / Q) from Nat.mul_comm _ _]
      exact u32_id (by omega)
    rw [hpb, hlow]
    obtain ⟨k0, t0, hst, ht0, hk0pos, hinv0⟩ := highInit_ok henc hcond hi hhb
    rw [hst]
    dsimp only
    rw [highScanLoop_eq_P m]
    have hg : ∀ j, highBitF vs lb vs.length j ≤ 1 := highBitF_le vs lb vs.length
    have hHB64 : 8 * highBytesOf vs lb < 18446744073709551616 := by omega
    have hposlt : onePos vs lb i < 8 * highBytesOf vs lb := by
      have h1 : onePos vs lb i ≤ onePos vs lb (vs.length - 1) :=
        onePos_mono vs lb henc.mono (by omega) (by omega)
      have h2 := highLen_pos_form vs lb hhb hnpos
      have h3 : highLenOf vs lb ≤ 8 * highBytesOf vs lb := by
        unfold highBytesOf
        omega
      omega
    have hbit : highBitF vs lb vs.length (onePos vs lb i) = 1 := highBitF_onePos vs lb hi
    have hfuel : highBytesOf vs lb - k0 < m.length + 2 := by omega
    obtain ⟨k2, t2, hrun, ht2, hk2pos, hposk2, hinv2, hbrk⟩ :=
      highScanP_ok hg henc.high_def hHB64 hposlt hbit (m.length + 2) k0 t0 ht0 hk0pos hinv0 hfuel
    rw [hrun, Option.map_some']
    dsimp only
    have hk2HB : k2 < highBytesOf vs lb := by omega
    rw [henc.high_def k2 hk2HB]
    have hj8 : onePos vs lb i - 8 * k2 < 8 := by omega
    have hbitj : ((byteFromBits (highBitF vs lb vs.length) (8 * k2) &&& (256 - 2 ^ t2)) >>>
        (onePos vs lb i - 8 * k2)) % 2 = 1 := by
      rw [masked_bit hg (8 * k2) t2 (onePos vs lb i - 8 * k2) (by omega) hj8]
      rw [if_pos (by omega)]
      rw [show 8 * k2 + (onePos vs lb i - 8 * k2) = onePos vs lb i from by omega]
      exact hbit
    have hS2le := sumRange_le (highBitF vs lb vs.length) hk2pos
    have hwin := bcnt_window_le hg (8 * k2 + t2) (onePos vs lb i - (8 * k2 + t2))
    rw [show 8 * k2 + t2 + (onePos vs lb i - (8 * k2 + t2)) = onePos vs lb i from by omega]
      at hwin
    have hones : onesBelow (byteFromBits (highBitF vs lb vs.length) (8 * k2) &&& (256 - 2 ^ t2))
        (onePos vs lb i - 8 * k2) =
        sumRange (highBitF vs lb vs.length) (onePos vs lb i) -
          sumRange (highBitF vs lb vs.length) (8 * k2 + t2) := by
      rw [onesBelow_masked hg (8 * k2) t2 (onePos vs lb i - 8 * k2) (by omega) (by omega)
        (by omega)]
      rw [sumRange_shift_sub (g := highBitF vs lb vs.length) (8 * k2) (onePos vs lb i - 8 * k2)]
      rw [sumRange_shift_sub (g := highBitF vs lb vs.length) (8 * k2) t2]
      rw [show 8 * k2 + (onePos vs lb i - 8 * k2) = onePos vs lb i from by omega]
      have h5 := sumRange_le (highBitF vs lb vs.length)
        (show 8 * k2 ≤ 8 * k2 + t2 from by omega)
      omega
    have hhigh64 : 8 * k2 - sumRange (highBitF vs lb vs.length) (8 * k2 + t2) <
        18446744073709551616 := by omega
    have hwalk := bitWalk_ok 8
      (byteFromBits (highBitF vs lb vs.length) (8 * k2) &&& (256 - 2 ^ t2))
      (sumRange (highBitF vs lb vs.length) (onePos vs lb i) -
        sumRange (highBitF vs lb vs.length) (8 * k2 + t2))
      (8 * k2 - sumRange (highBitF vs lb vs.length) (8 * k2 + t2))
      (onePos vs lb i - 8 * k2) hj8 hbitj hones hhigh64
    rw [hwalk]
    dsimp only
    have hSpos : sumRange (highBitF vs lb vs.length) (onePos vs lb i) = i :=
      ones_upto_onePos vs lb henc.mono i hi
    have hposdef : onePos vs lb i = hiPart vs lb i + i := rfl
    have hvr : hiPart vs lb i ≤ vs.getD i 0 := by
      unfold hiPart
      rw [Nat.shiftRight_eq_div_pow]
      exact Nat.div_le_self _ _
    have hv64 := henc.vlt i hi
    have hval : u64 (8 * k2 - sumRange (highBitF vs lb vs.length) (8 * k2 + t2) +
        (onePos vs lb i - 8 * k2 -
          (sumRange (highBitF vs lb vs.length) (onePos vs lb i) -
            sumRange (highBitF vs lb vs.length) (8 * k2 + t2)))) = hiPart vs lb i := by
      have e : 8 * k2 - sumRange (highBitF vs lb vs.length) (8 * k2 + t2) +
          (onePos vs lb i - 8 * k2 -
            (sumRange (highBitF vs lb vs.length) (onePos vs lb i) -
              sumRange (highBitF vs lb vs.length) (8 * k2 + t2))) = hiPart vs lb i := by
        omega
      rw [e]
      exact u64_id (by omega)
    rw [hval]
    have hsl : u64 (hiPart vs lb i <<< lb) = hiPart vs lb i <<< lb := by
      apply u64_id
      rw [Nat.shiftLeft_eq]
      have h1 : hiPart vs lb i * 2 ^ lb ≤ vs.getD i 0 := by
        unfold hiPart
        rw [Nat.shiftRight_eq_div_pow]
        exact Nat.div_mul_le_self _ _
      omega
    rw [hsl]
    have hlor : hiPart vs lb i <<< lb ||| vs.getD i 0 % 2 ^ lb = vs.getD i 0 := by
      rw [shl_lor_add (Nat.mod_lt _ (Nat.two_pow_pos lb))]
      unfold hiPart
      rw [Nat.shiftRight_eq_div_pow]
      exact Nat.div_add_mod' _ _
    rw [hlor]
theorem getD_append_take {xs ys : List Nat} {k : Nat} (h : k < xs.length) :
    (xs ++ ys).getD k 0 = xs.getD k 0 := by
  rw [List.getD_eq_getElem?_getD, List.getD_eq_getElem?_getD, List.getElem?_append_left h]

theorem getD_append_skip (xs ys : List Nat) (k : Nat) :
    (xs ++ ys).getD (xs.length + k) 0 = ys.getD k 0 := by
  rw [List.getD_eq_getElem?_getD, List.getD_eq_getElem?_getD,
    List.getElem?_append_right (by omega)]
  rw [show xs.length + k - xs.length = k from by omega]

theorem byteAt_append_take (xs ys : List Nat) (L k : Nat) (hL : xs.length = L) (h : k < L) :
    byteAt (xs ++ ys) k = byteAt xs k := by
  unfold byteAt
  rw [getD_append_take (by omega)]

theorem byteAt_append_skip (xs ys : List Nat) (L k : Nat) (hL : xs.length = L) :
    byteAt (xs ++ ys) (L + k) = byteAt ys k := by
  unfold byteAt
  subst hL
  rw [getD_append_skip]

theorem u32Bytes_length (x : Nat) : (u32Bytes x).length = 4 := rfl

theorem u16Bytes_length (x : Nat) : (u16Bytes x).length = 2 := rfl

theorem flatten_u32_length (f : Nat → Nat) (N : Nat) :
    (((List.range N).map (fun t => u32Bytes (f t))).flatten).length = 4 * N := by
  induction N with
  | zero => rfl
  | succ N ih =>
    rw [List.range_succ, List.map_append, List.flatten_append, List.length_append, ih]
    simp only [List.map_cons, List.map_nil, List.flatten_cons, List.flatten_nil,
      List.append_nil, u32Bytes, List.length_cons, List.length_nil]
    omega

theorem flatten_u32_getD (f : Nat → Nat) :
    ∀ N q r : Nat, q < N → r < 4 →
    (((List.range N).map (fun t => u32Bytes (f t))).flatten).getD (4 * q + r) 0 =
      (u32Bytes (f q)).getD r 0 := by
  intro N
  induction N with
  | zero => intro q r hq hr; omega
  | succ N ih =>
    intro q r hq hr
    rw [List.range_succ, List.map_append, List.flatten_append]
    rcases Nat.lt_or_ge q N with h | h
    · rw [getD_append_take (by rw [flatten_u32_length]; omega)]
      exact ih q r h hr
    · have hqN : q = N := by omega
      rw [hqN]
      rw [show 4 * N + r =
          (((List.range N).map (fun t => u32Bytes (f t))).flatten).length + r from by
        rw [flatten_u32_length]]
      rw [getD_append_skip]
      simp only [List.map_cons, List.map_nil, List.flatten_cons, List.flatten_nil,
        List.append_nil]

theorem flatten_u32_getD0 (f : Nat → Nat) (N q : Nat) (hq : q < N) :
    (((List.range N).map (fun t => u32Bytes (f t))).flatten).getD (4 * q) 0 =
      (u32Bytes (f q)).getD 0 0 := by
  have h := flatten_u32_getD f N q 0 hq (by omega)
  rwa [Nat.add_zero] at h

theorem getD_map_range (f : Nat → Nat) {N k : Nat} (h : k < N) :
    ((List.range N).map f).getD k 0 = f k := by
  rw [List.getD_eq_getElem ((List.range N).map f) 0 (by simp [h])]
  simp

theorem readU32_u32Bytes (rest : Buf) (x : Nat) (hx : x < 4294967296) :
    readU32 (u32Bytes x ++ rest) 0 = x := by
  show (x % 256 % 256) + 256 * (x / 256 % 256 % 256) + 65536 * (x / 65536 % 256 % 256) +
    16777216 * (x / 16777216 % 256 % 256) = x
  omega

theorem u32Bytes_getD0 (x : Nat) : (u32Bytes x).getD 0 0 = x % 256 := rfl

theorem u32Bytes_getD1 (x : Nat) : (u32Bytes x).getD 1 0 = x / 256 % 256 := rfl

theorem u32Bytes_getD2 (x : Nat) : (u32Bytes x).getD 2 0 = x / 65536 % 256 := rfl

theorem u32Bytes_getD3 (x : Nat) : (u32Bytes x).getD 3 0 = x / 16777216 % 256 := rfl
theorem bitLenAux_le : ∀ fuel n : Nat, bitLenAux fuel n ≤ fuel := by
  intro fuel
  induction fuel with
  | zero => intro n; exact le_refl _
  | succ fuel ih =>
    intro n
    unfold bitLenAux
    split
    · omega
    · have := ih (n / 2)
      omega

theorem encodeMono_eq (vs : List Nat) (lb Q : Nat) :
    encodeMono vs lb Q =
      u32Bytes vs.length ++ (u16Bytes lb ++ (u16Bytes (hbOf vs lb) ++
        ((((List.range (numIdxOf vs lb Q)).map
            (fun q => u32Bytes (onePos vs lb ((q + 1) * Q - 1) + 1))).flatten) ++
          (((List.range (lowBytesOf vs lb)).map
              (fun t => byteFromBits (lowBitF vs lb) (8 * t))) ++
            ((List.range (highBytesOf vs lb)).map
              (fun t => byteFromBits (highBitF vs lb vs.length) (8 * t))))))) := by
  unfold encodeMono
  dsimp only
  simp [List.append_assoc]

theorem encodeMono_byteAt_tail (vs : List Nat) (lb Q j : Nat) :
    byteAt (encodeMono vs lb Q) (8 + j) =
      byteAt ((((List.range (numIdxOf vs lb Q)).map
          (fun q => u32Bytes (onePos vs lb ((q + 1) * Q - 1) + 1))).flatten) ++
        (((List.range (lowBytesOf vs lb)).map
            (fun t => byteFromBits (lowBitF vs lb) (8 * t))) ++
          ((List.range (highBytesOf vs lb)).map
            (fun t => byteFromBits (highBitF vs lb vs.length) (8 * t))))) j := by
  rw [encodeMono_eq]
  rw [show 8 + j = 4 + (2 + (2 + j)) from by omega]
  rw [byteAt_append_skip (u32Bytes vs.length) _ 4 _ (u32Bytes_length _),
    byteAt_append_skip (u16Bytes lb) _ 2 _ (u16Bytes_length _),
    byteAt_append_skip (u16Bytes (hbOf vs lb)) _ 2 _ (u16Bytes_length _)]

theorem encodeMono_length (vs : List Nat) (lb Q : Nat) :
    (encodeMono vs lb Q).length =
      8 + 4 * numIdxOf vs lb Q + lowBytesOf vs lb + highBytesOf vs lb := by
  rw [encodeMono_eq]
  simp only [List.length_append, u32Bytes_length, u16Bytes_length, flatten_u32_length,
    List.length_map, List.length_range]
  omega

theorem encodeMono_monoEnc (vs : List Nat) (lb Q : Nat)
    (hnpos : 0 < vs.length) (hQ : 0 < Q) (hlb : lb < 32)
    (hmono : ∀ i j, i ≤ j → j < vs.length → vs.getD i 0 ≤ vs.getD j 0)
    (hvlt : ∀ i, i < vs.length → vs.getD i 0 < 18446744073709551616)
    (hn32 : vs.length < 4294967296)
    (hbits : vs.length * lb + 7 < 4294967296)
    (hhigh32 : highLenOf vs lb < 4294967296)
    (hlen32 : 8 + 4 * numIdxOf vs lb Q + lowBytesOf vs lb + highBytesOf vs lb < 4294967296) :
    MonoEnc (encodeMono vs lb Q) 0 vs lb Q := by
  have hmlen := encodeMono_length vs lb Q
  have hndef : readU32 (encodeMono vs lb Q) 0 = vs.length := by
    rw [encodeMono_eq]
    exact readU32_u32Bytes _ _ hn32
  have h4 : ∀ j, byteAt (encodeMono vs lb Q) (4 + j) =
      byteAt (u16Bytes lb ++ (u16Bytes (hbOf vs lb) ++
        ((((List.range (numIdxOf vs lb Q)).map
            (fun q => u32Bytes (onePos vs lb ((q + 1) * Q - 1) + 1))).flatten) ++
          (((List.range (lowBytesOf vs lb)).map
              (fun t => byteFromBits (lowBitF vs lb) (8 * t))) ++
            ((List.range (highBytesOf vs lb)).map
              (fun t => byteFromBits (highBitF vs lb vs.length) (8 * t))))))) j := by
    intro j
    rw [encodeMono_eq]
    exact byteAt_append_skip _ _ 4 j rfl
  have hlbdef : readU16 (encodeMono vs lb Q) (0 + 4) = lb := by
    unfold readU16
    rw [show (0:Nat) + 4 = 4 + 0 from rfl, show 4 + 0 + 1 = 4 + 1 from rfl]
    rw [h4 0, h4 1]
    show lb % 256 % 256 + 256 * (lb / 256 % 256 % 256) = lb
    omega
  have hhb16 : hbOf vs lb < 65536 := by
    unfold hbOf
    split
    · omega
    · have h5 := bitLenAux_le 64 (hiPart vs lb (vs.length - 1))
      omega
  have hhbdef : readU16 (encodeMono vs lb Q) (0 + 6) = hbOf vs lb := by
    unfold readU16
    have h6 : ∀ j, byteAt (encodeMono vs lb Q) (6 + j) =
        byteAt (u16Bytes (hbOf vs lb) ++
          ((((List.range (numIdxOf vs lb Q)).map
              (fun q => u32Bytes (onePos vs lb ((q + 1) * Q - 1) + 1))).flatten) ++
            (((List.range (lowBytesOf vs lb)).map
                (fun t => byteFromBits (lowBitF vs lb) (8 * t))) ++
              ((List.range (highBytesOf vs lb)).map
                (fun t => byteFromBits (highBitF vs lb vs.length) (8 * t)))))) j := by
      intro j
      rw [show 6 + j = 4 + (2 + j) from by omega, h4 (2 + j)]
      exact byteAt_append_skip _ _ 2 j rfl
    rw [show (0:Nat) + 6 = 6 + 0 from rfl, show 6 + 0 + 1 = 6 + 1 from rfl]
    rw [h6 0, h6 1]
    show hbOf vs lb % 256 % 256 + 256 * (hbOf vs lb / 256 % 256 % 256) = hbOf vs lb
    omega
  have hidxdef : ∀ q, q < numIdxOf vs lb Q →
      readU32 (encodeMono vs lb Q) (0 + 8 + 4 * q) =
        onePos vs lb ((q + 1) * Q - 1) + 1 := by
    intro q hq
    have hNIne : hbOf vs lb ≠ 0 := by
      by_contra hc
      unfold numIdxOf at hq
      rw [if_neg (by omega)] at hq
      omega
    have hNIval : numIdxOf vs lb Q = (vs.length - 1) / Q := by
      unfold numIdxOf
      rw [if_pos hNIne]
    have hqn : (q + 1) * Q - 1 ≤ vs.length - 1 := by
      have h1 : q + 1 ≤ (vs.length - 1) / Q := by omega
      have h2 : (q + 1) * Q ≤ (vs.length - 1) / Q * Q := Nat.mul_le_mul_right Q h1
      have h3 : (vs.length - 1) / Q * Q ≤ vs.length - 1 := Nat.div_mul_le_self _ _
      omega
    have hvbound : onePos vs lb ((q + 1) * Q - 1) + 1 < 4294967296 := by
      have h1 : onePos vs lb ((q + 1) * Q - 1) ≤ onePos vs lb (vs.length - 1) :=
        onePos_mono vs lb hmono hqn (by omega)
      have h2 := highLen_pos_form vs lb hNIne hnpos
      omega
    unfold readU32
    rw [show (0:Nat) + 8 + 4 * q = 8 + 4 * q from by omega]
    rw [show 8 + 4 * q + 1 = 8 + (4 * q + 1) from by omega,
        show 8 + 4 * q + 2 = 8 + (4 * q + 2) from by omega,
        show 8 + 4 * q + 3 = 8 + (4 * q + 3) from by omega]
    rw [encodeMono_byteAt_tail vs lb Q (4 * q), encodeMono_byteAt_tail vs lb Q (4 * q + 1),
        encodeMono_byteAt_tail vs lb Q (4 * q + 2), encodeMono_byteAt_tail vs lb Q (4 * q + 3)]
    rw [byteAt_append_take _ _ (4 * numIdxOf vs lb Q) _ (flatten_u32_length _ _) (by omega),
        byteAt_append_take _ _ (4 * numIdxOf vs lb Q) _ (flatten_u32_length _ _) (by omega),
        byteAt_append_take _ _ (4 * numIdxOf vs lb Q) _ (flatten_u32_length _ _) (by omega),
        byteAt_append_take _ _ (4 * numIdxOf vs lb Q) _ (flatten_u32_length _ _) (by omega)]
    unfold byteAt
    rw [flatten_u32_getD0 _ _ q hq,
        flatten_u32_getD _ _ q 1 hq (by omega),
        flatten_u32_getD _ _ q 2 hq (by omega),
        flatten_u32_getD _ _ q 3 hq (by omega)]
    rw [u32Bytes_getD0, u32Bytes_getD1, u32Bytes_getD2, u32Bytes_getD3]
    omega
  have hlowdef : ∀ k, k < lowBytesOf vs lb →
      byteAt (encodeMono vs lb Q) (0 + 8 + 4 * numIdxOf vs lb Q + k) =
        byteFromBits (lowBitF vs lb) (8 * k) := by
    intro k hk
    rw [show (0:Nat) + 8 + 4 * numIdxOf vs lb Q + k =
        8 + (4 * numIdxOf vs lb Q + k) from by omega]
    rw [encodeMono_byteAt_tail]
    rw [byteAt_append_skip _ _ (4 * numIdxOf vs lb Q) k (flatten_u32_length _ _)]
    rw [byteAt_append_take _ _ (lowBytesOf vs lb) k (by simp) hk]
    unfold byteAt
    rw [getD_map_range _ hk]
    exact Nat.mod_eq_of_lt (byteFromBits_lt (fun j => lowBitF_le vs lb j) _)
  have hhighdef : ∀ k, k < highBytesOf vs lb →
      byteAt (encodeMono vs lb Q) (0 + 8 + 4 * numIdxOf vs lb Q + lowBytesOf vs lb + k) =
        byteFromBits (highBitF vs lb vs.length) (8 * k) := by
    intro k hk
    rw [show (0:Nat) + 8 + 4 * numIdxOf vs lb Q + lowBytesOf vs lb + k =
        8 + (4 * numIdxOf vs lb Q + (lowBytesOf vs lb + k)) from by omega]
    rw [encodeMono_byteAt_tail]
    rw [byteAt_append_skip _ _ (4 * numIdxOf vs lb Q) _ (flatten_u32_length _ _)]
    rw [byteAt_append_skip _ _ (lowBytesOf vs lb) k (by simp)]
    unfold byteAt
    rw [getD_map_range _ hk]
    exact Nat.mod_eq_of_lt (byteFromBits_lt (fun j => highBitF_le vs lb vs.length j) _)
  exact ⟨hnpos, hQ, hlb, hmono, hvlt, hn32, hbits, hhigh32, by omega, hndef, hlbdef,
    hhbdef, hidxdef, hlowdef, hhighdef, by omega⟩
/-- C1 counterexample: for the non-decreasing list `[0,0,0,0,2]` encoded with
`lb = 1` and quantum `Q = 4` (a power of two with `Q ≤ n`), `lookupMonotonic`
does not return `v_4 = 2`: the expression
`(nHbit & ~0x07) - nQ*nQuantumSize` underflows in 32-bit arithmetic because
the quantum index entry is not a multiple of 8 while `nQ*nQuantumSize = 4`. -/
theorem lookupMonotonic_roundtrip_cex :
    lookupMonotonic (encodeMono [0, 0, 0, 0, 2] 1 4) 0 4 4 ≠
      some (([0, 0, 0, 0, 2] : List Nat).getD 4 0) := by
  decide

/-- C1 (amended): for every non-decreasing list of u64 values encoded by the
section-3 monotonic-list writer `encodeMono` with parameters `lb < 32` and
quantum `Q`, and every index `i < n`, `lookupMonotonic` returns exactly `v_i`
(including the `hb = 0` case where the element is purely the low part),
provided additionally that `8 ∣ Q` or `n ≤ Q`, which rules out the u32
underflow of `(nHbit & ~0x07) - nQ*nQuantumSize` in the quantum branch.
The unamended claim (arbitrary power-of-two `Q ≤ n`) is refuted by
`lookupMonotonic_roundtrip_cex`. -/
theorem lookupMonotonic_roundtrip (vs : List Nat) (lb Q i : Nat)
    (hnpos : 0 < vs.length) (hQ : 0 < Q) (hlb : lb < 32)
    (hmono : ∀ a b, a ≤ b → b < vs.length → vs.getD a 0 ≤ vs.getD b 0)
    (hvlt : ∀ a, a < vs.length → vs.getD a 0 < 18446744073709551616)
    (hn32 : vs.length < 4294967296)
    (hbits : vs.length * lb + 7 < 4294967296)
    (hhigh32 : highLenOf vs lb < 4294967296)
    (hlen32 : 8 + 4 * numIdxOf vs lb Q + lowBytesOf vs lb + highBytesOf vs lb < 4294967296)
    (hcond : 8 ∣ Q ∨ vs.length ≤ Q)
    (hi : i < vs.length) :
    lookupMonotonic (encodeMono vs lb Q) 0 Q i = some (vs.getD i 0) :=
  lookupMonotonic_ok
    (encodeMono_monoEnc vs lb Q hnpos hQ hlb hmono hvlt hn32 hbits hhigh32 hlen32) hcond hi

/-- Witness for C1: the amended theorem applied to `[0,0,0,0,2]`, `lb = 1`,
`Q = 8` (so `8 ∣ Q`), `i = 4`. -/
theorem lookupMonotonic_roundtrip_witness :
    lookupMonotonic (encodeMono [0, 0, 0, 0, 2] 1 8) 0 8 4 =
      some (([0, 0, 0, 0, 2] : List Nat).getD 4 0) :=
  lookupMonotonic_roundtrip [0, 0, 0, 0, 2] 1 8 4 (by decide) (by decide) (by decide)
    (by
      intro a b hab hb
      have hb5 : b < 5 := by simpa using hb
      interval_cases b <;> interval_cases a <;> decide)
    (by
      intro a ha
      have ha5 : a < 5 := by simpa using ha
      interval_cases a <;> decide)
    (by decide) (by decide) (by decide) (by decide) (by decide) (by decide)
theorem lowAccumLoop_eval {m : Buf} {vs : List Nat} {base lb Q i : Nat}
    (henc : MonoEnc m base vs lb Q) (hi : i < vs.length) (hlb : 1 ≤ lb) :
    lowAccumLoop m (lb + i * lb % 8 + 8)
        (base + 8 + 4 * numIdxOf vs lb Q + i * lb / 8) (lb + i * lb % 8) 0 0 =
      (bitsVal (fun j => lowBitF vs lb (8 * (i * lb / 8) + j)) 0
         (8 * ((lb + i * lb % 8 + 7) / 8)),
       base + 8 + 4 * numIdxOf vs lb Q + i * lb / 8 + ((lb + i * lb % 8 + 7) / 8 - 1),
       8 * ((lb + i * lb % 8 + 7) / 8)) := by
  have hbits := henc.bits_lt
  have hilb : i * lb < vs.length * lb := (Nat.mul_lt_mul_right hlb).mpr hi
  have hlb32 := henc.lb_lt
  have hnEnd1 : 1 ≤ lb + i * lb % 8 := by omega
  have hnEnd2 : lb + i * lb % 8 ≤ 56 := by omega
  have hlow8 : vs.length * lb ≤ 8 * lowBytesOf vs lb := by
    unfold lowBytesOf
    omega
  have hi1 : (i + 1) * lb ≤ vs.length * lb := Nat.mul_le_mul_right lb (by omega)
  have hG : ∀ j, (fun j => lowBitF vs lb (8 * (i * lb / 8) + j)) j ≤ 1 :=
    fun j => lowBitF_le vs lb _
  have hbyte : ∀ k, 8 * k < lb + i * lb % 8 →
      byteAt m (base + 8 + 4 * numIdxOf vs lb Q + i * lb / 8 + k) =
        byteFromBits (fun j => lowBitF vs lb (8 * (i * lb / 8) + j)) (8 * k) := by
    intro k hk
    have hkB : i * lb / 8 + k < lowBytesOf vs lb := by
      have h1 : (i + 1) * lb = i * lb + lb := by ring
      omega
    have h2 := henc.low_def (i * lb / 8 + k) hkB
    rw [show base + 8 + 4 * numIdxOf vs lb Q + i * lb / 8 + k =
        base + 8 + 4 * numIdxOf vs lb Q + (i * lb / 8 + k) from by omega]
    rw [h2]
    unfold byteFromBits
    apply bitsVal_congr
    intro j hj
    dsimp only
    rw [show 8 * (i * lb / 8 + k) + j = 8 * (i * lb / 8) + (8 * k + j) from by ring]
  have hacc := lowAccumLoop_ok hG (base + 8 + 4 * numIdxOf vs lb Q + i * lb / 8)
    (lb + i * lb % 8) hnEnd1 hnEnd2 hbyte (lb + i * lb % 8 + 8) 0 (by omega) (by omega)
  simp only [Nat.add_zero, Nat.mul_zero, bitsVal] at hacc
  exact hacc

theorem lowAccum2Loop_ok {m : Buf} {G : Nat → Nat} (hG : ∀ j, G j ≤ 1) (P0 e lbv : Nat)
    (he : 1 ≤ e) (hlbv : lbv ≤ 32) (he56 : e ≤ 56)
    (hbyte : ∀ k, 8 * k < e + lbv → byteAt m (P0 + k) = byteFromBits G (8 * k)) :
    ∀ fuel w, 1 ≤ w → e ≤ 8 * w → 8 * w < e + lbv + 8 → e + lbv ≤ 8 * w + 8 * fuel →
    lowAccum2Loop m lbv fuel (P0 + (w - 1)) (bitsVal G e (8 * w - e)) (8 * w - e) =
      bitsVal G e (8 * ((e + lbv + 7) / 8) - e) := by
  intro fuel
  induction fuel with
  | zero =>
    intro w h1 h2 h3 h4
    unfold lowAccum2Loop
    rw [show (e + lbv + 7) / 8 = w from by omega]
  | succ fuel ih =>
    intro w h1 h2 h3 h4
    unfold lowAccum2Loop
    rcases Nat.lt_or_ge (8 * w - e) lbv with hlt | hge
    · rw [if_pos hlt]
      rw [show P0 + (w - 1) + 1 = P0 + w from by omega]
      rw [hbyte w (by omega)]
      have hstep : u64 (bitsVal G e (8 * w - e) |||
          u64 (byteFromBits G (8 * w) <<< (8 * w - e))) =
          bitsVal G e (8 * (w + 1) - e) := by
        have hbl := byteFromBits_lt hG (8 * w)
        have hsh : byteFromBits G (8 * w) <<< (8 * w - e) < 18446744073709551616 := by
          rw [Nat.shiftLeft_eq]
          calc byteFromBits G (8 * w) * 2 ^ (8 * w - e) < 256 * 2 ^ (8 * w - e) :=
                (Nat.mul_lt_mul_right (Nat.two_pow_pos _)).mpr hbl
            _ = 2 ^ (8 * w - e + 8) := by rw [pow_add]; ring
            _ ≤ 2 ^ 48 := Nat.pow_le_pow_right (by omega) (by omega)
            _ < 18446744073709551616 := by norm_num
        rw [u64_id hsh]
        have hlor : bitsVal G e (8 * w - e) ||| byteFromBits G (8 * w) <<< (8 * w - e) =
            byteFromBits G (8 * w) * 2 ^ (8 * w - e) + bitsVal G e (8 * w - e) := by
          rw [Nat.lor_comm]
          exact shl_lor_add (bitsVal_lt hG e (8 * w - e))
        rw [hlor]
        have hsum : byteFromBits G (8 * w) * 2 ^ (8 * w - e) + bitsVal G e (8 * w - e) =
            bitsVal G e (8 * (w + 1) - e) := by
          have hsplit := bitsVal_split G e (8 * w - e) (8 * (w + 1) - e) (by omega)
          rw [hsplit]
          rw [show e + (8 * w - e) = 8 * w from by omega]
          rw [show 8 * (w + 1) - e - (8 * w - e) = 8 from by omega]
          unfold byteFromBits
          ring
        rw [hsum]
        apply u64_id
        calc bitsVal G e (8 * (w + 1) - e) < 2 ^ (8 * (w + 1) - e) := bitsVal_lt hG e _
          _ ≤ 2 ^ 48 := Nat.pow_le_pow_right (by omega) (by omega)
          _ < 18446744073709551616 := by norm_num
      rw [hstep]
      rw [show 8 * w - e + 8 = 8 * (w + 1) - e from by omega]
      rw [show P0 + w = P0 + (w + 1 - 1) from by omega]
      exact ih (w + 1) (by omega) (by omega) (by omega) (by omega)
    · rw [if_neg (by omega)]
      rw [show (e + lbv + 7) / 8 = w from by omega]

theorem lowPart2_ok {m : Buf} {vs : List Nat} {base lb Q i : Nat}
    (henc : MonoEnc m base vs lb Q) (hi1 : i + 1 < vs.length) :
    lowAccum2Loop m lb (lb + 8)
        ((lowAccumLoop m (lb + (u32 (i * lb) &&& 7) + 8)
          (base + 8 + 4 * numIdxOf vs lb Q + (u32 (i * lb) >>> 3))
          (lb + (u32 (i * lb) &&& 7)) 0 0).2.1)
        ((lowAccumLoop m (lb + (u32 (i * lb) &&& 7) + 8)
          (base + 8 + 4 * numIdxOf vs lb Q + (u32 (i * lb) >>> 3))
          (lb + (u32 (i * lb) &&& 7)) 0 0).1 >>> (u32 (i * lb) &&& 7) >>> lb)
        ((lowAccumLoop m (lb + (u32 (i * lb) &&& 7) + 8)
          (base + 8 + 4 * numIdxOf vs lb Q + (u32 (i * lb) >>> 3))
          (lb + (u32 (i * lb) &&& 7)) 0 0).2.2 - ((u32 (i * lb) &&& 7) + lb)) &&&
      sub32 (u32 (1 <<< lb)) 1 = vs.getD (i + 1) 0 % 2 ^ lb := by
  rcases Nat.eq_zero_or_pos lb with hlb0 | hlb
  · subst hlb0
    have hm0 : sub32 (u32 (1 <<< 0)) 1 = 0 := by decide
    rw [hm0, Nat.and_zero, pow_zero, Nat.mod_one]
  · have hbits := henc.bits_lt
    have hilb : i * lb < vs.length * lb := (Nat.mul_lt_mul_right hlb).mpr (by omega)
    have hu : u32 (i * lb) = i * lb := u32_id (by omega)
    rw [hu]
    have hs7 : i * lb &&& 7 = i * lb % 8 := by
      rw [and_mask (i * lb) 7 3 (by norm_num)]
      norm_num
    have hsh : (i * lb) >>> 3 = i * lb / 8 := by
      rw [Nat.shiftRight_eq_div_pow]
    rw [hs7, hsh]
    rw [lowAccumLoop_eval henc (by omega) hlb]
    dsimp only
    have hlb32 := henc.lb_lt
    have hG : ∀ j, (fun j => lowBitF vs lb (8 * (i * lb / 8) + j)) j ≤ 1 :=
      fun j => lowBitF_le vs lb _
    have hlow8 : vs.length * lb ≤ 8 * lowBytesOf vs lb := by
      unfold lowBytesOf
      omega
    have hi2 : (i + 2) * lb ≤ vs.length * lb := Nat.mul_le_mul_right lb (by omega)
    have hmul2 : (i + 2) * lb = i * lb + lb + lb := by ring
    have hbyte : ∀ k, 8 * k < (lb + i * lb % 8) + lb →
        byteAt m (base + 8 + 4 * numIdxOf vs lb Q + i * lb / 8 + k) =
          byteFromBits (fun j => lowBitF vs lb (8 * (i * lb / 8) + j)) (8 * k) := by
      intro k hk
      have hkB : i * lb / 8 + k < lowBytesOf vs lb := by omega
      have h2 := henc.low_def (i * lb / 8 + k) hkB
      rw [show base + 8 + 4 * numIdxOf vs lb Q + i * lb / 8 + k =
          base + 8 + 4 * numIdxOf vs lb Q + (i * lb / 8 + k) from by omega]
      rw [h2]
      unfold byteFromBits
      apply bitsVal_congr
      intro j hj
      dsimp only
      rw [show 8 * (i * lb / 8 + k) + j = 8 * (i * lb / 8) + (8 * k + j) from by ring]
    have hW1 : 1 ≤ (lb + i * lb % 8 + 7) / 8 := by omega
    have hbB : bitsVal (fun j => lowBitF vs lb (8 * (i * lb / 8) + j)) 0
        (8 * ((lb + i * lb % 8 + 7) / 8)) >>> (i * lb % 8) >>> lb =
        bitsVal (fun j => lowBitF vs lb (8 * (i * lb / 8) + j)) (lb + i * lb % 8)
          (8 * ((lb + i * lb % 8 + 7) / 8) - (lb + i * lb % 8)) := by
      rw [bitsVal_shiftRight hG 0 (i * lb % 8) _ (by omega), Nat.zero_add]
      rw [bitsVal_shiftRight hG (i * lb % 8) lb _ (by omega)]
      rw [show i * lb % 8 + lb = lb + i * lb % 8 from by omega]
      rw [show 8 * ((lb + i * lb % 8 + 7) / 8) - (i * lb % 8) - lb =
          8 * ((lb + i * lb % 8 + 7) / 8) - (lb + i * lb % 8) from by omega]
    rw [hbB]
    rw [show 8 * ((lb + i * lb % 8 + 7) / 8) - (i * lb % 8 + lb) =
        8 * ((lb + i * lb % 8 + 7) / 8) - (lb + i * lb % 8) from by omega]
    have hacc2 := lowAccum2Loop_ok hG (base + 8 + 4 * numIdxOf vs lb Q + i * lb / 8)
      (lb + i * lb % 8) lb (by omega) (by omega) (by omega) hbyte (lb + 8)
      ((lb + i * lb % 8 + 7) / 8) hW1 (by omega) (by omega) (by omega)
    rw [show base + 8 + 4 * numIdxOf vs lb Q + i * lb / 8 + ((lb + i * lb % 8 + 7) / 8 - 1) =
        base + 8 + 4 * numIdxOf vs lb Q + i * lb / 8 + ((lb + i * lb % 8 + 7) / 8 - 1)
        from rfl]
    rw [hacc2]
    have hp32 : (2:Nat) ^ lb < 4294967296 := by
      calc (2:Nat) ^ lb < 2 ^ 32 := Nat.pow_lt_pow_right (by omega) hlb32
        _ = 4294967296 := by norm_num
    have hone : (1:Nat) ≤ 2 ^ lb := Nat.one_le_two_pow
    have hmask : sub32 (u32 (1 <<< lb)) 1 = 2 ^ lb - 1 := by
      rw [Nat.shiftLeft_eq, Nat.one_mul, u32_id hp32, sub32_sub hone hp32]
    rw [hmask, and_mask _ (2 ^ lb - 1) lb (by omega)]
    rw [bitsVal_mod hG _ lb _ (by omega)]
    have hfin : bitsVal (fun j => lowBitF vs lb (8 * (i * lb / 8) + j))
        (lb + i * lb % 8) lb = bitsVal (lowBitF vs lb) ((i + 1) * lb) lb := by
      apply bitsVal_congr
      intro j hj
      dsimp only
      rw [show 8 * (i * lb / 8) + (lb + i * lb % 8 + j) = (i + 1) * lb + j from by
        have h1 : (i + 1) * lb = i * lb + lb := by ring
        omega]
    rw [hfin, lowbits_val vs lb (i + 1) hlb]
theorem lookupPairMonotonic_ok {m : Buf} {vs : List Nat} {base lb Q i : Nat}
    (henc : MonoEnc m base vs lb Q) (hcond : 8 ∣ Q ∨ vs.length ≤ Q)
    (hi1 : i + 1 < vs.length) :
    lookupPairMonotonic m base Q i = some (vs.getD i 0, vs.getD (i + 1) 0) := by
  have hlow1 := lowPart_ok henc (show i < vs.length from by omega)
  have hlow2 := lowPart2_ok henc hi1
  unfold lookupPairMonotonic
  dsimp only
  rw [henc.n_def, henc.lb_def, henc.hb_def]
  have hnpos := henc.npos
  by_cases hhb : hbOf vs lb = 0
  · rw [if_neg (show ¬ hbOf vs lb ≠ 0 from by omega), if_pos hhb]
    have hidx0 : numIdxOf vs lb Q = 0 := by
      unfold numIdxOf
      rw [if_neg (by omega)]
    rw [hidx0] at hlow1 hlow2
    simp only [Nat.mul_zero, Nat.add_zero] at hlow1 hlow2 ⊢
    rw [hlow1, hlow2]
    have hv0 : hiPart vs lb (vs.length - 1) = 0 := by
      unfold hbOf at hhb
      split at hhb
      · assumption
      · next hne => exact absurd hhb (bitLenAux_ne 63 _ hne)
    have hsmall : ∀ a, a < vs.length → vs.getD a 0 < 2 ^ lb := by
      intro a ha
      have hva : hiPart vs lb a = 0 := by
        have h1 := hiPart_mono vs lb henc.mono (show a ≤ vs.length - 1 by omega) (by omega)
        omega
      have h2 : vs.getD a 0 / 2 ^ lb = 0 := by
        unfold hiPart at hva
        rwa [Nat.shiftRight_eq_div_pow] at hva
      have h3 := Nat.div_add_mod (vs.getD a 0) (2 ^ lb)
      rw [h2, Nat.mul_zero, Nat.zero_add] at h3
      have h4 := Nat.mod_lt (vs.getD a 0) (Nat.two_pow_pos lb)
      omega
    rw [Nat.mod_eq_of_lt (hsmall i (by omega)), Nat.mod_eq_of_lt (hsmall (i + 1) (by omega))]
  · rw [if_pos hhb, if_neg hhb]
    have hidxv : numIdxOf vs lb Q = (vs.length - 1) / Q := by
      unfold numIdxOf
      rw [if_pos hhb]
    have hlenok := henc.len_ok
    have hml := henc.len_lt
    have hpb : u32 (sub32 vs.length 1 / Q * 4) = 4 * numIdxOf vs lb Q := by
      rw [sub32_sub hnpos henc.n_lt]
      rw [hidxv] at hlenok ⊢
      rw [show (vs.length - 1) / Q * 4 = 4 * ((vs.length - 1) / Q) from Nat.mul_comm _ _]
      exact u32_id (by omega)
    rw [hpb, hlow1, hlow2]
    have hilt : i < vs.length := by omega
    obtain ⟨k0, t0, hst, ht0, hk0pos, hinv0⟩ := highInit_ok henc hcond hilt hhb
    rw [hst]
    dsimp only
    have hg : ∀ j, highBitF vs lb vs.length j ≤ 1 := highBitF_le vs lb vs.length
    have hHB64 : 8 * highBytesOf vs lb < 18446744073709551616 := by omega
    have hhlform := highLen_pos_form vs lb hhb hnpos
    have hhl8 : highLenOf vs lb ≤ 8 * highBytesOf vs lb := by
      unfold highBytesOf
      omega
    have hposlt : onePos vs lb i < 8 * highBytesOf vs lb := by
      have h1 : onePos vs lb i ≤ onePos vs lb (vs.length - 1) :=
        onePos_mono vs lb henc.mono (by omega) (by omega)
      omega
    have hposlt1 : onePos vs lb (i + 1) < 8 * highBytesOf vs lb := by
      have h1 : onePos vs lb (i + 1) ≤ onePos vs lb (vs.length - 1) :=
        onePos_mono vs lb henc.mono (by omega) (by omega)
      omega
    have hbit : highBitF vs lb vs.length (onePos vs lb i) = 1 :=
      highBitF_onePos vs lb (by omega)
    have hbit1 : highBitF vs lb vs.length (onePos vs lb (i + 1)) = 1 :=
      highBitF_onePos vs lb hi1
    have hfuel : highBytesOf vs lb - k0 < m.length + 2 := by omega
    obtain ⟨k2, t2, hrun1, ht2, hk2pos, hposk2, hinv2, hbrk1⟩ :=
      highScanP_ok hg henc.high_def hHB64 hposlt hbit (m.length + 2) k0 t0 ht0 hk0pos
        hinv0 hfuel
    rw [hrun1]
    dsimp only
    have hS2le := sumRange_le (highBitF vs lb vs.length) hk2pos
    have hstrict : onePos vs lb i < onePos vs lb (i + 1) :=
      onePos_strict vs lb henc.mono (by omega) hi1
    rw [show sumRange (highBitF vs lb vs.length) (onePos vs lb i) -
        sumRange (highBitF vs lb vs.length) (8 * k2 + t2) + 1 =
        sumRange (highBitF vs lb vs.length) (onePos vs lb (i + 1)) -
          sumRange (highBitF vs lb vs.length) (8 * k2 + t2) from by
      have hSi := ones_upto_onePos vs lb henc.mono i (by omega)
      have hSi1 := ones_upto_onePos vs lb henc.mono (i + 1) hi1
      omega]
    have hfuel2 : highBytesOf vs lb - k2 < m.length + 2 := by omega
    obtain ⟨k3, t3, hrun2, ht3, hk3pos, hposk3, hinv3, hbrk2⟩ :=
      highScanP_ok hg henc.high_def hHB64 hposlt1 hbit1 (m.length + 2) k2 t2 ht2
        (by omega) hinv2 hfuel2
    rw [hrun2]
    dsimp only
    have hk2HB : k2 < highBytesOf vs lb := by omega
    have hk3HB : k3 < highBytesOf vs lb := by omega
    rw [henc.high_def k2 hk2HB, henc.high_def k3 hk3HB]
    have hj8a : onePos vs lb i - 8 * k2 < 8 := by omega
    have hj8b : onePos vs lb (i + 1) - 8 * k3 < 8 := by omega
    have hbitja : ((byteFromBits (highBitF vs lb vs.length) (8 * k2) &&& (256 - 2 ^ t2)) >>>
        (onePos vs lb i - 8 * k2)) % 2 = 1 := by
      rw [masked_bit hg (8 * k2) t2 (onePos vs lb i - 8 * k2) (by omega) hj8a]
      rw [if_pos (by omega)]
      rw [show 8 * k2 + (onePos vs lb i - 8 * k2) = onePos vs lb i from by omega]
      exact hbit
    have hbitjb : ((byteFromBits (highBitF vs lb vs.length) (8 * k3) &&& (256 - 2 ^ t3)) >>>
        (onePos vs lb (i + 1) - 8 * k3)) % 2 = 1 := by
      rw [masked_bit hg (8 * k3) t3 (onePos vs lb (i + 1) - 8 * k3) (by omega) hj8b]
      rw [if_pos (by omega)]
      rw [show 8 * k3 + (onePos vs lb (i + 1) - 8 * k3) = onePos vs lb (i + 1) from by omega]
      exact hbit1
    have hS3le := sumRange_le (highBitF vs lb vs.length) hk3pos
    have hwina := bcnt_window_le hg (8 * k2 + t2) (onePos vs lb i - (8 * k2 + t2))
    rw [show 8 * k2 + t2 + (onePos vs lb i - (8 * k2 + t2)) = onePos vs lb i from by omega]
      at hwina
    have hwinb := bcnt_window_le hg (8 * k3 + t3) (onePos vs lb (i + 1) - (8 * k3 + t3))
    rw [show 8 * k3 + t3 + (onePos vs lb (i + 1) - (8 * k3 + t3)) = onePos vs lb (i + 1)
        from by omega] at hwinb
    have honesa : onesBelow
        (byteFromBits (highBitF vs lb vs.length) (8 * k2) &&& (256 - 2 ^ t2))
        (onePos vs lb i - 8 * k2) =
        sumRange (highBitF vs lb vs.length) (onePos vs lb i) -
          sumRange (highBitF vs lb vs.length) (8 * k2 + t2) := by
      rw [onesBelow_masked hg (8 * k2) t2 (onePos vs lb i - 8 * k2) (by omega) (by omega)
        (by omega)]
      rw [sumRange_shift_sub (g := highBitF vs lb vs.length) (8 * k2)
        (onePos vs lb i - 8 * k2)]
      rw [sumRange_shift_sub (g := highBitF vs lb vs.length) (8 * k2) t2]
      rw [show 8 * k2 + (onePos vs lb i - 8 * k2) = onePos vs lb i from by omega]
      have h5 := sumRange_le (highBitF vs lb vs.length)
        (show 8 * k2 ≤ 8 * k2 + t2 from by omega)
      omega
    have honesb : onesBelow
        (byteFromBits (highBitF vs lb vs.length) (8 * k3) &&& (256 - 2 ^ t3))
        (onePos vs lb (i + 1) - 8 * k3) =
        sumRange (highBitF vs lb vs.length) (onePos vs lb (i + 1)) -
          sumRange (highBitF vs lb vs.length) (8 * k3 + t3) := by
      rw [onesBelow_masked hg (8 * k3) t3 (onePos vs lb (i + 1) - 8 * k3) (by omega)
        (by omega) (by omega)]
      rw [sumRange_shift_sub (g := highBitF vs lb vs.length) (8 * k3)
        (onePos vs lb (i + 1) - 8 * k3)]
      rw [sumRange_shift_sub (g := highBitF vs lb vs.length) (8 * k3) t3]
      rw [show 8 * k3 + (onePos vs lb (i + 1) - 8 * k3) = onePos vs lb (i + 1) from by omega]
      have h5 := sumRange_le (highBitF vs lb vs.length)
        (show 8 * k3 ≤ 8 * k3 + t3 from by omega)
      omega
    have hwalka := bitWalk_ok 8
      (byteFromBits (highBitF vs lb vs.length) (8 * k2) &&& (256 - 2 ^ t2))
      (sumRange (highBitF vs lb vs.length) (onePos vs lb i) -
        sumRange (highBitF vs lb vs.length) (8 * k2 + t2))
      (8 * k2 - sumRange (highBitF vs lb vs.length) (8 * k2 + t2))
      (onePos vs lb i - 8 * k2) hj8a hbitja honesa (by omega)
    have hwalkb := bitWalk_ok 8
      (byteFromBits (highBitF vs lb vs.length) (8 * k3) &&& (256 - 2 ^ t3))
      (sumRange (highBitF vs lb vs.length) (onePos vs lb (i + 1)) -
        sumRange (highBitF vs lb vs.length) (8 * k3 + t3))
      (8 * k3 - sumRange (highBitF vs lb vs.length) (8 * k3 + t3))
      (onePos vs lb (i + 1) - 8 * k3) hj8b hbitjb honesb (by omega)
    rw [hwalka, hwalkb]
    dsimp only
    have hSi := ones_upto_onePos vs lb henc.mono i (by omega)
    have hSi1 := ones_upto_onePos vs lb henc.mono (i + 1) hi1
    have hposdefa : onePos vs lb i = hiPart vs lb i + i := rfl
    have hposdefb : onePos vs lb (i + 1) = hiPart vs lb (i + 1) + (i + 1) := rfl
    have hvra : hiPart vs lb i ≤ vs.getD i 0 := by
      unfold hiPart
      rw [Nat.shiftRight_eq_div_pow]
      exact Nat.div_le_self _ _
    have hvrb : hiPart vs lb (i + 1) ≤ vs.getD (i + 1) 0 := by
      unfold hiPart
      rw [Nat.shiftRight_eq_div_pow]
      exact Nat.div_le_self _ _
    have hv64a := henc.vlt i (by omega)
    have hv64b := henc.vlt (i + 1) hi1
    have hvala : u64 (8 * k2 - sumRange (highBitF vs lb vs.length) (8 * k2 + t2) +
        (onePos vs lb i - 8 * k2 -
          (sumRange (highBitF vs lb vs.length) (onePos vs lb i) -
            sumRange (highBitF vs lb vs.length) (8 * k2 + t2)))) = hiPart vs lb i := by
      rw [show 8 * k2 - sumRange (highBitF vs lb vs.length) (8 * k2 + t2) +
          (onePos vs lb i - 8 * k2 -
            (sumRange (highBitF vs lb vs.length) (onePos vs lb i) -
              sumRange (highBitF vs lb vs.length) (8 * k2 + t2))) = hiPart vs lb i from by
        omega]
      exact u64_id (by omega)
    have hvalb : u64 (8 * k3 - sumRange (highBitF vs lb vs.length) (8 * k3 + t3) +
        (onePos vs lb (i + 1) - 8 * k3 -
          (sumRange (highBitF vs lb vs.length) (onePos vs lb (i + 1)) -
            sumRange (highBitF vs lb vs.length) (8 * k3 + t3)))) = hiPart vs lb (i + 1) := by
      rw [show 8 * k3 - sumRange (highBitF vs lb vs.length) (8 * k3 + t3) +
          (onePos vs lb (i + 1) - 8 * k3 -
            (sumRange (highBitF vs lb vs.length) (onePos vs lb (i + 1)) -
              sumRange (highBitF vs lb vs.length) (8 * k3 + t3))) = hiPart vs lb (i + 1)
          from by omega]
      exact u64_id (by omega)
    rw [hvala, hvalb]
    have hsla : u64 (hiPart vs lb i <<< lb) = hiPart vs lb i <<< lb := by
      apply u64_id
      rw [Nat.shiftLeft_eq]
      have h1 : hiPart vs lb i * 2 ^ lb ≤ vs.getD i 0 := by
        unfold hiPart
        rw [Nat.shiftRight_eq_div_pow]
        exact Nat.div_mul_le_self _ _
      omega
    have hslb : u64 (hiPart vs lb (i + 1) <<< lb) = hiPart vs lb (i + 1) <<< lb := by
      apply u64_id
      rw [Nat.shiftLeft_eq]
      have h1 : hiPart vs lb (i + 1) * 2 ^ lb ≤ vs.getD (i + 1) 0 := by
        unfold hiPart
        rw [Nat.shiftRight_eq_div_pow]
        exact Nat.div_mul_le_self _ _
      omega
    rw [hsla, hslb]
    have hlora : hiPart vs lb i <<< lb ||| vs.getD i 0 % 2 ^ lb = vs.getD i 0 := by
      rw [shl_lor_add (Nat.mod_lt _ (Nat.two_pow_pos lb))]
      unfold hiPart
      rw [Nat.shiftRight_eq_div_pow]
      exact Nat.div_add_mod' _ _
    have hlorb : hiPart vs lb (i + 1) <<< lb ||| vs.getD (i + 1) 0 % 2 ^ lb =
        vs.getD (i + 1) 0 := by
      rw [shl_lor_add (Nat.mod_lt _ (Nat.two_pow_pos lb))]
      unfold hiPart
      rw [Nat.shiftRight_eq_div_pow]
      exact Nat.div_add_mod' _ _
    rw [hlora, hlorb]
/-- C4 counterexample: for `[0,0,0,0,2]` encoded with `lb = 1`, `Q = 4`, the
second component of the pair returned by `lookupPairMonotonic` at `i = 3`
differs from the independent `lookupMonotonic` call at `i + 1 = 4`: the pair
path walks on from the 4th 1-bit and returns the correct value 2, while the
single lookup takes the quantum-index branch and underflows. -/
theorem lookupPairMonotonic_pair_cex :
    (lookupPairMonotonic (encodeMono [0, 0, 0, 0, 2] 1 4) 0 4 3).map Prod.snd ≠
      lookupMonotonic (encodeMono [0, 0, 0, 0, 2] 1 4) 0 4 4 := by
  decide

/-- C4 (amended): on a canonical monotonic encoding, for `i + 1 < n`, the pair
returned by `lookupPairMonotonic` equals the pair of values returned by the
two independent `lookupMonotonic` calls at `i` and `i + 1`, provided
additionally that `8 ∣ Q` or `n ≤ Q` (ruling out the u32 underflow of the
quantum branch, under which the two sides can disagree:
see `lookupPairMonotonic_pair_cex`). -/
theorem lookupPairMonotonic_pair (vs : List Nat) (lb Q i : Nat)
    (hnpos : 0 < vs.length) (hQ : 0 < Q) (hlb : lb < 32)
    (hmono : ∀ a b, a ≤ b → b < vs.length → vs.getD a 0 ≤ vs.getD b 0)
    (hvlt : ∀ a, a < vs.length → vs.getD a 0 < 18446744073709551616)
    (hn32 : vs.length < 4294967296)
    (hbits : vs.length * lb + 7 < 4294967296)
    (hhigh32 : highLenOf vs lb < 4294967296)
    (hlen32 : 8 + 4 * numIdxOf vs lb Q + lowBytesOf vs lb + highBytesOf vs lb < 4294967296)
    (hcond : 8 ∣ Q ∨ vs.length ≤ Q)
    (hi1 : i + 1 < vs.length) :
    lookupMonotonic (encodeMono vs lb Q) 0 Q i = some (vs.getD i 0) ∧
    lookupMonotonic (encodeMono vs lb Q) 0 Q (i + 1) = some (vs.getD (i + 1) 0) ∧
    lookupPairMonotonic (encodeMono vs lb Q) 0 Q i =
      some (vs.getD i 0, vs.getD (i + 1) 0) := by
  have henc := encodeMono_monoEnc vs lb Q hnpos hQ hlb hmono hvlt hn32 hbits hhigh32 hlen32
  exact ⟨lookupMonotonic_ok henc hcond (by omega), lookupMonotonic_ok henc hcond hi1,
    lookupPairMonotonic_ok henc hcond hi1⟩

/-- Witness for C4: the amended theorem at `[0,0,0,0,2]`, `lb = 1`, `Q = 8`,
`i = 3`. -/
theorem lookupPairMonotonic_pair_witness :
    lookupMonotonic (encodeMono [0, 0, 0, 0, 2] 1 8) 0 8 3 =
      some (([0, 0, 0, 0, 2] : List Nat).getD 3 0) ∧
    lookupMonotonic (encodeMono [0, 0, 0, 0, 2] 1 8) 0 8 4 =
      some (([0, 0, 0, 0, 2] : List Nat).getD 4 0) ∧
    lookupPairMonotonic (encodeMono [0, 0, 0, 0, 2] 1 8) 0 8 3 =
      some (([0, 0, 0, 0, 2] : List Nat).getD 3 0, ([0, 0, 0, 0, 2] : List Nat).getD 4 0) :=
  lookupPairMonotonic_pair [0, 0, 0, 0, 2] 1 8 3 (by decide) (by decide) (by decide)
    (by
      intro a b hab hb
      have hb5 : b < 5 := by simpa using hb
      interval_cases b <;> interval_cases a <;> decide)
    (by
      intro a ha
      have ha5 : a < 5 := by simpa using ha
      interval_cases a <;> decide)
    (by decide) (by decide) (by decide) (by decide) (by decide) (by decide)

/-- C5 counterexample: on the partitioned encoding of `[0,0,0,0,2]` with inner
quantum `Qi = 4`, at `i = 3` (same-chunk branch, `i mod Qo = 3 ∈ [0, Qo-1)`),
the second component of `lookupPairPartition` differs from the independent
`lookupPartition` call at `i + 1 = 4`, which hits the u32 underflow of the
inner monotonic lookup's quantum branch. -/
theorem lookupPairPartition_pair_cex :
    (lookupPairPartition (encodePart [0, 0, 0, 0, 2] 1 1 8 4) 0 8 4 3).map Prod.snd ≠
      lookupPartition (encodePart [0, 0, 0, 0, 2] 1 1 8 4) 0 8 4 4 := by
  decide

/-- C5 (amended): `lookupPairPartition` agrees with the two independent
`lookupPartition` calls in both branches — unconditionally in the
chunk-boundary branch `i mod Qo = Qo - 1` (where the source literally issues
the two calls), and in the same-chunk branch provided the inner chunk at the
chunk-index offset is a canonical monotonic encoding `cvs` with
`i mod Qo + 1 < |cvs|` and the no-underflow side condition `8 ∣ Qi ∨ |cvs| ≤ Qi`
(without which the two sides can disagree: see `lookupPairPartition_pair_cex`). -/
theorem lookupPairPartition_pair {m : Buf} {cvs : List Nat} {base Qo Qi i clb : Nat}
    (hQo : 0 < Qo)
    (hbranch : i % Qo = Qo - 1 ∨
      (MonoEnc m (base + readU32 m (base + 4 + 4 * (i / Qo))) cvs clb Qi ∧
       (8 ∣ Qi ∨ cvs.length ≤ Qi) ∧ i % Qo + 1 < cvs.length)) :
    lookupPairPartition m base Qo Qi i =
      match lookupPartition m base Qo Qi i, lookupPartition m base Qo Qi (i + 1) with
      | some a, some b => some (a, b)
      | _, _ => none := by
  by_cases hr : i % Qo = Qo - 1
  · unfold lookupPairPartition
    dsimp only
    rw [if_pos hr]
  · rcases hbranch with hr' | ⟨hencC, hcondC, hrlen⟩
    · exact absurd hr' hr
    · have hrQo : i % Qo < Qo := Nat.mod_lt i hQo
      have hr1 : i % Qo + 1 < Qo := by omega
      have hdm := Nat.div_add_mod i Qo
      have hi1eq : i + 1 = i % Qo + 1 + Qo * (i / Qo) := by omega
      have hdiv : (i + 1) / Qo = i / Qo := by
        rw [hi1eq, Nat.add_mul_div_left _ _ hQo, Nat.div_eq_of_lt hr1]
        omega
      have hmod : (i + 1) % Qo = i % Qo + 1 := by
        rw [hi1eq, Nat.add_mul_mod_self_left]
        exact Nat.mod_eq_of_lt hr1
      unfold lookupPairPartition lookupPartition
      dsimp only
      rw [if_neg hr, hdiv, hmod]
      have hpair := lookupPairMonotonic_ok hencC hcondC hrlen
      have hone1 := lookupMonotonic_ok hencC hcondC
        (show i % Qo < cvs.length from by omega)
      have hone2 := lookupMonotonic_ok hencC hcondC hrlen
      rw [hpair, hone1, hone2]
      cases hout : (if i / Qo ≠ 0 then
          lookupMonotonic m (base + 4 * (1 + readU32 m base)) Qi (i / Qo - 1)
        else some 0) with
      | none => rfl
      | some pre =>
        dsimp only
        rw [Nat.add_comm pre (cvs.getD (i % Qo) 0),
          Nat.add_comm pre (cvs.getD (i % Qo + 1) 0)]

/-- Witness for C5: the amended theorem in its chunk-boundary branch on the
partitioned encoding of `[0,1,2,3]` with `Qo = 2`, at `i = 1` where
`i mod Qo = Qo - 1`. -/
theorem lookupPairPartition_pair_witness :
    lookupPairPartition (encodePart [0, 1, 2, 3] 1 1 2 8) 0 2 8 1 =
      match lookupPartition (encodePart [0, 1, 2, 3] 1 1 2 8) 0 2 8 1,
            lookupPartition (encodePart [0, 1, 2, 3] 1 1 2 8) 0 2 8 2 with
      | some a, some b => some (a, b)
      | _, _ => none :=
  @lookupPairPartition_pair (encodePart [0, 1, 2, 3] 1 1 2 8) [] 0 2 8 1 0
    (by decide) (Or.inl (by decide))
theorem byteAt_out {m : Buf} {p : Nat} (h : m.length ≤ p) : byteAt m p = 0 := by
  unfold byteAt
  rw [List.getD_eq_default _ _ h]

theorem readU32_le (m : Buf) (p : Nat) : readU32 m p < 4294967296 := by
  unfold readU32
  have h0 := byteAt_lt m p
  have h1 := byteAt_lt m (p + 1)
  have h2 := byteAt_lt m (p + 2)
  have h3 := byteAt_lt m (p + 3)
  omega

theorem readU32_out {m : Buf} {p : Nat} (h : m.length ≤ p) : readU32 m p = 0 := by
  unfold readU32
  rw [byteAt_out (by omega), byteAt_out (by omega), byteAt_out (by omega),
    byteAt_out (by omega)]

theorem strlenAux_exact {m : Buf} :
    ∀ fuel n p, n < fuel →
    (∀ j, j < n → byteAt m (p + j) ≠ 0) → byteAt m (p + n) = 0 →
    strlenAux m fuel p = n := by
  intro fuel
  induction fuel with
  | zero => intro n p h; omega
  | succ fuel ih =>
    intro n p hn hne hz
    unfold strlenAux
    rcases Nat.eq_zero_or_pos n with h0 | hpos
    · subst h0
      rw [if_pos (by rwa [Nat.add_zero] at hz)]
    · have hb0 : byteAt m p ≠ 0 := by
        have := hne 0 (by omega)
        rwa [Nat.add_zero] at this
      rw [if_neg hb0]
      have hrec : strlenAux m fuel (p + 1) = n - 1 := by
        apply ih (n - 1) (p + 1) (by omega)
        · intro j hj
          have := hne (j + 1) (by omega)
          rwa [show p + (j + 1) = p + 1 + j from by omega] at this
        · rwa [show p + 1 + (n - 1) = p + n from by omega]
      rw [hrec]
      omega

theorem strlen_stored {m : Buf} {p : Nat} {label : List Nat}
    (hf : fragStored m p label) (hb : ∀ b, b ∈ label → 1 ≤ b ∧ b ≤ 255) :
    strlen m p = label.length := by
  obtain ⟨hbytes, hz⟩ := hf
  have hne : ∀ j, j < label.length → byteAt m (p + j) ≠ 0 := by
    intro j hj
    rw [hbytes j hj]
    have hmem : label.getD j 0 ∈ label := by
      rw [List.getD_eq_getElem label 0 hj]
      exact List.getElem_mem _
    have := hb _ hmem
    omega
  have hin : ∀ j, j < label.length → p + j < m.length := by
    intro j hj
    by_contra hc
    exact hne j hj (byteAt_out (by omega))
  have hlen : label.length ≤ m.length := by
    rcases Nat.eq_zero_or_pos label.length with h0 | hpos
    · omega
    · have := hin (label.length - 1) (by omega)
      omega
  exact strlenAux_exact (m.length + 1) label.length p (by omega) hne hz

theorem and_two_pow_eq (x k : Nat) : x &&& 2 ^ k = x / 2 ^ k % 2 * 2 ^ k := by
  rw [Nat.and_two_pow, Nat.testBit_to_div_mod]
  rcases Nat.mod_two_eq_zero_or_one (x / 2 ^ k) with h | h <;> simp [h]

theorem and_bit31 (x : Nat) : x &&& 2147483648 = x / 2147483648 % 2 * 2147483648 := by
  rw [show (2147483648:Nat) = 2 ^ 31 from by norm_num, and_two_pow_eq]

theorem and_bit30 (x : Nat) : x &&& 1073741824 = x / 1073741824 % 2 * 1073741824 := by
  rw [show (1073741824:Nat) = 2 ^ 30 from by norm_num, and_two_pow_eq]

theorem and_val23 (x : Nat) : x &&& 8388607 = x % 8388608 := by
  rw [and_mask x 8388607 23 (by norm_num)]
  norm_num

theorem shr23_and127 (x : Nat) : (x >>> 23) &&& 127 = x / 8388608 % 128 := by
  rw [Nat.shiftRight_eq_div_pow, and_mask _ 127 7 (by norm_num)]
  norm_num

theorem NodeAt_off_lt {m : Buf} {off : Nat} {label : List Nat} {t : TNode} {sz : Nat}
    (h : NodeAt m off label t sz) : off < m.length := by
  cases h with
  | singleLeaf off c val h1 h2 h3 hhdr =>
    by_contra hc
    rw [readU32_out (by omega)] at hhdr
    omega
  | singleBranch off c val first cs h1 h2 h3 h4 hhdr hcnt hle hfirst hch hs =>
    by_contra hc
    rw [readU32_out (by omega)] at hhdr
    omega
  | multiLeaf off val label h1 h2 h3 hhdr hf =>
    by_contra hc
    rw [readU32_out (by omega)] at hhdr
    omega
  | multiBranch off val first label cs h1 h2 h3 h4 hhdr hcnt hle hfirst hf hch hs =>
    by_contra hc
    have hz : byteAt m (off + 4) = 0 := byteAt_out (by omega)
    rw [hcnt] at hz
    have : cs.length ≠ 0 := by
      intro h0
      exact h4 (List.eq_nil_of_length_eq_zero h0)
    omega

theorem childSize_eq {m : Buf} {off : Nat} {label : List Nat} {t : TNode} {sz : Nat}
    (h : NodeAt m off label t sz) : childSize m off = sz := by
  cases h with
  | singleLeaf off c val h1 h2 h3 hhdr =>
    unfold childSize
    dsimp only
    rw [hhdr, and_bit30, and_bit31]
    rw [if_pos (by omega), if_pos (by omega)]
  | singleBranch off c val first cs h1 h2 h3 h4 hhdr hcnt hle hfirst hch hs =>
    unfold childSize
    dsimp only
    rw [hhdr, and_bit30, and_bit31]
    rw [if_neg (by omega), if_pos (by omega)]
  | multiLeaf off val label h1 h2 h3 hhdr hf =>
    unfold childSize
    dsimp only
    rw [hhdr, and_bit30, and_bit31]
    rw [if_pos (by omega), if_neg (by omega)]
    rw [show off + 4 + 0 = off + 4 from by omega]
    rw [strlen_stored hf h3]
  | multiBranch off val first label cs h1 h2 h3 h4 hhdr hcnt hle hfirst hf hch hs =>
    unfold childSize
    dsimp only
    rw [hhdr, and_bit30, and_bit31]
    rw [if_neg (by omega), if_neg (by omega)]
    rw [show off + 4 + 5 = off + 9 from by omega]
    rw [strlen_stored hf h3]
theorem childOffsetAt_succ_shift (m : Buf) (first : Nat) :
    ∀ j, childOffsetAt m first (j + 1) =
      childOffsetAt m (u32 (first + childSize m first)) j := by
  intro j
  induction j with
  | zero => rfl
  | succ j ih =>
    show u32 (childOffsetAt m first (j + 1) +
      childSize m (childOffsetAt m first (j + 1))) = _
    rw [ih]
    rfl

theorem children_offsets {m : Buf} (hml : m.length < 4294967296) :
    ∀ (cs : List (List Nat × TNode)) (first : Nat), ChildrenAt m first cs →
    ∀ j, j < cs.length →
    ∃ sz, NodeAt m (childOffsetAt m first j)
      (cs.getD j ([], TNode.node 0 [])).1 (cs.getD j ([], TNode.node 0 [])).2 sz := by
  intro cs
  induction cs with
  | nil =>
    intro first h j hj
    simp at hj
  | cons c rest ih =>
    intro first h j hj
    cases h with
    | cons _ sz label t _ hn hrest =>
      cases j with
      | zero => exact ⟨sz, hn⟩
      | succ j =>
        rw [childOffsetAt_succ_shift, childSize_eq hn]
        have hjr : j < rest.length := by
          have := hj
          simp at this
          omega
        have hlt : first + sz < m.length := by
          cases hrest with
          | nil => simp at hjr
          | cons _ sz2 l2 t2 r2 hn2 hr2 => exact NodeAt_off_lt hn2
        rw [u32_id (by omega)]
        have := ih (first + sz) hrest j hjr
        simpa using this

theorem NodeAt_body {m : Buf} {off : Nat} {label : List Nat} {val : Nat}
    {cs : List (List Nat × TNode)} {sz : Nat}
    (h : NodeAt m off label (TNode.node val cs) sz) : BodyAt m off val cs := by
  cases h with
  | singleLeaf _ c _ h1 h2 h3 hhdr =>
    refine ⟨h1, ?_, ?_, ?_, ?_, ?_, ?_⟩
    · rw [hhdr, and_val23]
      omega
    · rw [hhdr, and_bit30]
      exact ⟨fun _ => rfl, fun _ => by omega⟩
    · intro hne
      exact absurd rfl hne
    · simp
    · intro hne
      exact absurd rfl hne
    · exact List.Pairwise.nil
  | singleBranch _ c _ first _ h1 h2 h3 h4 hhdr hcnt hle hfirst hch hs =>
    refine ⟨h1, ?_, ?_, fun _ => hcnt, hle, ?_, hs⟩
    · rw [hhdr, and_val23]
      omega
    · rw [hhdr, and_bit30]
      constructor
      · intro hbit
        exact (hbit (by omega)).elim
      · intro hnil
        exact absurd hnil h4
    · intro hne
      rw [hfirst]
      exact hch
  | multiLeaf _ _ label h1 h2 h3 hhdr hf =>
    refine ⟨h1, ?_, ?_, ?_, ?_, ?_, ?_⟩
    · rw [hhdr, and_val23]
      omega
    · rw [hhdr, and_bit30]
      exact ⟨fun _ => rfl, fun _ => by omega⟩
    · intro hne
      exact absurd rfl hne
    · simp
    · intro hne
      exact absurd rfl hne
    · exact List.Pairwise.nil
  | multiBranch _ _ first label _ h1 h2 h3 h4 hhdr hcnt hle hfirst hf hch hs =>
    refine ⟨h1, ?_, ?_, fun _ => hcnt, hle, ?_, hs⟩
    · rw [hhdr, and_val23]
      omega
    · rw [hhdr, and_bit30]
      constructor
      · intro hbit
        exact (hbit (by omega)).elim
      · intro hnil
        exact absurd hnil h4
    · intro hne
      rw [hfirst]
      exact hch

theorem RootAt_body {m : Buf} {off : Nat} {val : Nat} {cs : List (List Nat × TNode)}
    (h : RootAt m off (TNode.node val cs)) : BodyAt m off val cs := by
  cases h with
  | leaf _ h1 hhdr =>
    refine ⟨h1, ?_, ?_, ?_, ?_, ?_, ?_⟩
    · rw [hhdr, and_val23]
      omega
    · rw [hhdr, and_bit30]
      exact ⟨fun _ => rfl, fun _ => by omega⟩
    · intro hne
      exact absurd rfl hne
    · simp
    · intro hne
      exact absurd rfl hne
    · exact List.Pairwise.nil
  | branch _ first _ h1 h4 hhdr hcnt hle hfirst hch hs =>
    refine ⟨h1, ?_, ?_, fun _ => hcnt, hle, ?_, hs⟩
    · rw [hhdr, and_val23]
      omega
    · rw [hhdr, and_bit30]
      constructor
      · intro hbit
        exact (hbit (by omega)).elim
      · intro hnil
        exact absurd hnil h4
    · intro hne
      rw [hfirst]
      exact hch
theorem drop_cons_getD {w : List Nat} {k : Nat} (h : k < w.length) :
    w.drop k = w.getD k 0 :: w.drop (k + 1) := by
  rw [List.getD_eq_getElem w 0 h]
  exact List.drop_eq_getElem_cons h

theorem isPrefixOf_length_le : ∀ (l1 l2 : List Nat),
    l1.isPrefixOf l2 = true → l1.length ≤ l2.length := by
  intro l1
  induction l1 with
  | nil => intro l2 h; simp
  | cons a as ih =>
    intro l2 h
    cases l2 with
    | nil => simp [List.isPrefixOf] at h
    | cons b bs =>
      simp only [List.isPrefixOf, Bool.and_eq_true] at h
      have := ih bs h.2
      simp only [List.length_cons]
      omega

theorem fragCmpPrefix {m : Buf} {w : List Nat} :
    ∀ (lab : List Nat) (fuel fp fi matched : Nat),
    (∀ j, j < lab.length → byteAt m (fp + j) = lab.getD j 0) →
    byteAt m (fp + lab.length) = 0 →
    (∀ b, b ∈ lab → 1 ≤ b ∧ b ≤ 255) →
    lab.length < fuel →
    lab.isPrefixOf (w.drop (fi + matched)) = true →
    fragCmpLoop m w fuel fp fi matched = Int.ofNat (matched + lab.length) := by
  intro lab
  induction lab with
  | nil =>
    intro fuel fp fi matched hst hz hb hf hpre
    cases fuel with
    | zero => omega
    | succ fuel =>
      unfold fragCmpLoop
      have h0 : byteAt m fp = 0 := by simpa using hz
      rw [if_neg (by simp [h0]), if_pos h0]
      simp
  | cons b lab ih =>
    intro fuel fp fi matched hst hz hb hf hpre
    cases fuel with
    | zero => omega
    | succ fuel =>
      have hblt : 1 ≤ b ∧ b ≤ 255 := hb b (by simp)
      have hb0 : byteAt m fp = b := by
        have := hst 0 (by simp)
        simpa using this
      have hlt : fi + matched < w.length := by
        by_contra hc
        rw [List.drop_eq_nil_of_le (by omega)] at hpre
        simp [List.isPrefixOf] at hpre
      rw [drop_cons_getD hlt] at hpre
      simp only [List.isPrefixOf, Bool.and_eq_true, beq_iff_eq] at hpre
      obtain ⟨hpre1, hpre2⟩ := hpre
      unfold fragCmpLoop
      rw [if_pos ⟨by omega, hlt, by omega⟩]
      have hrec := ih fuel (fp + 1) fi (matched + 1)
        (fun j hj => by
          have := hst (j + 1) (by simp; omega)
          rw [show fp + (j + 1) = fp + 1 + j from by omega] at this
          simpa using this)
        (by
          have := hz
          rw [show fp + (b :: lab).length = fp + 1 + lab.length from by simp; omega] at this
          exact this)
        (fun x hx => hb x (by simp [hx]))
        (by simp at hf ⊢; omega)
        (by rw [show fi + (matched + 1) = fi + matched + 1 from by omega]; exact hpre2)
      rw [hrec]
      simp only [List.length_cons]
      rw [show matched + 1 + lab.length = matched + (lab.length + 1) from by omega]

theorem fragCmp_le {m : Buf} {w : List Nat} :
    ∀ (fuel : Nat) (lab : List Nat) (fp fi matched : Nat),
    (∀ j, j < lab.length → byteAt m (fp + j) = lab.getD j 0) →
    (∀ b, b ∈ lab → 1 ≤ b ∧ b ≤ 255) →
    w.length - (fi + matched) < fuel →
    lab.isPrefixOf (w.drop (fi + matched)) = false →
    fragCmpLoop m w fuel fp fi matched ≤ 0 := by
  intro fuel
  induction fuel with
  | zero => intro lab fp fi matched h1 h2 h3; omega
  | succ fuel ih =>
    intro lab fp fi matched hst hb hf hpre
    cases lab with
    | nil => simp [List.isPrefixOf] at hpre
    | cons b lab =>
      have hblt : 1 ≤ b ∧ b ≤ 255 := hb b (by simp)
      have hb0 : byteAt m fp = b := by
        have := hst 0 (by simp)
        simpa using this
      unfold fragCmpLoop
      by_cases hc : byteAt m fp ≠ 0 ∧ fi + matched < w.length ∧
          byteAt m fp = w.getD (fi + matched) 0
      · rw [if_pos hc]
        obtain ⟨hc1, hc2, hc3⟩ := hc
        rw [drop_cons_getD hc2] at hpre
        simp only [List.isPrefixOf] at hpre
        have hpre2 : lab.isPrefixOf (w.drop (fi + matched + 1)) = false := by
          rcases Bool.eq_false_or_eq_true (lab.isPrefixOf (w.drop (fi + matched + 1)))
            with h | h
          swap
          · exact h
          · rw [h] at hpre
            have hbe : (b == w.getD (fi + matched) 0) = true := by
              rw [beq_iff_eq]
              omega
            rw [hbe] at hpre
            simp at hpre
        apply ih lab (fp + 1) fi (matched + 1)
        · intro j hj
          have := hst (j + 1) (by simp; omega)
          rw [show fp + (j + 1) = fp + 1 + j from by omega] at this
          simpa using this
        · exact fun x hx => hb x (by simp [hx])
        · omega
        · rw [show fi + (matched + 1) = fi + matched + 1 from by omega]
          exact hpre2
      · rw [if_neg hc]
        rw [if_neg (by omega)]
        split
        · decide
        · split
          · decide
          · decide

theorem fragCmp_keylt {m : Buf} {w : List Nat} {lab : List Nat} {fuel fp fi : Nat}
    (hst : ∀ j, j < lab.length → byteAt m (fp + j) = lab.getD j 0)
    (hb : ∀ b, b ∈ lab → 1 ≤ b ∧ b ≤ 255)
    (hlab : lab ≠ []) (hfi : fi < w.length)
    (hkey : lab.headD 0 < w.getD fi 0) (hfuel : 0 < fuel) :
    fragCmpLoop m w fuel fp fi 0 = -1 := by
  cases fuel with
  | zero => omega
  | succ fuel =>
  cases lab with
  | nil => exact absurd rfl hlab
  | cons b lab =>
    have hblt : 1 ≤ b ∧ b ≤ 255 := hb b (by simp)
    have hb0 : byteAt m fp = b := by
      have := hst 0 (by simp)
      simpa using this
    simp only [List.headD_cons] at hkey
    unfold fragCmpLoop
    rw [if_neg (by
      intro hcc
      have := hcc.2.2
      rw [Nat.add_zero] at this
      omega)]
    rw [if_neg (by omega), if_neg (by omega), if_neg (by rw [Nat.add_zero]; omega)]

theorem fragCmp_keygt {m : Buf} {w : List Nat} {lab : List Nat} {fuel fp fi : Nat}
    (hst : ∀ j, j < lab.length → byteAt m (fp + j) = lab.getD j 0)
    (hb : ∀ b, b ∈ lab → 1 ≤ b ∧ b ≤ 255)
    (hlab : lab ≠ []) (hfi : fi < w.length)
    (hkey : w.getD fi 0 < lab.headD 0) (hfuel : 0 < fuel) :
    fragCmpLoop m w fuel fp fi 0 = 0 := by
  cases fuel with
  | zero => omega
  | succ fuel =>
  cases lab with
  | nil => exact absurd rfl hlab
  | cons b lab =>
    have hblt : 1 ≤ b ∧ b ≤ 255 := hb b (by simp)
    have hb0 : byteAt m fp = b := by
      have := hst 0 (by simp)
      simpa using this
    simp only [List.headD_cons] at hkey
    unfold fragCmpLoop
    rw [if_neg (by
      intro hcc
      have := hcc.2.2
      rw [Nat.add_zero] at this
      omega)]
    rw [if_neg (by omega), if_neg (by omega), if_pos (by rw [Nat.add_zero]; omega)]
theorem trieMatches_pos {m : Buf} {w : List Nat} {off : Nat} {label : List Nat} {t : TNode}
    {sz fi : Nat} (hn : NodeAt m off label t sz) (hfi : fi < w.length)
    (hpre : label.isPrefixOf (w.drop fi) = true) :
    trieMatches m w off fi = Int.ofNat label.length := by
  have hlenle : label.length ≤ w.length - fi := by
    have h1 := isPrefixOf_length_le _ _ hpre
    rw [List.length_drop] at h1
    exact h1
  cases hn with
  | singleLeaf _ c _ h1 h2 h3 hhdr =>
    rw [drop_cons_getD hfi] at hpre
    simp only [List.isPrefixOf, Bool.and_true, beq_iff_eq] at hpre
    unfold trieMatches
    dsimp only
    rw [hhdr, and_bit31, shr23_and127]
    rw [if_pos (by omega), if_pos (by omega)]
    rfl
  | singleBranch _ c _ first _ h1 h2 h3 h4 hhdr hcnt hle hfirst hch hs =>
    rw [drop_cons_getD hfi] at hpre
    simp only [List.isPrefixOf, Bool.and_true, beq_iff_eq] at hpre
    unfold trieMatches
    dsimp only
    rw [hhdr, and_bit31, shr23_and127]
    rw [if_pos (by omega), if_pos (by omega)]
    rfl
  | multiLeaf _ _ label h1 h2 h3 hhdr hf =>
    unfold trieMatches
    dsimp only
    rw [hhdr, and_bit31, and_bit30]
    rw [if_neg (by omega), if_pos (by omega)]
    have := fragCmpPrefix label (w.length + 2) (off + 4) fi 0 hf.1 hf.2 h3
      (by omega) (by rw [Nat.add_zero]; exact hpre)
    simpa using this
  | multiBranch _ _ first label _ h1 h2 h3 h4 hhdr hcnt hle hfirst hf hch hs =>
    unfold trieMatches
    dsimp only
    rw [hhdr, and_bit31, and_bit30]
    rw [if_neg (by omega), if_neg (by omega)]
    have := fragCmpPrefix label (w.length + 2) (off + 9) fi 0 hf.1 hf.2 h3
      (by omega) (by rw [Nat.add_zero]; exact hpre)
    simpa using this

theorem trieMatches_nonpos {m : Buf} {w : List Nat} {off : Nat} {label : List Nat} {t : TNode}
    {sz fi : Nat} (hn : NodeAt m off label t sz) (hfi : fi < w.length)
    (hpre : label.isPrefixOf (w.drop fi) = false) :
    trieMatches m w off fi ≤ 0 := by
  cases hn with
  | singleLeaf _ c _ h1 h2 h3 hhdr =>
    rw [drop_cons_getD hfi] at hpre
    simp only [List.isPrefixOf, Bool.and_true, beq_eq_false_iff_ne] at hpre
    unfold trieMatches
    dsimp only
    rw [hhdr, and_bit31, shr23_and127]
    rw [if_pos (by omega), if_neg (by omega)]
    split
    · decide
    · decide
  | singleBranch _ c _ first _ h1 h2 h3 h4 hhdr hcnt hle hfirst hch hs =>
    rw [drop_cons_getD hfi] at hpre
    simp only [List.isPrefixOf, Bool.and_true, beq_eq_false_iff_ne] at hpre
    unfold trieMatches
    dsimp only
    rw [hhdr, and_bit31, shr23_and127]
    rw [if_pos (by omega), if_neg (by omega)]
    split
    · decide
    · decide
  | multiLeaf _ _ label h1 h2 h3 hhdr hf =>
    unfold trieMatches
    dsimp only
    rw [hhdr, and_bit31, and_bit30]
    rw [if_neg (by omega), if_pos (by omega)]
    exact fragCmp_le (w.length + 2) label (off + 4) fi 0 hf.1 h3 (by omega)
      (by rw [Nat.add_zero]; exact hpre)
  | multiBranch _ _ first label _ h1 h2 h3 h4 hhdr hcnt hle hfirst hf hch hs =>
    unfold trieMatches
    dsimp only
    rw [hhdr, and_bit31, and_bit30]
    rw [if_neg (by omega), if_neg (by omega)]
    exact fragCmp_le (w.length + 2) label (off + 9) fi 0 hf.1 h3 (by omega)
      (by rw [Nat.add_zero]; exact hpre)

theorem trieMatches_keylt {m : Buf} {w : List Nat} {off : Nat} {label : List Nat} {t : TNode}
    {sz fi : Nat} (hn : NodeAt m off label t sz) (hfi : fi < w.length)
    (hkey : label.headD 0 < w.getD fi 0) :
    trieMatches m w off fi = -1 := by
  cases hn with
  | singleLeaf _ c _ h1 h2 h3 hhdr =>
    simp only [List.headD_cons] at hkey
    unfold trieMatches
    dsimp only
    rw [hhdr, and_bit31, shr23_and127]
    rw [if_pos (by omega), if_neg (by omega), if_neg (by omega)]
  | singleBranch _ c _ first _ h1 h2 h3 h4 hhdr hcnt hle hfirst hch hs =>
    simp only [List.headD_cons] at hkey
    unfold trieMatches
    dsimp only
    rw [hhdr, and_bit31, shr23_and127]
    rw [if_pos (by omega), if_neg (by omega), if_neg (by omega)]
  | multiLeaf _ _ label h1 h2 h3 hhdr hf =>
    unfold trieMatches
    dsimp only
    rw [hhdr, and_bit31, and_bit30]
    rw [if_neg (by omega), if_pos (by omega)]
    exact fragCmp_keylt hf.1 h3 h2 hfi hkey (by omega)
  | multiBranch _ _ first label _ h1 h2 h3 h4 hhdr hcnt hle hfirst hf hch hs =>
    unfold trieMatches
    dsimp only
    rw [hhdr, and_bit31, and_bit30]
    rw [if_neg (by omega), if_neg (by omega)]
    exact fragCmp_keylt hf.1 h3 h2 hfi hkey (by omega)

theorem trieMatches_keygt {m : Buf} {w : List Nat} {off : Nat} {label : List Nat} {t : TNode}
    {sz fi : Nat} (hn : NodeAt m off label t sz) (hfi : fi < w.length)
    (hkey : w.getD fi 0 < label.headD 0) :
    trieMatches m w off fi = 0 := by
  cases hn with
  | singleLeaf _ c _ h1 h2 h3 hhdr =>
    simp only [List.headD_cons] at hkey
    unfold trieMatches
    dsimp only
    rw [hhdr, and_bit31, shr23_and127]
    rw [if_pos (by omega), if_neg (by omega), if_pos (by omega)]
  | singleBranch _ c _ first _ h1 h2 h3 h4 hhdr hcnt hle hfirst hch hs =>
    simp only [List.headD_cons] at hkey
    unfold trieMatches
    dsimp only
    rw [hhdr, and_bit31, shr23_and127]
    rw [if_pos (by omega), if_neg (by omega), if_pos (by omega)]
  | multiLeaf _ _ label h1 h2 h3 hhdr hf =>
    unfold trieMatches
    dsimp only
    rw [hhdr, and_bit31, and_bit30]
    rw [if_neg (by omega), if_pos (by omega)]
    exact fragCmp_keygt hf.1 h3 h2 hfi hkey (by omega)
  | multiBranch _ _ first label _ h1 h2 h3 h4 hhdr hcnt hle hfirst hf hch hs =>
    unfold trieMatches
    dsimp only
    rw [hhdr, and_bit31, and_bit30]
    rw [if_neg (by omega), if_neg (by omega)]
    exact fragCmp_keygt hf.1 h3 h2 hfi hkey (by omega)
theorem trieBinSearch_none {m : Buf} {w : List Nat} {offs : Nat → Nat} {fi : Nat} :
    ∀ fuel lo hi, (∀ j, lo ≤ j → j < hi → trieMatches m w (offs j) fi ≤ 0) →
    trieBinSearch m w offs fi fuel lo hi = none := by
  intro fuel
  induction fuel with
  | zero => intros; rfl
  | succ fuel ih =>
    intro lo hi hP
    unfold trieBinSearch
    by_cases hlh : lo ≥ hi
    · rw [if_pos hlh]
    · rw [if_neg hlh]
      dsimp only
      have hPmid := hP ((lo + hi) / 2) (by omega) (by omega)
      rw [if_neg (by omega)]
      split
      · exact ih _ _ (fun j hj1 hj2 => hP j (by omega) hj2)
      · exact ih _ _ (fun j hj1 hj2 => hP j hj1 (by omega))

theorem trieBinSearch_finds {m : Buf} {w : List Nat} {offs : Nat → Nat} {fi t : Nat} :
    ∀ fuel lo hi, lo ≤ t → t < hi → hi - lo < fuel →
    (∀ j, lo ≤ j → j < t → trieMatches m w (offs j) fi = -1) →
    (∀ j, t < j → j < hi → trieMatches m w (offs j) fi = 0) →
    0 < trieMatches m w (offs t) fi →
    trieBinSearch m w offs fi fuel lo hi =
      some (offs t, trieMatches m w (offs t) fi) := by
  intro fuel
  induction fuel with
  | zero => intro lo hi h1 h2 h3; omega
  | succ fuel ih =>
    intro lo hi hlot hthi hfuel hneg hzero hpos
    unfold trieBinSearch
    rw [if_neg (by omega)]
    dsimp only
    rcases Nat.lt_trichotomy ((lo + hi) / 2) t with hlt | heq | hgt
    · have hm := hneg ((lo + hi) / 2) (by omega) hlt
      rw [if_neg (by omega), if_pos (by omega)]
      exact ih ((lo + hi) / 2 + 1) hi (by omega) hthi (by omega)
        (fun j hj1 hj2 => hneg j (by omega) hj2) hzero hpos
    · rw [heq]
      rw [if_pos hpos]
    · have hm := hzero ((lo + hi) / 2) hgt (by omega)
      rw [if_neg (by omega), if_neg (by omega)]
      exact ih lo ((lo + hi) / 2) hlot hgt (by omega) hneg
        (fun j hj1 hj2 => hzero j hj1 (by omega)) hpos

theorem NodeAt_label_ne {m : Buf} {off : Nat} {label : List Nat} {t : TNode} {sz : Nat}
    (h : NodeAt m off label t sz) : label ≠ [] := by
  cases h with
  | singleLeaf _ c _ h1 h2 h3 hhdr => simp
  | singleBranch _ c _ first _ h1 h2 h3 h4 hhdr hcnt hle hfirst hch hs => simp
  | multiLeaf _ _ label h1 h2 h3 hhdr hf => exact h2
  | multiBranch _ _ first label _ h1 h2 h3 h4 hhdr hcnt hle hfirst hf hch hs => exact h2

theorem prefix_head_eq {w : List Nat} {fi : Nat} {lab : List Nat} (hfi : fi < w.length)
    (hlab : lab ≠ []) (hpre : lab.isPrefixOf (w.drop fi) = true) :
    lab.headD 0 = w.getD fi 0 := by
  cases lab with
  | nil => exact absurd rfl hlab
  | cons b l =>
    rw [drop_cons_getD hfi] at hpre
    simp only [List.isPrefixOf, Bool.and_eq_true, beq_iff_eq] at hpre
    simpa using hpre.1

theorem prefix_len_le {w : List Nat} {fi : Nat} {lab : List Nat}
    (hpre : lab.isPrefixOf (w.drop fi) = true) : lab.length ≤ w.length - fi := by
  have h1 := isPrefixOf_length_le _ _ hpre
  rw [List.length_drop] at h1
  exact h1

theorem findT_nil (f v : Nat) (cs : List (List Nat × TNode)) :
    findT f (TNode.node v cs) [] = some v := by
  cases f <;> rfl

theorem findT_cons (f v : Nat) (cs : List (List Nat × TNode)) (a : Nat) (as : List Nat) :
    findT (f + 1) (TNode.node v cs) (a :: as) =
      match cs.find? (fun c => c.1.isPrefixOf (a :: as)) with
      | none => none
      | some c => findT f c.2 ((a :: as).drop c.1.length) := rfl
theorem trieLookupAux_ok {m : Buf} {w : List Nat} (hml : m.length < 4294967296) :
    ∀ fuel fuelF off val cs fi,
    BodyAt m off val cs →
    fi ≤ w.length →
    w.length - fi < fuel → w.length - fi < fuelF →
    trieLookupAux m w fuel off (readU32 m off) fi =
      some (valueToResult (findT fuelF (TNode.node val cs) (w.drop fi))) := by
  intro fuel
  induction fuel with
  | zero => intro fuelF off val cs fi hb hfile h1 h2; omega
  | succ fuel ih =>
    intro fuelF off val cs fi hb hfile h1 h2
    unfold trieLookupAux
    by_cases hfiw : w.length ≤ fi
    · rw [if_pos hfiw]
      rw [List.drop_eq_nil_of_le hfiw, findT_nil, hb.hdr_val]
      rfl
    · rw [if_neg hfiw]
      have hfi : fi < w.length := by omega
      obtain ⟨f', rfl⟩ : ∃ f', fuelF = f' + 1 := ⟨fuelF - 1, by omega⟩
      obtain ⟨a, as, hda⟩ : ∃ a as, w.drop fi = a :: as := by
        cases hd : w.drop fi with
        | nil =>
          have := List.length_drop fi w
          rw [hd] at this
          simp at this
          omega
        | cons a as => exact ⟨a, as, rfl⟩
      by_cases hcs : cs = []
      · subst hcs
        rw [if_pos (hb.hdr_leaf.mpr rfl)]
        rw [hda, findT_cons]
        rfl
      · rw [if_neg (fun hbit => hcs (hb.hdr_leaf.mp hbit))]
        dsimp only
        rw [hb.count hcs]
        have hch := hb.children hcs
        cases hfind : cs.find? (fun c => c.1.isPrefixOf (w.drop fi)) with
        | none =>
          have hall : ∀ j, 0 ≤ j → j < cs.length →
              trieMatches m w (childOffsetAt m (readU32 m (off + 5)) j) fi ≤ 0 := by
            intro j _ hj
            obtain ⟨szj, hnj⟩ := children_offsets hml cs _ hch j hj
            apply trieMatches_nonpos hnj hfi
            have hmem : cs.getD j ([], TNode.node 0 []) ∈ cs := by
              rw [List.getD_eq_getElem _ _ hj]
              exact List.getElem_mem _
            have hnp := List.find?_eq_none.mp hfind _ hmem
            exact Bool.eq_false_iff.mpr (by simpa using hnp)
          rw [trieBinSearch_none (cs.length + 1) 0 cs.length hall]
          rw [hda] at hfind
          rw [hda, findT_cons, hfind]
          rfl
        | some c =>
          have hcp : c.1.isPrefixOf (w.drop fi) = true := by
            have := List.find?_some hfind
            simpa using this
          have hcmem := List.mem_of_find?_eq_some hfind
          obtain ⟨t, ht, hct⟩ := List.getElem_of_mem hcmem
          obtain ⟨szt, hnt⟩ := children_offsets hml cs _ hch t ht
          have hgetD : cs.getD t ([], TNode.node 0 []) = c := by
            rw [List.getD_eq_getElem _ _ ht, hct]
          rw [hgetD] at hnt
          have hlabne : c.1 ≠ [] := NodeAt_label_ne hnt
          have hlen1 : 1 ≤ c.1.length := by
            cases hc1 : c.1 with
            | nil => exact absurd hc1 hlabne
            | cons x xs => simp
          have hkey : c.1.headD 0 = w.getD fi 0 := prefix_head_eq hfi hlabne hcp
          have hsorted := List.pairwise_iff_getElem.mp hb.sorted
          have hPpos : 0 < trieMatches m w (childOffsetAt m (readU32 m (off + 5)) t) fi := by
            rw [trieMatches_pos hnt hfi hcp]
            exact Int.ofNat_pos.mpr (by omega)
          have hneg : ∀ j, 0 ≤ j → j < t →
              trieMatches m w (childOffsetAt m (readU32 m (off + 5)) j) fi = -1 := by
            intro j _ hjt
            obtain ⟨szj, hnj⟩ := children_offsets hml cs _ hch j (by omega)
            apply trieMatches_keylt hnj hfi
            have hs := hsorted j t (by omega) ht hjt
            rw [hct] at hs
            unfold keyOf at hs
            rw [List.getD_eq_getElem _ _ (by omega)]
            omega
          have hzero : ∀ j, t < j → j < cs.length →
              trieMatches m w (childOffsetAt m (readU32 m (off + 5)) j) fi = 0 := by
            intro j hjt hj
            obtain ⟨szj, hnj⟩ := children_offsets hml cs _ hch j hj
            apply trieMatches_keygt hnj hfi
            have hs := hsorted t j ht hj hjt
            rw [hct] at hs
            unfold keyOf at hs
            rw [List.getD_eq_getElem _ _ hj]
            omega
          rw [trieBinSearch_finds (cs.length + 1) 0 cs.length (by omega) ht (by omega)
            hneg hzero hPpos]
          dsimp only
          rw [trieMatches_pos hnt hfi hcp]
          have hplen := prefix_len_le hcp
          obtain ⟨cval, ccs, hc2⟩ : ∃ cval ccs, c.2 = TNode.node cval ccs := by
            cases hc : c.2 with
            | node cval ccs => exact ⟨cval, ccs, rfl⟩
          rw [hc2] at hnt
          have hbody := NodeAt_body hnt
          have hrec := ih f' (childOffsetAt m (readU32 m (off + 5)) t) cval ccs
            (fi + c.1.length) hbody (by omega) (by omega) (by omega)
          rw [show (Int.ofNat c.1.length).toNat = c.1.length from by simp]
          rw [hrec]
          rw [hda] at hfind
          rw [hda, findT_cons, hfind]
          dsimp only
          rw [hc2]
          rw [show (a :: as).drop c.1.length = w.drop (fi + c.1.length) from by
            rw [← hda, List.drop_drop]]
/-- C2: for every buffer whose 16-byte header points at a trie laid out per the
section-3 node layout (`RootAt`), `mapping` on a word returns exactly what the
abstract trie lookup dictates: the 23-bit value of the node reached by matching
the word's bytes edge by edge — hence the inserted value for every `(word,
value)` pair with `value ≠ 0x7FFFFF` — and `0xFFFFFFFF` when the word reaches
no node (not inserted as a terminal word) or reaches an interim node (value
field `0x7FFFFF`): `valueToResult` maps `some 0x7FFFFF` and `none` to
`0xFFFFFFFF`. -/
theorem mapping_correct {m : Buf} {root : TNode} {w : List Nat}
    (hml : m.length < 4294967296)
    (hroot : RootAt m (readU32 m 16) root) :
    mapping m (some w) = some (valueToResult (findT (w.length + 1) root w)) := by
  cases root with
  | node val cs =>
    unfold mapping
    dsimp only
    have h := trieLookupAux_ok (w := w) hml (w.length + 1) (w.length + 1) (readU32 m 16) val cs 0
      (RootAt_body hroot) (by omega) (by omega) (by omega)
    rw [List.drop_zero] at h
    exact h

/-- Witness for C2: a 34-byte buffer holding a root (at offset 20) with one
single-character child `[1] ↦ 5` (at offset 30); `mapping` finds the value 5
for the word `[1]`. -/
theorem mapping_correct_witness :
    mapping [0, 0, 0, 0, 0, 0, 0, 0, 0, 0, 0, 0, 0, 0, 0, 0, 20, 0, 0, 0,
        0, 0, 0, 0, 1, 30, 0, 0, 0, 0, 5, 0, 128, 192] (some [1]) =
      some (valueToResult (findT 2 (TNode.node 0 [([1], TNode.node 5 [])]) [1])) :=
  mapping_correct (by decide)
    (RootAt.branch 20 0 30 [([1], TNode.node 5 [])] (by decide) (List.cons_ne_nil _ _)
      (by decide) (by decide) (by decide) (by decide)
      (ChildrenAt.cons 30 4 [1] (TNode.node 5 []) []
        (NodeAt.singleLeaf 30 1 5 (by decide) (by decide) (by decide) (by decide))
        (ChildrenAt.nil 34))
      (List.Pairwise.cons (by simp) List.Pairwise.nil))
